import Mathlib

/-!
Verification of the regex-synthesis core of the `grex` repository
(`src/ast.rs`): the expression tree, the normalising combinators
`concatenate`/`union`, the affix helpers, and the state-elimination driver
`Expression::from`.

The development shallowly embeds the Rust code: each Rust function becomes a
Lean function of the same name (in camelCase).  The collaborator types that
live outside `src/ast.rs` (`Grapheme`, `GraphemeCluster`, `RegExpConfig`,
`DFA`) are modelled from the specification, as documented on each of them.

Every node of the Rust `Expression` carries a `&RegExpConfig` reference; all
nodes share the single configuration of the run, so following the
specification's design note ("thread the configuration explicitly through
combinator calls ... Neither choice changes semantics") the embedding drops
the per-node reference and passes the configuration to the functions that
actually read it.
-/

namespace Grex

open Computability

/-- Modelled from the spec: a `Grapheme` is "an opaque, equality-comparable,
clonable unit representing one user-perceived character plus optional
repetition bounds `(min, max)`"; the core "only inspects `maximum()` when
deciding single-codepoint eligibility, and only reads the first scalar value
when forming a character class". -/
structure Grapheme where
  value : List Char
  min : Nat
  max : Nat
deriving DecidableEq, Repr

/-- Modelled from the spec: a grapheme's contribution to the character count
of a cluster "under a given non-ASCII escaping mode".  An unescaped character
counts as one; an escaped non-ASCII character is replaced by its (longer)
escape sequence.  The development relies only on every character counting at
least one. -/
def Grapheme.charCountOne (escaped : Bool) (g : Grapheme) : Nat :=
  (g.value.map (fun c => if escaped && 127 < c.toNat then 6 else 1)).sum

/-- Modelled from the spec: a `GraphemeCluster` is "an ordered, mutable
sequence of graphemes"; `merge` concatenates two clusters, `size` is the
number of graphemes, and the character count sums the graphemes' counts. -/
abbrev GraphemeCluster := List Grapheme

/-- Modelled from the spec: `GraphemeCluster::char_count` under the
configured escaping mode. -/
def clusterCharCount (escaped : Bool) (cl : GraphemeCluster) : Nat :=
  (cl.map (Grapheme.charCountOne escaped)).sum

/-- Modelled from the spec: the configuration collaborator; the core "only
reads `is_non_ascii_char_escaped`". -/
structure RegExpConfig where
  isNonAsciiCharEscaped : Bool
deriving DecidableEq, Repr

/-- The `Quantifier` enum of `src/ast.rs`. -/
inductive Quantifier where
  | KleeneStar
  | QuestionMark
deriving DecidableEq, Repr

/-- The `Substring` enum of `src/ast.rs`. -/
inductive Substring where
  | Prefix
  | Suffix
deriving DecidableEq, Repr

/-- The `Expression` enum of `src/ast.rs`.  The `BTreeSet<char>` payload of
`CharacterClass` is embedded as a `Finset Char`; the `&RegExpConfig` payload
of every variant is elided (see the file comment). -/
inductive Expression where
  | Alternation (options : List Expression)
  | CharacterClass (charSet : Finset Char)
  | Concatenation (expr1 expr2 : Expression)
  | Literal (cluster : GraphemeCluster)
  | Repetition (expr : Expression) (quantifier : Quantifier)

mutual

/-- Decidable equality of expressions (the Rust type derives `PartialEq`); a
hand-written instance because the automatic derivation does not handle the
`List Expression` nesting. -/
def Expression.decEq : (a b : Expression) → Decidable (a = b)
  | .Alternation o1, .Alternation o2 =>
      match Expression.decEqList o1 o2 with
      | isTrue h => isTrue (by rw [h])
      | isFalse h => isFalse (fun hh => h (by injection hh))
  | .CharacterClass s1, .CharacterClass s2 =>
      if h : s1 = s2 then isTrue (by rw [h])
      else isFalse (fun hh => h (by injection hh))
  | .Concatenation a1 b1, .Concatenation a2 b2 =>
      match Expression.decEq a1 a2, Expression.decEq b1 b2 with
      | isTrue h1, isTrue h2 => isTrue (by rw [h1, h2])
      | isFalse h1, _ => isFalse (fun hh => h1 (by injection hh))
      | _, isFalse h2 => isFalse (fun hh => h2 (by injection hh))
  | .Literal c1, .Literal c2 =>
      if h : c1 = c2 then isTrue (by rw [h])
      else isFalse (fun hh => h (by injection hh))
  | .Repetition e1 q1, .Repetition e2 q2 =>
      match Expression.decEq e1 e2 with
      | isTrue h1 =>
          if h2 : q1 = q2 then isTrue (by rw [h1, h2])
          else isFalse (fun hh => h2 (by injection hh))
      | isFalse h1 => isFalse (fun hh => h1 (by injection hh))
  | .Alternation _, .CharacterClass _ => isFalse nofun
  | .Alternation _, .Concatenation _ _ => isFalse nofun
  | .Alternation _, .Literal _ => isFalse nofun
  | .Alternation _, .Repetition _ _ => isFalse nofun
  | .CharacterClass _, .Alternation _ => isFalse nofun
  | .CharacterClass _, .Concatenation _ _ => isFalse nofun
  | .CharacterClass _, .Literal _ => isFalse nofun
  | .CharacterClass _, .Repetition _ _ => isFalse nofun
  | .Concatenation _ _, .Alternation _ => isFalse nofun
  | .Concatenation _ _, .CharacterClass _ => isFalse nofun
  | .Concatenation _ _, .Literal _ => isFalse nofun
  | .Concatenation _ _, .Repetition _ _ => isFalse nofun
  | .Literal _, .Alternation _ => isFalse nofun
  | .Literal _, .CharacterClass _ => isFalse nofun
  | .Literal _, .Concatenation _ _ => isFalse nofun
  | .Literal _, .Repetition _ _ => isFalse nofun
  | .Repetition _ _, .Alternation _ => isFalse nofun
  | .Repetition _ _, .CharacterClass _ => isFalse nofun
  | .Repetition _ _, .Concatenation _ _ => isFalse nofun
  | .Repetition _ _, .Literal _ => isFalse nofun

/-- Decidable equality of expression lists, mutually with
`Expression.decEq`. -/
def Expression.decEqList : (a b : List Expression) → Decidable (a = b)
  | [], [] => isTrue rfl
  | x :: xs, y :: ys =>
      match Expression.decEq x y, Expression.decEqList xs ys with
      | isTrue h1, isTrue h2 => isTrue (by rw [h1, h2])
      | isFalse h1, _ => isFalse (fun hh => h1 (by injection hh))
      | _, isFalse h2 => isFalse (fun hh => h2 (by injection hh))
  | [], _ :: _ => isFalse nofun
  | _ :: _, [] => isFalse nofun

end

instance : DecidableEq Expression := Expression.decEq

namespace Expression

/-- `Expression::is_empty` of `src/ast.rs` (lines 156-161). -/
def isEmpty : Expression → Bool
  | .Literal cluster => cluster.isEmpty
  | _ => false

/-- `Expression::is_single_codepoint` of `src/ast.rs` (lines 163-172).  The
Rust `&&` short-circuits, so the `first().unwrap()` is only reached when the
character count is 1 (hence the cluster is nonempty); the `none` branch of
the embedded `match` is therefore unreachable whenever the left conjunct
holds. -/
def isSingleCodepoint (config : RegExpConfig) : Expression → Bool
  | .CharacterClass _ => true
  | .Literal cluster =>
      clusterCharCount config.isNonAsciiCharEscaped cluster == 1 &&
        (match cluster.head? with
         | some g => g.max == 1
         | none => false)
  | _ => false

/-- `Expression::len` of `src/ast.rs` (lines 174-182).  On an `Alternation`
the Rust code reads `options.first().unwrap()`, which panics on an empty
alternation; the embedding returns the junk value `0` there (`lenChecked`
below models the panic precisely). -/
def len : Expression → Nat
  | .Alternation options =>
      match options with
      | o :: _ => o.len
      | [] => 0
  | .CharacterClass _ => 1
  | .Concatenation expr1 expr2 => expr1.len + expr2.len
  | .Literal cluster => cluster.length
  | .Repetition expr _ => expr.len

/-- Panic-aware version of `Expression::len`: returns `none` exactly when
some `Alternation` met along the computation has no options, i.e. when the
Rust `options.first().unwrap()` would panic. -/
def lenChecked : Expression → Option Nat
  | .Alternation options =>
      match options with
      | o :: _ => o.lenChecked
      | [] => none
  | .CharacterClass _ => some 1
  | .Concatenation expr1 expr2 => do
      let a ← expr1.lenChecked
      let b ← expr2.lenChecked
      pure (a + b)
  | .Literal cluster => some cluster.length
  | .Repetition expr _ => expr.lenChecked

/-- `Expression::precedence` of `src/ast.rs` (lines 184-190). -/
def precedence : Expression → Nat
  | .Alternation _ | .CharacterClass _ => 1
  | .Concatenation _ _ | .Literal _ => 2
  | .Repetition _ _ => 3

/-- `Expression::remove_substring` of `src/ast.rs` (lines 192-217), embedded
functionally (the Rust method mutates `self` in place).  `drain(..length)`
drops the first `length` graphemes and `drain(len - length..)` drops the last
`length` graphemes; the caller guarantees `length` does not exceed the
available graphemes. -/
def removeSubstring (e : Expression) (substring : Substring) (length : Nat) :
    Expression :=
  match e with
  | .Concatenation expr1 expr2 =>
      match substring with
      | .Prefix =>
          match expr1 with
          | .Literal _ =>
              .Concatenation (expr1.removeSubstring substring length) expr2
          | _ => .Concatenation expr1 expr2
      | .Suffix =>
          match expr2 with
          | .Literal _ =>
              .Concatenation expr1 (expr2.removeSubstring substring length)
          | _ => .Concatenation expr1 expr2
  | .Literal cluster =>
      match substring with
      | .Prefix => .Literal (cluster.drop length)
      | .Suffix => .Literal (cluster.take (cluster.length - length))
  | other => other

/-- `Expression::value` of `src/ast.rs` (lines 219-231). -/
def value (e : Expression) (substring : Option Substring) :
    Option (List Grapheme) :=
  match e with
  | .Concatenation expr1 expr2 =>
      match substring with
      | some .Prefix => expr1.value none
      | some .Suffix => expr2.value none
      | none => none
  | .Literal cluster => some cluster
  | _ => none

/-- `Expression::repeat_zero_or_more_times` of `src/ast.rs` (lines 233-246). -/
def repeatZeroOrMoreTimes (expr : Option Expression) : Option Expression :=
  match expr with
  | some value => some (.Repetition value .KleeneStar)
  | none => none

/-- The literal-merging cascade of `Expression::concatenate` (lines 267-312
of `src/ast.rs`), reached when both operands are present and neither is
epsilon: merge adjacent literals (`GraphemeCluster::merge` is cluster
concatenation, `++`) and otherwise build a plain concatenation. -/
def concatOp (expr1 expr2 : Expression) : Expression :=
  match expr1, expr2 with
  | .Literal graphemesA, .Literal graphemesB =>
      .Literal (graphemesA ++ graphemesB)
  | .Literal graphemesA, .Concatenation (.Literal graphemesFirst) second =>
      .Concatenation (.Literal (graphemesA ++ graphemesFirst)) second
  | .Concatenation first (.Literal graphemesSecond), .Literal graphemesB =>
      .Concatenation first (.Literal (graphemesSecond ++ graphemesB))
  | e1, e2 => .Concatenation e1 e2

/-- `Expression::concatenate` of `src/ast.rs` (lines 248-313). -/
def concatenate (a b : Option Expression) : Option Expression :=
  match a, b with
  | some expr1, some expr2 =>
      if expr1.isEmpty then b
      else if expr2.isEmpty then a
      else some (concatOp expr1 expr2)
  | _, _ => none

theorem concatenate_some_some (e1 e2 : Expression) :
    concatenate (some e1) (some e2) =
      if e1.isEmpty then some e2
      else if e2.isEmpty then some e1
      else some (concatOp e1 e2) := rfl

theorem concatOp_eq_default (e1 e2 : Expression)
    (h3 : ∀ l1 l2, ¬(e1 = .Literal l1 ∧ e2 = .Literal l2))
    (h4 : ∀ l1 lf second,
      ¬(e1 = .Literal l1 ∧ e2 = .Concatenation (.Literal lf) second))
    (h5 : ∀ first ls l2,
      ¬(e1 = .Concatenation first (.Literal ls) ∧ e2 = .Literal l2)) :
    concatOp e1 e2 = .Concatenation e1 e2 := by
  cases e1 with
  | Literal l1 =>
      cases e2 with
      | Literal l2 => exact absurd ⟨rfl, rfl⟩ (h3 l1 l2)
      | Concatenation cf cs =>
          cases cf with
          | Literal lf => exact absurd ⟨rfl, rfl⟩ (h4 l1 lf cs)
          | Alternation o => rfl
          | CharacterClass s => rfl
          | Concatenation x y => rfl
          | Repetition x q => rfl
      | Alternation o => rfl
      | CharacterClass s => rfl
      | Repetition x q => rfl
  | Concatenation cf cs =>
      cases e2 with
      | Literal l2 =>
          cases cs with
          | Literal ls => exact absurd ⟨rfl, rfl⟩ (h5 cf ls l2)
          | Alternation o => rfl
          | CharacterClass s => rfl
          | Concatenation x y => rfl
          | Repetition x q => rfl
      | Alternation o => cases cs <;> rfl
      | CharacterClass s => cases cs <;> rfl
      | Concatenation x y => cases cs <;> rfl
      | Repetition x q => cases cs <;> rfl
  | Alternation o => cases e2 <;> rfl
  | CharacterClass s => cases e2 <;> rfl
  | Repetition x q => cases e2 <;> rfl

mutual

/-- The per-option contribution of `Expression::flatten_alternations`
(lines 418-429 of `src/ast.rs`): an `Alternation` contributes its flattened
options, any other expression contributes itself. -/
def flattenOne : Expression → List Expression
  | .Alternation exprOptions => flattenList exprOptions
  | option => [option]

/-- The loop of `Expression::flatten_alternations`: options are processed in
order, each appending its contribution to the accumulator. -/
def flattenList : List Expression → List Expression
  | [] => []
  | option :: rest => flattenOne option ++ flattenList rest

end

/-- `Expression::flatten_alternations` of `src/ast.rs` (lines 418-429),
embedded functionally: the Rust function pushes each flattened leaf of
`currentOptions`, in order, onto the accumulator `flattenedOptions`, so it
computes exactly the accumulator followed by the in-order leaves. -/
def flattenAlternations (flattenedOptions : List Expression)
    (currentOptions : List Expression) : List Expression :=
  flattenedOptions ++ flattenList currentOptions

/-- The comparison of `Expression::new_alternation`'s `sort_by` call:
`|a, b| b.len().cmp(&a.len())` orders by non-increasing `len()`. -/
def lenDesc (a b : Expression) : Prop := b.len ≤ a.len

instance : DecidableRel lenDesc := fun a b => Nat.decLe b.len a.len

/-- `Expression::new_alternation` of `src/ast.rs` (lines 116-125).  Rust's
`sort_by` is a stable sort; the output of a stable sort is uniquely
determined by the comparator and the input order, so the embedding uses
insertion sort, which is stable (the characterization is proved with
claim C5 below). -/
def newAlternation (expr1 expr2 : Expression) : Expression :=
  let options := flattenAlternations [] [expr1, expr2]
  .Alternation (List.insertionSort lenDesc options)

/-- `Expression::new_character_class` of `src/ast.rs` (lines 127-134). -/
def newCharacterClass (firstCharSet secondCharSet : Finset Char) : Expression :=
  .CharacterClass (firstCharSet ∪ secondCharSet)

/-- `Expression::extract_character_set` of `src/ast.rs` (lines 431-447).  The
Rust code unwraps the first grapheme of a literal and its first scalar; the
embedding returns the junk value `∅` where the Rust code would panic (never
reached on the well-formed expressions this development works with). -/
def extractCharacterSet (expr : Expression) : Finset Char :=
  match expr with
  | .Literal cluster =>
      match cluster.head? with
      | some g =>
          match g.value.head? with
          | some singleChar => {singleChar}
          | none => ∅
      | none => ∅
  | .CharacterClass charSet => charSet
  | _ => ∅

/-- The loop body of `Expression::find_common_substring` (lines 476-487 of
`src/ast.rs`): `zip_longest` pairs elements positionally, pushes while the
two graphemes are equal and breaks at the first mismatch or at the end of the
shorter sequence. -/
def commonRun : List Grapheme → List Grapheme → List Grapheme
  | a :: restA, b :: restB => if a = b then a :: commonRun restA restB else []
  | _, _ => []

/-- `Expression::find_common_substring` of `src/ast.rs` (lines 462-498). -/
def findCommonSubstring (a b : Expression) (substring : Substring) :
    Option (List Grapheme) :=
  let graphemesA := (a.value (some substring)).getD []
  let graphemesB := (b.value (some substring)).getD []
  let pair :=
    match substring with
    | .Suffix => (graphemesA.reverse, graphemesB.reverse)
    | .Prefix => (graphemesA, graphemesB)
  let commonGraphemes := commonRun pair.1 pair.2
  let commonGraphemes :=
    match substring with
    | .Suffix => commonGraphemes.reverse
    | .Prefix => commonGraphemes
  if commonGraphemes.isEmpty then none else some commonGraphemes

/-- `Expression::remove_common_substring` of `src/ast.rs` (lines 449-460),
embedded functionally: returns the two (possibly trimmed) expressions
together with the removed run. -/
def removeCommonSubstring (a b : Expression) (substring : Substring) :
    Expression × Expression × Option (List Grapheme) :=
  match findCommonSubstring a b substring with
  | some value =>
      (a.removeSubstring substring value.length,
       b.removeSubstring substring value.length, some value)
  | none => (a, b, none)

/-- The epsilon-absorption step of `Expression::union` (lines 327-341 of
`src/ast.rs`): the first `result` assignment. -/
def unionAbsorbEpsilon (expr1 expr2 : Expression) : Option Expression :=
  if expr1.isEmpty then some (.Repetition expr2 .QuestionMark)
  else if expr2.isEmpty then some (.Repetition expr1 .QuestionMark)
  else none

/-- The first optional-repetition absorption of `Expression::union`
(lines 343-355 of `src/ast.rs`). -/
def unionAbsorbLeftQuestion (expr1 expr2 : Expression) : Option Expression :=
  match expr1 with
  | .Repetition expr .QuestionMark =>
      some (.Repetition (newAlternation expr expr2) .QuestionMark)
  | _ => none

/-- The second optional-repetition absorption of `Expression::union`
(lines 357-369 of `src/ast.rs`). -/
def unionAbsorbRightQuestion (expr1 expr2 : Expression) : Option Expression :=
  match expr2 with
  | .Repetition expr .QuestionMark =>
      some (.Repetition (newAlternation expr1 expr) .QuestionMark)
  | _ => none

/-- The character-class merging step of `Expression::union` (lines 371-379 of
`src/ast.rs`). -/
def unionMergeClasses (config : RegExpConfig) (expr1 expr2 : Expression) :
    Option Expression :=
  if expr1.isSingleCodepoint config && expr2.isSingleCodepoint config then
    some (newCharacterClass (extractCharacterSet expr1) (extractCharacterSet expr2))
  else none

/-- The cascade of `result` assignments in `Expression::union` (lines 327-383
of `src/ast.rs`), applied to the two operands after affix factoring: each
step runs only if every earlier step left `result` as `None`, and the
fallback builds an alternation. -/
def unionCore (config : RegExpConfig) (expr1 expr2 : Expression) : Expression :=
  match unionAbsorbEpsilon expr1 expr2 with
  | some r => r
  | none =>
      match unionAbsorbLeftQuestion expr1 expr2 with
      | some r => r
      | none =>
          match unionAbsorbRightQuestion expr1 expr2 with
          | some r => r
          | none =>
              match unionMergeClasses config expr1 expr2 with
              | some r => r
              | none => newAlternation expr1 expr2

/-- The affix re-wrapping steps of `Expression::union` (lines 385-399 of
`src/ast.rs`). -/
def unionWrapAffixes (result : Expression)
    (commonPrefix commonSuffix : Option (List Grapheme)) : Expression :=
  let result :=
    match commonPrefix with
    | some prefixRun => .Concatenation (.Literal prefixRun) result
    | none => result
  match commonSuffix with
  | some suffixRun => .Concatenation result (.Literal suffixRun)
  | none => result

/-- `Expression::union` of `src/ast.rs` (lines 315-416).  When both operands
are present and equal the Rust code takes the `else if a.is_some()` branch
and returns `a`; when exactly one is present it is returned; when none is,
`None`. -/
def union (config : RegExpConfig) (a b : Option Expression) :
    Option Expression :=
  match a, b with
  | some expr1, some expr2 =>
      if expr1 = expr2 then some expr1
      else
        let prefixStep := removeCommonSubstring expr1 expr2 .Prefix
        let suffixStep := removeCommonSubstring prefixStep.1 prefixStep.2.1 .Suffix
        some (unionWrapAffixes (unionCore config suffixStep.1 suffixStep.2.1)
          prefixStep.2.2 suffixStep.2.2)
  | some _, none => a
  | none, some _ => b
  | none, none => none

end Expression

/-- Modelled from the spec: the DFA collaborator.  The spec's interface
provides `states_in_depth_first_order()`, `state_count()`,
`is_final_state(handle)` and `outgoing_edges(handle)`; the embedding
identifies a state handle with its index in the depth-first order (the Rust
driver looks an edge target up by `position` in that list), so states are
`0, ..., stateCount - 1`, with `0` the start state. -/
structure DFA where
  stateCount : Nat
  isFinalState : Nat → Bool
  outgoingEdges : Nat → List (Grapheme × Nat)

/-- A transition matrix slot array, indexed by a pair of state indices: the
`Array2<Option<Expression>>` of `Expression::from`. -/
abbrev EMat := Nat → Nat → Option Expression

/-- The accept vector: the `Array1<Option<Expression>>` of
`Expression::from`. -/
abbrev EVec := Nat → Option Expression

/-- Pointwise update of a transition matrix at one index pair. -/
def updMat (m : EMat) (i j : Nat) (v : Option Expression) : EMat :=
  fun i' j' => if i' = i ∧ j' = j then v else m i' j'

/-- Pointwise update of an accept vector at one index. -/
def updVec (m : EVec) (i : Nat) (v : Option Expression) : EVec :=
  fun i' => if i' = i then v else m i'

namespace Expression

/-- The inner edge loop of the build phase of `Expression::from`
(lines 64-75 of `src/ast.rs`): each outgoing edge of state `i` contributes a
single-grapheme literal to `a[(i, j)]`, via `union` when the slot is already
occupied. -/
def buildEdges (config : RegExpConfig) (i : Nat)
    (edges : List (Grapheme × Nat)) (a : EMat) : EMat :=
  edges.foldl
    (fun a edge =>
      let literal : Expression := .Literal [edge.1]
      let j := edge.2
      updMat a i j
        (if (a i j).isSome then union config (a i j) (some literal)
         else some literal))
    a

/-- One iteration of the build loop of `Expression::from` (lines 56-76 of
`src/ast.rs`): seed `b[i]` with the epsilon literal when state `i` is final,
then fold the outgoing edges of state `i` into row `i` of `a`. -/
def buildStep (config : RegExpConfig) (d : DFA) (ab : EMat × EVec) (i : Nat) :
    EMat × EVec :=
  let b := if d.isFinalState i then updVec ab.2 i (some (.Literal [])) else ab.2
  (buildEdges config i (d.outgoingEdges i) ab.1, b)

/-- The build phase of `Expression::from` (lines 53-76 of `src/ast.rs`): both
arrays start with every slot `None` (`Array::default`). -/
def buildPhase (config : RegExpConfig) (d : DFA) : EMat × EVec :=
  (List.range d.stateCount).foldl (buildStep config d)
    (fun _ _ => none, fun _ => none)

/-- The self-loop absorption part of one elimination stage (lines 79-92 of
`src/ast.rs`): when `a[(n, n)]` is present, prepend its Kleene star to
`b[n]` and to every `a[(n, j)]` with `j < n`. -/
def elimSelf (config : RegExpConfig) (n : Nat) (ab : EMat × EVec) :
    EMat × EVec :=
  if (ab.1 n n).isSome then
    let b := updVec ab.2 n
      (concatenate (repeatZeroOrMoreTimes (ab.1 n n)) (ab.2 n))
    let a := (List.range n).foldl
      (fun a j =>
        updMat a n j (concatenate (repeatZeroOrMoreTimes (a n n)) (a n j)))
      ab.1
    (a, b)
  else ab

/-- The incoming-absorption part of one elimination stage (lines 94-106 of
`src/ast.rs`): for every `i < n` with `a[(i, n)]` present, route state `n`'s
solved row into row `i`. -/
def elimIncoming (config : RegExpConfig) (n : Nat) (ab : EMat × EVec) :
    EMat × EVec :=
  (List.range n).foldl
    (fun ab i =>
      if (ab.1 i n).isSome then
        let b := updVec ab.2 i
          (union config (ab.2 i) (concatenate (ab.1 i n) (ab.2 n)))
        let a := (List.range n).foldl
          (fun a j =>
            updMat a i j (union config (a i j) (concatenate (a i n) (a n j))))
          ab.1
        (a, b)
      else ab)
    ab

/-- One stage of the elimination loop of `Expression::from` (the body of
`for n in (0..state_count).rev()`, lines 78-107 of `src/ast.rs`). -/
def elimStage (config : RegExpConfig) (n : Nat) (ab : EMat × EVec) :
    EMat × EVec :=
  elimIncoming config n (elimSelf config n ab)

/-- The elimination loop of `Expression::from`: stages `n - 1, ..., 0` in
this order (`(0..state_count).rev()`). -/
def runElim (config : RegExpConfig) : Nat → EMat × EVec → EMat × EVec
  | 0, ab => ab
  | n + 1, ab => runElim config n (elimStage config n ab)

/-- `Expression::from` of `src/ast.rs` (lines 49-114); named `fromDfa`
because `from` is a reserved word in Lean.  Returns `b[0]` when the state
vector is nonempty and that slot is present, and the epsilon literal
otherwise. -/
def fromDfa (d : DFA) (config : RegExpConfig) : Expression :=
  let ab := runElim config d.stateCount (buildPhase config d)
  if d.stateCount ≠ 0 ∧ (ab.2 0).isSome then (ab.2 0).getD (.Literal [])
  else .Literal []

end Expression

/-! ## Basic properties of the affix helpers -/

namespace Expression

theorem commonRun_nil_left (y : List Grapheme) : commonRun [] y = [] := by
  cases y <;> rfl

theorem commonRun_nil_right (x : List Grapheme) : commonRun x [] = [] := by
  cases x <;> rfl

theorem commonRun_cons (a b : Grapheme) (x y : List Grapheme) :
    commonRun (a :: x) (b :: y) =
      if a = b then a :: commonRun x y else [] := rfl

theorem commonRun_prefix_left :
    ∀ x y : List Grapheme, commonRun x y <+: x := by
  intro x
  induction x with
  | nil => intro y; simp [commonRun_nil_left]
  | cons a restA ih =>
      intro y
      cases y with
      | nil => simp [commonRun_nil_right]
      | cons b restB =>
          rw [commonRun_cons]
          by_cases h : a = b
          · rw [if_pos h]
            exact List.cons_prefix_cons.mpr ⟨rfl, ih restB⟩
          · simp [h]

theorem commonRun_prefix_right :
    ∀ x y : List Grapheme, commonRun x y <+: y := by
  intro x
  induction x with
  | nil => intro y; simp [commonRun_nil_left]
  | cons a restA ih =>
      intro y
      cases y with
      | nil => simp [commonRun_nil_right]
      | cons b restB =>
          rw [commonRun_cons]
          by_cases h : a = b
          · subst h
            rw [if_pos rfl]
            exact List.cons_prefix_cons.mpr ⟨rfl, ih restB⟩
          · simp [h]

theorem commonRun_longest :
    ∀ x y q : List Grapheme, q <+: x → q <+: y → q <+: commonRun x y := by
  intro x
  induction x with
  | nil =>
      intro y q hx _
      rw [commonRun_nil_left]
      rw [List.prefix_nil.mp hx]
  | cons a restA ih =>
      intro y q hx hy
      cases q with
      | nil => exact List.nil_prefix
      | cons c restQ =>
          cases y with
          | nil => exact absurd (List.prefix_nil.mp hy) (by simp)
          | cons b restB =>
              obtain ⟨hca, hqa⟩ := List.cons_prefix_cons.mp hx
              obtain ⟨hcb, hqb⟩ := List.cons_prefix_cons.mp hy
              subst hca
              rw [commonRun_cons, if_pos hcb]
              exact List.cons_prefix_cons.mpr ⟨rfl, ih restB restQ hqa hqb⟩

/-- A run `q` of graphemes is an affix of `v` on the given side. -/
def isAffixOn (substring : Substring) (q v : List Grapheme) : Prop :=
  match substring with
  | .Prefix => q <+: v
  | .Suffix => q <:+ v

instance (s : Substring) (q v : List Grapheme) : Decidable (isAffixOn s q v) := by
  cases s <;> simp [isAffixOn] <;> infer_instance

end Expression

/-! ## Claim C7: `find_common_substring` returns the longest common affix -/

namespace Expression

/-- Specification of `find_common_substring`: the returned run is a common
affix of the two (possibly absent) exposed values, every common affix is an
affix of it, it is never empty, and `none` is returned exactly when the only
common affix is empty. -/
theorem findCommonSubstring_spec (a b : Expression) (s : Substring) :
    (∀ p, findCommonSubstring a b s = some p →
      p ≠ [] ∧
      isAffixOn s p ((a.value (some s)).getD []) ∧
      isAffixOn s p ((b.value (some s)).getD []) ∧
      ∀ q, isAffixOn s q ((a.value (some s)).getD []) →
        isAffixOn s q ((b.value (some s)).getD []) → isAffixOn s q p) ∧
    (findCommonSubstring a b s = none →
      ∀ q, isAffixOn s q ((a.value (some s)).getD []) →
        isAffixOn s q ((b.value (some s)).getD []) → q = []) := by
  set va := (a.value (some s)).getD [] with hva
  set vb := (b.value (some s)).getD [] with hvb
  cases s with
  | Prefix =>
      have hrun : findCommonSubstring a b .Prefix =
          (if (commonRun va vb).isEmpty then none else some (commonRun va vb)) := rfl
      constructor
      · intro p hp
        rw [hrun] at hp
        by_cases h : (commonRun va vb).isEmpty
        · simp [h] at hp
        · rw [if_neg h] at hp
          obtain rfl : commonRun va vb = p := by simpa using hp
          refine ⟨by simpa using h, commonRun_prefix_left va vb,
            commonRun_prefix_right va vb, ?_⟩
          intro q hqa hqb
          exact commonRun_longest va vb q hqa hqb
      · intro hnone q hqa hqb
        rw [hrun] at hnone
        by_cases h : (commonRun va vb).isEmpty
        · have hcr : commonRun va vb = [] := by simpa using h
          have := commonRun_longest va vb q hqa hqb
          rw [hcr] at this
          exact List.prefix_nil.mp this
        · simp [h] at hnone
  | Suffix =>
      have hrun : findCommonSubstring a b .Suffix =
          (if ((commonRun va.reverse vb.reverse).reverse).isEmpty then none
           else some (commonRun va.reverse vb.reverse).reverse) := by
        show (if (commonRun va.reverse vb.reverse).reverse.isEmpty then none
            else some (commonRun va.reverse vb.reverse).reverse) = _
        rfl
      constructor
      · intro p hp
        rw [hrun] at hp
        by_cases h : (commonRun va.reverse vb.reverse).reverse.isEmpty
        · simp [h] at hp
        · rw [if_neg h] at hp
          obtain rfl : (commonRun va.reverse vb.reverse).reverse = p := by
            simpa using hp
          refine ⟨by simpa using h, ?_, ?_, ?_⟩
          · show (commonRun va.reverse vb.reverse).reverse <:+ va
            rw [← List.reverse_prefix]
            simpa using commonRun_prefix_left va.reverse vb.reverse
          · show (commonRun va.reverse vb.reverse).reverse <:+ vb
            rw [← List.reverse_prefix]
            simpa using commonRun_prefix_right va.reverse vb.reverse
          · intro q hqa hqb
            show q <:+ (commonRun va.reverse vb.reverse).reverse
            rw [← List.reverse_prefix]
            simp only [List.reverse_reverse]
            exact commonRun_longest va.reverse vb.reverse q.reverse
              (by rw [List.reverse_prefix]; exact hqa)
              (by rw [List.reverse_prefix]; exact hqb)
      · intro hnone q hqa hqb
        rw [hrun] at hnone
        by_cases h : (commonRun va.reverse vb.reverse).reverse.isEmpty
        · have hcr : commonRun va.reverse vb.reverse = [] := by simpa using h
          have := commonRun_longest va.reverse vb.reverse q.reverse
            (by rw [List.reverse_prefix]; exact hqa)
            (by rw [List.reverse_prefix]; exact hqb)
          rw [hcr] at this
          simpa using List.prefix_nil.mp this
        · simp [h] at hnone

/-- C7: `find_common_substring(a, b, side)` returns the longest run of
graphemes that is a common prefix (side = Prefix) or common suffix
(side = Suffix) of `a.value(side)` and `b.value(side)`, an absent value
standing for the empty sequence, and returns none exactly when that common
run is empty: every common affix is an affix of the returned run, the
returned run is never empty, and when `none` is returned the only common
affix is empty. -/
theorem claim_C7 (a b : Expression) (s : Substring) :
    (∀ p, findCommonSubstring a b s = some p →
      p ≠ [] ∧
      isAffixOn s p ((a.value (some s)).getD []) ∧
      isAffixOn s p ((b.value (some s)).getD []) ∧
      ∀ q, isAffixOn s q ((a.value (some s)).getD []) →
        isAffixOn s q ((b.value (some s)).getD []) → isAffixOn s q p) ∧
    (findCommonSubstring a b s = none →
      ∀ q, isAffixOn s q ((a.value (some s)).getD []) →
        isAffixOn s q ((b.value (some s)).getD []) → q = []) :=
  findCommonSubstring_spec a b s

/-- Witness for C7 at concrete inputs: the common prefix of the literals
`ab` and `ax` is `a`. -/
theorem claim_C7_witness :
    (findCommonSubstring (.Literal [⟨['a'], 1, 1⟩, ⟨['b'], 1, 1⟩])
        (.Literal [⟨['a'], 1, 1⟩, ⟨['x'], 1, 1⟩]) .Prefix = some [⟨['a'], 1, 1⟩]) ∧
      [⟨['a'], 1, 1⟩] ≠ ([] : List Grapheme) ∧
      isAffixOn .Prefix [⟨['a'], 1, 1⟩]
        (((Expression.Literal [⟨['a'], 1, 1⟩, ⟨['b'], 1, 1⟩]).value
          (some .Prefix)).getD []) := by
  have h := (claim_C7 (.Literal [⟨['a'], 1, 1⟩, ⟨['b'], 1, 1⟩])
    (.Literal [⟨['a'], 1, 1⟩, ⟨['x'], 1, 1⟩]) .Prefix).1 [⟨['a'], 1, 1⟩] (by decide)
  exact ⟨by decide, h.1, h.2.1⟩

end Expression


/-! ## Claim C8: `remove_substring` drains literals and is a frame-preserving
no-op elsewhere -/

namespace Expression

/-- C8: for `n` not exceeding the available graphemes, `remove_substring`
on a `Literal` drains exactly the `n` leading (Prefix) or trailing (Suffix)
graphemes; on a `Concatenation` it rewrites the left (Prefix) or right
(Suffix) child only when that child is a `Literal`, leaving the other child
and all other structure unchanged; on every other variant the expression is
unchanged. -/
theorem claim_C8 :
    (∀ (cluster : GraphemeCluster) (n : Nat), n ≤ cluster.length →
      ((Expression.Literal cluster).removeSubstring .Prefix n =
          .Literal (cluster.drop n) ∧
        cluster = cluster.take n ++ cluster.drop n ∧
        (cluster.take n).length = n) ∧
      ((Expression.Literal cluster).removeSubstring .Suffix n =
          .Literal (cluster.take (cluster.length - n)) ∧
        cluster = cluster.take (cluster.length - n) ++
          cluster.drop (cluster.length - n) ∧
        (cluster.drop (cluster.length - n)).length = n)) ∧
    (∀ (expr1 expr2 : Expression) (n : Nat),
      ((∃ cl, expr1 = .Literal cl) →
        (Expression.Concatenation expr1 expr2).removeSubstring .Prefix n =
          .Concatenation (expr1.removeSubstring .Prefix n) expr2) ∧
      ((∀ cl, expr1 ≠ .Literal cl) →
        (Expression.Concatenation expr1 expr2).removeSubstring .Prefix n =
          .Concatenation expr1 expr2) ∧
      ((∃ cl, expr2 = .Literal cl) →
        (Expression.Concatenation expr1 expr2).removeSubstring .Suffix n =
          .Concatenation expr1 (expr2.removeSubstring .Suffix n)) ∧
      ((∀ cl, expr2 ≠ .Literal cl) →
        (Expression.Concatenation expr1 expr2).removeSubstring .Suffix n =
          .Concatenation expr1 expr2)) ∧
    (∀ (e : Expression) (s : Substring) (n : Nat),
      (∀ cl, e ≠ .Literal cl) → (∀ e1 e2, e ≠ .Concatenation e1 e2) →
      e.removeSubstring s n = e) := by
  refine ⟨?_, ?_, ?_⟩
  · intro cluster n hn
    refine ⟨⟨rfl, (List.take_append_drop n cluster).symm, ?_⟩,
      ⟨rfl, (List.take_append_drop _ cluster).symm, ?_⟩⟩
    · simpa using hn
    · simp [Nat.sub_sub_self hn]
  · intro expr1 expr2 n
    refine ⟨?_, ?_, ?_, ?_⟩
    · rintro ⟨cl, rfl⟩; rfl
    · intro h
      cases expr1 with
      | Literal cl => exact absurd rfl (h cl)
      | Alternation o => rfl
      | CharacterClass s => rfl
      | Concatenation a b => rfl
      | Repetition e q => rfl
    · rintro ⟨cl, rfl⟩; rfl
    · intro h
      cases expr2 with
      | Literal cl => exact absurd rfl (h cl)
      | Alternation o => rfl
      | CharacterClass s => rfl
      | Concatenation a b => rfl
      | Repetition e q => rfl
  · intro e s n hlit hcat
    cases e with
    | Literal cl => exact absurd rfl (hlit cl)
    | Concatenation a b => exact absurd rfl (hcat a b)
    | Alternation o => cases s <;> rfl
    | CharacterClass cs => cases s <;> rfl
    | Repetition x q => cases s <;> rfl

/-- Witness for C8 at concrete inputs: draining two leading graphemes of the
literal `abcdef` leaves `cdef` (the spec's remove-substring law), and a
repetition node is untouched. -/
theorem claim_C8_witness :
    ((Expression.Literal
        [⟨['a'], 1, 1⟩, ⟨['b'], 1, 1⟩, ⟨['c'], 1, 1⟩,
         ⟨['d'], 1, 1⟩, ⟨['e'], 1, 1⟩, ⟨['f'], 1, 1⟩]).removeSubstring
      .Prefix 2 =
      .Literal [⟨['c'], 1, 1⟩, ⟨['d'], 1, 1⟩, ⟨['e'], 1, 1⟩, ⟨['f'], 1, 1⟩]) ∧
    ((Expression.Repetition (.Literal [⟨['a'], 1, 1⟩]) .KleeneStar).removeSubstring
      .Prefix 1 = .Repetition (.Literal [⟨['a'], 1, 1⟩]) .KleeneStar) := by
  constructor
  · have h := ((claim_C8.1
      [⟨['a'], 1, 1⟩, ⟨['b'], 1, 1⟩, ⟨['c'], 1, 1⟩,
       ⟨['d'], 1, 1⟩, ⟨['e'], 1, 1⟩, ⟨['f'], 1, 1⟩] 2) (by decide)).1.1
    rw [h]
    decide
  · exact claim_C8.2.2 (.Repetition (.Literal [⟨['a'], 1, 1⟩]) .KleeneStar)
      .Prefix 1 (by intro cl h; cases h) (by intro e1 e2 h; cases h)

end Expression

/-! ## Claim C6: the rule cascade of `concatenate` -/

namespace Expression

/-- C6: `concatenate(a, b)` applies its rules in order, first match wins:
absent operand gives absent; an epsilon operand returns the other; two
literals merge into one literal by cluster concatenation; a literal adjacent
to the literal end of a concatenation operand is merged into that literal on
the matching side; otherwise the result is `Concatenation(a, b)`. -/
theorem claim_C6 (a b : Option Expression) :
    ((a = none ∨ b = none) → concatenate a b = none) ∧
    (∀ e1, a = some e1 → b ≠ none → e1.isEmpty = true → concatenate a b = b) ∧
    (∀ e1 e2, a = some e1 → b = some e2 → e1.isEmpty = false →
      e2.isEmpty = true → concatenate a b = a) ∧
    (∀ l1 l2, a = some (.Literal l1) → b = some (.Literal l2) →
      l1 ≠ [] → l2 ≠ [] →
      concatenate a b = some (.Literal (l1 ++ l2))) ∧
    (∀ l1 lf second, a = some (.Literal l1) →
      b = some (.Concatenation (.Literal lf) second) → l1 ≠ [] →
      concatenate a b = some (.Concatenation (.Literal (l1 ++ lf)) second)) ∧
    (∀ first ls l2, a = some (.Concatenation first (.Literal ls)) →
      b = some (.Literal l2) → l2 ≠ [] →
      concatenate a b = some (.Concatenation first (.Literal (ls ++ l2)))) ∧
    (∀ e1 e2, a = some e1 → b = some e2 → e1.isEmpty = false →
      e2.isEmpty = false →
      (∀ l1 l2, ¬(e1 = .Literal l1 ∧ e2 = .Literal l2)) →
      (∀ l1 lf second, ¬(e1 = .Literal l1 ∧
        e2 = .Concatenation (.Literal lf) second)) →
      (∀ first ls l2, ¬(e1 = .Concatenation first (.Literal ls) ∧
        e2 = .Literal l2)) →
      concatenate a b = some (.Concatenation e1 e2)) := by
  refine ⟨?_, ?_, ?_, ?_, ?_, ?_, ?_⟩
  · rintro (rfl | rfl)
    · rfl
    · cases a <;> rfl
  · rintro e1 rfl hb he
    cases b with
    | none => exact absurd rfl hb
    | some e2 => rw [concatenate_some_some, if_pos he]
  · rintro e1 e2 rfl rfl h1 h2
    rw [concatenate_some_some, if_neg (by simp [h1]), if_pos h2]
  · rintro l1 l2 rfl rfl h1 h2
    rw [concatenate_some_some, if_neg (by simp [isEmpty, h1]),
      if_neg (by simp [isEmpty, h2])]
    rfl
  · rintro l1 lf second rfl rfl h1
    rw [concatenate_some_some, if_neg (by simp [isEmpty, h1]),
      if_neg (by simp [isEmpty])]
    rfl
  · rintro first ls l2 rfl rfl h2
    rw [concatenate_some_some, if_neg (by simp [isEmpty]),
      if_neg (by simp [isEmpty, h2])]
    rfl
  · rintro e1 e2 rfl rfl h1 h2 hr3 hr4 hr5
    rw [concatenate_some_some, if_neg (by simp [h1]), if_neg (by simp [h2]),
      concatOp_eq_default e1 e2 hr3 hr4 hr5]

/-- Witness for C6 at concrete inputs: `ab · c` merges into the literal
`abc`, and an epsilon left operand returns the right operand. -/
theorem claim_C6_witness :
    concatenate (some (.Literal [⟨['a'], 1, 1⟩, ⟨['b'], 1, 1⟩]))
        (some (.Literal [⟨['c'], 1, 1⟩])) =
      some (.Literal [⟨['a'], 1, 1⟩, ⟨['b'], 1, 1⟩, ⟨['c'], 1, 1⟩]) ∧
    concatenate (some (.Literal []))
        (some (.Repetition (.Literal [⟨['a'], 1, 1⟩]) .KleeneStar)) =
      some (.Repetition (.Literal [⟨['a'], 1, 1⟩]) .KleeneStar) := by
  constructor
  · have h := (claim_C6 (some (.Literal [⟨['a'], 1, 1⟩, ⟨['b'], 1, 1⟩]))
      (some (.Literal [⟨['c'], 1, 1⟩]))).2.2.2.1
      [⟨['a'], 1, 1⟩, ⟨['b'], 1, 1⟩] [⟨['c'], 1, 1⟩] rfl rfl (by decide) (by decide)
    rw [h]
    rfl
  · have h := (claim_C6 (some (.Literal []))
      (some (.Repetition (.Literal [⟨['a'], 1, 1⟩]) .KleeneStar))).2.1
      (.Literal []) rfl (by simp) (by decide)
    rw [h]

end Expression

/-! ## Claim C4: epsilon absorption precedes class merging in `union` -/

namespace Expression

/-- C4: when `union` is applied to two present, unequal operands, its result
is the core cascade applied to the affix-factored operands, re-wrapped with
the removed affixes; when after factoring one operand is epsilon the core
(the result before re-wrapping) is `Repetition(other, ?)`; in particular the
union of epsilon with a single-codepoint literal `x` yields `x?` and never
the character class `[x]`, because epsilon absorption runs before class
merging. -/
theorem claim_C4 (config : RegExpConfig) :
    (∀ e1 e2 : Expression, e1.isEmpty = true →
      unionCore config e1 e2 = .Repetition e2 .QuestionMark) ∧
    (∀ e1 e2 : Expression, e1.isEmpty = false → e2.isEmpty = true →
      unionCore config e1 e2 = .Repetition e1 .QuestionMark) ∧
    (∀ e1 e2 : Expression, e1 ≠ e2 →
      union config (some e1) (some e2) =
        some (unionWrapAffixes
          (unionCore config
            (removeCommonSubstring
              (removeCommonSubstring e1 e2 .Prefix).1
              (removeCommonSubstring e1 e2 .Prefix).2.1 .Suffix).1
            (removeCommonSubstring
              (removeCommonSubstring e1 e2 .Prefix).1
              (removeCommonSubstring e1 e2 .Prefix).2.1 .Suffix).2.1)
          (removeCommonSubstring e1 e2 .Prefix).2.2
          (removeCommonSubstring
            (removeCommonSubstring e1 e2 .Prefix).1
            (removeCommonSubstring e1 e2 .Prefix).2.1 .Suffix).2.2)) ∧
    (∀ cl : GraphemeCluster,
      (Expression.Literal cl).isSingleCodepoint config = true →
      union config (some (.Literal [])) (some (.Literal cl)) =
        some (.Repetition (.Literal cl) .QuestionMark)) := by
  refine ⟨?_, ?_, ?_, ?_⟩
  · intro e1 e2 h
    simp [unionCore, unionAbsorbEpsilon, h]
  · intro e1 e2 h1 h2
    simp [unionCore, unionAbsorbEpsilon, h1, h2]
  · intro e1 e2 hne
    simp [union, hne]
  · intro cl hsc
    have hne : cl ≠ [] := by
      intro h
      rw [h] at hsc
      simp [isSingleCodepoint, clusterCharCount] at hsc
    have hObj : Expression.Literal [] ≠ Expression.Literal cl := by
      intro h
      exact hne (by injection h with h1; exact h1.symm)
    rw [union]
    rw [if_neg hObj]
    have hfindP : findCommonSubstring (.Literal []) (.Literal cl) .Prefix = none := by
      simp [findCommonSubstring, value, commonRun_nil_left]
    have hfindS : findCommonSubstring (.Literal []) (.Literal cl) .Suffix = none := by
      simp [findCommonSubstring, value, commonRun_nil_left]
    simp only [removeCommonSubstring, hfindP, hfindS]
    simp [unionCore, unionAbsorbEpsilon, unionWrapAffixes, isEmpty]

/-- Witness for C4 at concrete inputs: epsilon against the single-codepoint
literal `a` yields `a?`. -/
theorem claim_C4_witness :
    union ⟨false⟩ (some (.Literal [])) (some (.Literal [⟨['a'], 1, 1⟩])) =
      some (.Repetition (.Literal [⟨['a'], 1, 1⟩]) .QuestionMark) :=
  (claim_C4 ⟨false⟩).2.2.2 [⟨['a'], 1, 1⟩] (by decide)

end Expression

/-! ## Claim C2: epsilon literals inside concatenations -/

namespace Expression

mutual

/-- The invariant asserted by claim C2: no `Concatenation` node anywhere in
the tree has as either child a `Literal` with an empty cluster (the
epsilon). -/
def epsilonFreeConcat : Expression → Bool
  | .Alternation opts => epsilonFreeConcatList opts
  | .CharacterClass _ => true
  | .Concatenation e1 e2 =>
      !e1.isEmpty && !e2.isEmpty && epsilonFreeConcat e1 && epsilonFreeConcat e2
  | .Literal _ => true
  | .Repetition e _ => epsilonFreeConcat e

/-- The invariant of C2 over a list of sibling expressions. -/
def epsilonFreeConcatList : List Expression → Bool
  | [] => true
  | e :: rest => epsilonFreeConcat e && epsilonFreeConcatList rest

end

theorem epsilonFreeConcat_literal (cl : GraphemeCluster) :
    epsilonFreeConcat (.Literal cl) = true := rfl

theorem epsilonFreeConcat_concatenation (e1 e2 : Expression) :
    epsilonFreeConcat (.Concatenation e1 e2) =
      (!e1.isEmpty && !e2.isEmpty &&
        epsilonFreeConcat e1 && epsilonFreeConcat e2) := rfl

/-- C2 counterexample: `union` applied to the operands
`Concatenation(Literal "a", Repetition(Literal "x", *))` and
`Literal "ab"` factors the common prefix `a`, fully draining the left
literal of the concatenation operand, and returns a tree containing
`Concatenation(Literal epsilon, Repetition(Literal "x", *))` — a
`Concatenation` with an epsilon-literal child, so the claimed invariant
fails for expression trees produced by `union`. -/
theorem claim_C2_counterexample :
    union ⟨false⟩
        (some (.Concatenation (.Literal [⟨['a'], 1, 1⟩])
          (.Repetition (.Literal [⟨['x'], 1, 1⟩]) .KleeneStar)))
        (some (.Literal [⟨['a'], 1, 1⟩, ⟨['b'], 1, 1⟩])) =
      some (.Concatenation (.Literal [⟨['a'], 1, 1⟩])
        (.Alternation
          [.Concatenation (.Literal [])
            (.Repetition (.Literal [⟨['x'], 1, 1⟩]) .KleeneStar),
           .Literal [⟨['b'], 1, 1⟩]])) ∧
    epsilonFreeConcat
      (.Concatenation (.Literal [⟨['a'], 1, 1⟩])
        (.Alternation
          [.Concatenation (.Literal [])
            (.Repetition (.Literal [⟨['x'], 1, 1⟩]) .KleeneStar),
           .Literal [⟨['b'], 1, 1⟩]])) = false := by
  constructor
  · decide
  · decide

/-- C2 amended: restricted to `concatenate`, the invariant holds — if both
present operands of `concatenate` are free of epsilon-literal concatenation
children, so is the result; the combinator `union` does not preserve the
invariant (see the counterexample), because affix factoring can fully drain
a literal child of a `Concatenation` operand. -/
theorem claim_C2_amended (a b : Option Expression) (r : Expression)
    (ha : ∀ e, a = some e → epsilonFreeConcat e = true)
    (hb : ∀ e, b = some e → epsilonFreeConcat e = true)
    (hr : concatenate a b = some r) : epsilonFreeConcat r = true := by
  cases a with
  | none => exact absurd hr (by simp [concatenate])
  | some e1 =>
    cases b with
    | none => exact absurd hr (by simp [concatenate])
    | some e2 =>
      have h1 := ha e1 rfl
      have h2 := hb e2 rfl
      by_cases hem1 : e1.isEmpty = true
      · rw [concatenate_some_some, if_pos hem1] at hr
        obtain rfl : e2 = r := by injection hr
        exact h2
      · by_cases hem2 : e2.isEmpty = true
        · rw [concatenate_some_some, if_neg hem1, if_pos hem2] at hr
          obtain rfl : e1 = r := by injection hr
          exact h1
        · rw [concatenate_some_some, if_neg hem1, if_neg hem2] at hr
          obtain rfl : concatOp e1 e2 = r := by injection hr
          rw [Bool.not_eq_true] at hem1 hem2
          cases e1 with
          | Literal l1 =>
              have hl1 : l1 ≠ [] := by
                intro h
                rw [h] at hem1
                simp [isEmpty] at hem1
              cases e2 with
              | Literal l2 => exact epsilonFreeConcat_literal _
              | Concatenation cf cs =>
                  have hwf2 := h2
                  rw [epsilonFreeConcat_concatenation] at hwf2
                  simp only [Bool.and_eq_true, Bool.not_eq_true'] at hwf2
                  cases cf with
                  | Literal lf =>
                      show epsilonFreeConcat
                        (.Concatenation (.Literal (l1 ++ lf)) cs) = true
                      rw [epsilonFreeConcat_concatenation]
                      simp only [Bool.and_eq_true, Bool.not_eq_true']
                      exact ⟨⟨⟨by simp [isEmpty, hl1], hwf2.1.1.2⟩,
                        epsilonFreeConcat_literal _⟩, hwf2.2⟩
                  | Alternation o =>
                      show epsilonFreeConcat (.Concatenation (.Literal l1)
                        (.Concatenation (.Alternation o) cs)) = true
                      rw [epsilonFreeConcat_concatenation]
                      simp [isEmpty, hl1, h2, hem2, epsilonFreeConcat_literal]
                  | CharacterClass s =>
                      show epsilonFreeConcat (.Concatenation (.Literal l1)
                        (.Concatenation (.CharacterClass s) cs)) = true
                      rw [epsilonFreeConcat_concatenation]
                      simp [isEmpty, hl1, h2, hem2, epsilonFreeConcat_literal]
                  | Concatenation x y =>
                      show epsilonFreeConcat (.Concatenation (.Literal l1)
                        (.Concatenation (.Concatenation x y) cs)) = true
                      rw [epsilonFreeConcat_concatenation]
                      simp [isEmpty, hl1, h2, hem2, epsilonFreeConcat_literal]
                  | Repetition x q =>
                      show epsilonFreeConcat (.Concatenation (.Literal l1)
                        (.Concatenation (.Repetition x q) cs)) = true
                      rw [epsilonFreeConcat_concatenation]
                      simp [isEmpty, hl1, h2, hem2, epsilonFreeConcat_literal]
              | Alternation o =>
                  show epsilonFreeConcat
                    (.Concatenation (.Literal l1) (.Alternation o)) = true
                  rw [epsilonFreeConcat_concatenation]
                  simp [isEmpty, hl1, h2, epsilonFreeConcat_literal]
              | CharacterClass s =>
                  show epsilonFreeConcat
                    (.Concatenation (.Literal l1) (.CharacterClass s)) = true
                  rw [epsilonFreeConcat_concatenation]
                  simp [isEmpty, hl1, h2, epsilonFreeConcat_literal]
              | Repetition x q =>
                  show epsilonFreeConcat
                    (.Concatenation (.Literal l1) (.Repetition x q)) = true
                  rw [epsilonFreeConcat_concatenation]
                  simp [isEmpty, hl1, h2, epsilonFreeConcat_literal]
          | Concatenation cf cs =>
              have hwf1 := h1
              rw [epsilonFreeConcat_concatenation] at hwf1
              simp only [Bool.and_eq_true, Bool.not_eq_true'] at hwf1
              cases e2 with
              | Literal l2 =>
                  have hl2 : l2 ≠ [] := by
                    intro h
                    rw [h] at hem2
                    simp [isEmpty] at hem2
                  cases cs with
                  | Literal ls =>
                      show epsilonFreeConcat
                        (.Concatenation cf (.Literal (ls ++ l2))) = true
                      rw [epsilonFreeConcat_concatenation]
                      simp only [Bool.and_eq_true, Bool.not_eq_true']
                      exact ⟨⟨⟨hwf1.1.1.1, by simp [isEmpty, hl2]⟩, hwf1.1.2⟩,
                        epsilonFreeConcat_literal _⟩
                  | Alternation o =>
                      show epsilonFreeConcat (.Concatenation
                        (.Concatenation cf (.Alternation o)) (.Literal l2)) = true
                      rw [epsilonFreeConcat_concatenation]
                      simp [isEmpty, hl2, h1, hem1, epsilonFreeConcat_literal]
                  | CharacterClass s =>
                      show epsilonFreeConcat (.Concatenation
                        (.Concatenation cf (.CharacterClass s)) (.Literal l2)) = true
                      rw [epsilonFreeConcat_concatenation]
                      simp [isEmpty, hl2, h1, hem1, epsilonFreeConcat_literal]
                  | Concatenation x y =>
                      show epsilonFreeConcat (.Concatenation
                        (.Concatenation cf (.Concatenation x y)) (.Literal l2)) = true
                      rw [epsilonFreeConcat_concatenation]
                      simp [isEmpty, hl2, h1, hem1, epsilonFreeConcat_literal]
                  | Repetition x q =>
                      show epsilonFreeConcat (.Concatenation
                        (.Concatenation cf (.Repetition x q)) (.Literal l2)) = true
                      rw [epsilonFreeConcat_concatenation]
                      simp [isEmpty, hl2, h1, hem1, epsilonFreeConcat_literal]
              | Alternation o =>
                  rw [concatOp_eq_default _ _ (by simp) (by simp) (by simp),
                    epsilonFreeConcat_concatenation]
                  simp [isEmpty, h1, h2, hem1]
              | CharacterClass s =>
                  rw [concatOp_eq_default _ _ (by simp) (by simp) (by simp),
                    epsilonFreeConcat_concatenation]
                  simp [isEmpty, h1, h2, hem1]
              | Concatenation x y =>
                  rw [concatOp_eq_default _ _ (by simp) (by simp) (by simp),
                    epsilonFreeConcat_concatenation]
                  simp [isEmpty, h1, h2, hem1, hem2]
              | Repetition x q =>
                  rw [concatOp_eq_default _ _ (by simp) (by simp) (by simp),
                    epsilonFreeConcat_concatenation]
                  simp [isEmpty, h1, h2, hem1]
          | Alternation o =>
              rw [concatOp_eq_default _ _ (by simp) (by simp) (by simp),
                epsilonFreeConcat_concatenation]
              simp [h1, h2, hem1, hem2]
          | CharacterClass s =>
              rw [concatOp_eq_default _ _ (by simp) (by simp) (by simp),
                epsilonFreeConcat_concatenation]
              simp [h1, h2, hem1, hem2]
          | Repetition x q =>
              rw [concatOp_eq_default _ _ (by simp) (by simp) (by simp),
                epsilonFreeConcat_concatenation]
              simp [h1, h2, hem1, hem2]

/-- Witness for the amended C2 at concrete inputs: concatenating the literal
`a` with the starred literal `x` produces a concatenation free of epsilon
literals. -/
theorem claim_C2_amended_witness :
    epsilonFreeConcat
      (.Concatenation (.Literal [⟨['a'], 1, 1⟩])
        (.Repetition (.Literal [⟨['x'], 1, 1⟩]) .KleeneStar)) = true :=
  claim_C2_amended (some (.Literal [⟨['a'], 1, 1⟩]))
    (some (.Repetition (.Literal [⟨['x'], 1, 1⟩]) .KleeneStar))
    (.Concatenation (.Literal [⟨['a'], 1, 1⟩])
      (.Repetition (.Literal [⟨['x'], 1, 1⟩]) .KleeneStar))
    (by intro e h; injection h with h; rw [← h]; decide)
    (by intro e h; injection h with h; rw [← h]; decide)
    (by decide)

end Expression

/-! ## Well-formedness of produced expressions -/

namespace Expression

/-- Well-formedness of a grapheme as produced by the DFA collaborator: a
nonempty scalar value and repetition bounds with `1 <= min <= max` (the
upstream builder emits at least one repetition). -/
def graphemeWf (g : Grapheme) : Bool :=
  !g.value.isEmpty && decide (1 ≤ g.min) && decide (g.min ≤ g.max)

/-- Whether the node is an `Alternation`. -/
def isAlternationB : Expression → Bool
  | .Alternation _ => true
  | _ => false

/-- Consecutive sortedness by non-increasing `len()`. -/
def sortedByLenDesc : List Expression → Bool
  | [] => true
  | [_] => true
  | a :: b :: rest => decide (lenDesc a b) && sortedByLenDesc (b :: rest)

mutual

/-- The structural invariants maintained by the combinators: every
`Alternation` node has at least two children, none of which is itself an
`Alternation`, sorted by non-increasing `len()`; every `CharacterClass` has
at least two scalars; every grapheme of every literal is well-formed. -/
def wfb : Expression → Bool
  | .Alternation opts =>
      decide (2 ≤ opts.length) && sortedByLenDesc opts && wfbOptions opts
  | .CharacterClass s => decide (2 ≤ s.card)
  | .Concatenation e1 e2 => wfb e1 && wfb e2
  | .Literal cl => cl.all graphemeWf
  | .Repetition e _ => wfb e

/-- The invariant over the children of an `Alternation`. -/
def wfbOptions : List Expression → Bool
  | [] => true
  | e :: rest => (!isAlternationB e && wfb e) && wfbOptions rest

end

theorem wfbOptions_iff (l : List Expression) :
    wfbOptions l = true ↔
      ∀ e ∈ l, isAlternationB e = false ∧ wfb e = true := by
  induction l with
  | nil => simp [wfbOptions]
  | cons e rest ih =>
      show ((!isAlternationB e && wfb e) && wfbOptions rest) = true ↔ _
      simp only [Bool.and_eq_true, Bool.not_eq_true', ih, List.mem_cons]
      constructor
      · rintro ⟨⟨hne, hwf⟩, hrest⟩ x hx
        rcases hx with rfl | hx
        · exact ⟨hne, hwf⟩
        · exact hrest x hx
      · intro h
        exact ⟨h e (Or.inl rfl), fun x hx => h x (Or.inr hx)⟩

theorem wfb_alternation_iff (opts : List Expression) :
    wfb (.Alternation opts) = true ↔
      2 ≤ opts.length ∧ sortedByLenDesc opts = true ∧
        ∀ e ∈ opts, isAlternationB e = false ∧ wfb e = true := by
  show (decide (2 ≤ opts.length) && sortedByLenDesc opts && wfbOptions opts) = true ↔ _
  simp only [Bool.and_eq_true, decide_eq_true_eq, wfbOptions_iff, and_assoc]

theorem wfb_concatenation (e1 e2 : Expression) :
    wfb (.Concatenation e1 e2) = (wfb e1 && wfb e2) := rfl

theorem wfb_literal (cl : GraphemeCluster) :
    wfb (.Literal cl) = cl.all graphemeWf := rfl

theorem wfb_characterClass (s : Finset Char) :
    wfb (.CharacterClass s) = decide (2 ≤ s.card) := rfl

theorem wfb_repetition (e : Expression) (q : Quantifier) :
    wfb (.Repetition e q) = wfb e := rfl

theorem flattenList_append (l1 l2 : List Expression) :
    flattenList (l1 ++ l2) = flattenList l1 ++ flattenList l2 := by
  induction l1 with
  | nil => rfl
  | cons e rest ih => simp [flattenList, ih]

theorem flattenOne_of_not_alternation (e : Expression)
    (h : isAlternationB e = false) : flattenOne e = [e] := by
  cases e with
  | Alternation o => simp [isAlternationB] at h
  | CharacterClass s => rfl
  | Concatenation a b => rfl
  | Literal cl => rfl
  | Repetition x q => rfl

theorem flattenList_of_not_alternation (l : List Expression)
    (h : ∀ e ∈ l, isAlternationB e = false) : flattenList l = l := by
  induction l with
  | nil => rfl
  | cons e rest ih =>
      show flattenOne e ++ flattenList rest = e :: rest
      rw [flattenOne_of_not_alternation e (h e (List.mem_cons_self _ _)),
        ih (fun x hx => h x (List.mem_cons_of_mem _ hx))]
      rfl

/-- For a well-formed expression, its contribution to the flattened option
list is itself when it is not an alternation, and its (already flat)
children when it is. -/
theorem flattenOne_wf (e : Expression) (h : wfb e = true) :
    (∀ x ∈ flattenOne e, isAlternationB x = false ∧ wfb x = true) ∧
      1 ≤ (flattenOne e).length := by
  cases e with
  | Alternation opts =>
      obtain ⟨hlen, _hsort, hmem⟩ := (wfb_alternation_iff opts).mp h
      have hflat : flattenOne (.Alternation opts) = opts := by
        show flattenList opts = opts
        exact flattenList_of_not_alternation opts (fun x hx => (hmem x hx).1)
      rw [hflat]
      exact ⟨hmem, by omega⟩
  | CharacterClass s =>
      refine ⟨?_, by simp [flattenOne]⟩
      intro x hx
      rw [show flattenOne (.CharacterClass s) = [.CharacterClass s] from rfl,
        List.mem_singleton] at hx
      subst hx
      exact ⟨rfl, h⟩
  | Concatenation a b =>
      refine ⟨?_, by simp [flattenOne]⟩
      intro x hx
      rw [show flattenOne (.Concatenation a b) = [.Concatenation a b] from rfl,
        List.mem_singleton] at hx
      subst hx
      exact ⟨rfl, h⟩
  | Literal cl =>
      refine ⟨?_, by simp [flattenOne]⟩
      intro x hx
      rw [show flattenOne (.Literal cl) = [.Literal cl] from rfl,
        List.mem_singleton] at hx
      subst hx
      exact ⟨rfl, h⟩
  | Repetition x q =>
      refine ⟨?_, by simp [flattenOne]⟩
      intro y hy
      rw [show flattenOne (.Repetition x q) = [.Repetition x q] from rfl,
        List.mem_singleton] at hy
      subst hy
      exact ⟨rfl, h⟩

instance : IsTotal Expression lenDesc :=
  ⟨fun a b => Nat.le_total b.len a.len⟩

instance : IsTrans Expression lenDesc :=
  ⟨fun _ _ _ h1 h2 => Nat.le_trans h2 h1⟩

theorem sortedByLenDesc_of_sorted :
    ∀ l : List Expression, List.Sorted lenDesc l → sortedByLenDesc l = true := by
  intro l
  induction l with
  | nil => intro _; rfl
  | cons a rest ih =>
      intro hs
      cases rest with
      | nil => rfl
      | cons b rest2 =>
          rw [List.sorted_cons] at hs
          show (decide (lenDesc a b) && sortedByLenDesc (b :: rest2)) = true
          rw [ih hs.2, decide_eq_true (hs.1 b (List.mem_cons_self _ _))]
          rfl

/-- Stability of the embedded sort: filtering the sorted list at any fixed
`len` value returns exactly the equally-long elements in their input
order. -/
theorem insertionSort_filter_len (l : List Expression) (k : Nat) :
    (List.insertionSort lenDesc l).filter (fun e => e.len == k) =
      l.filter (fun e => e.len == k) := by
  set p : Expression → Bool := fun e => e.len == k with hp
  have hmemp : ∀ e ∈ l.filter p, e.len = k := by
    intro e he
    have := List.of_mem_filter he
    simpa [hp] using this
  have hpair : (l.filter p).Pairwise lenDesc := by
    apply List.pairwise_of_forall_mem_list
    intro a ha b hb
    show b.len ≤ a.len
    rw [hmemp a ha, hmemp b hb]
  have hsub : List.Sublist (l.filter p) (List.insertionSort lenDesc l) :=
    List.sublist_insertionSort hpair (List.filter_sublist l)
  have hfs : (l.filter p).filter p = l.filter p :=
    List.filter_eq_self.mpr (fun a ha => List.of_mem_filter ha)
  have hsub2 : List.Sublist (l.filter p) ((List.insertionSort lenDesc l).filter p) := by
    have := hsub.filter p
    rw [hfs] at this
    exact this
  have hperm : List.Perm ((List.insertionSort lenDesc l).filter p) (l.filter p) :=
    (List.perm_insertionSort lenDesc l).filter p
  exact (hsub2.eq_of_length hperm.length_eq.symm).symm

/-- The alternation constructor produces a well-formed alternation from
well-formed arguments: at least two children, flat, sorted. -/
theorem newAlternation_wf (e1 e2 : Expression)
    (h1 : wfb e1 = true) (h2 : wfb e2 = true) :
    wfb (newAlternation e1 e2) = true ∧
      2 ≤ (List.insertionSort lenDesc (flattenAlternations [] [e1, e2])).length := by
  have hflat : flattenAlternations [] [e1, e2] =
      flattenOne e1 ++ flattenOne e2 := by
    show [] ++ flattenList [e1, e2] = _
    show flattenList [e1, e2] = _
    show flattenOne e1 ++ flattenList [e2] = _
    show flattenOne e1 ++ (flattenOne e2 ++ flattenList []) = _
    rw [show flattenList [] = ([] : List Expression) from rfl, List.append_nil]
  obtain ⟨hm1, hl1⟩ := flattenOne_wf e1 h1
  obtain ⟨hm2, hl2⟩ := flattenOne_wf e2 h2
  have hmem : ∀ x ∈ flattenAlternations [] [e1, e2],
      isAlternationB x = false ∧ wfb x = true := by
    intro x hx
    rw [hflat] at hx
    rcases List.mem_append.mp hx with h | h
    · exact hm1 x h
    · exact hm2 x h
  have hlen : 2 ≤ (flattenAlternations [] [e1, e2]).length := by
    rw [hflat, List.length_append]
    omega
  have hslen : 2 ≤ (List.insertionSort lenDesc (flattenAlternations [] [e1, e2])).length := by
    rw [List.length_insertionSort]
    exact hlen
  refine ⟨?_, hslen⟩
  show wfb (.Alternation (List.insertionSort lenDesc (flattenAlternations [] [e1, e2]))) = true
  rw [wfb_alternation_iff]
  refine ⟨hslen, ?_, ?_⟩
  · exact sortedByLenDesc_of_sorted _ (List.sorted_insertionSort lenDesc _)
  · intro x hx
    exact hmem x ((List.mem_insertionSort lenDesc).mp hx)

end Expression

/-! ## Claim C5: alternations are flat, sorted by non-increasing length,
and stable -/

namespace Expression

/-- C5: the alternation constructor produces a node whose children are never
themselves alternations (flattened), sorted by non-increasing `len()`, and
with equal-length children preserving their input order (the filter at any
fixed length equals the filter of the flattened input); moreover the whole
produced tree keeps every nested `Alternation` flat and sorted (the `wfb`
invariant). -/
theorem claim_C5 (e1 e2 : Expression)
    (h1 : wfb e1 = true) (h2 : wfb e2 = true) :
    (∃ opts, newAlternation e1 e2 = .Alternation opts ∧
      (∀ x ∈ opts, isAlternationB x = false) ∧
      sortedByLenDesc opts = true ∧
      ∀ k, opts.filter (fun e => e.len == k) =
        (flattenAlternations [] [e1, e2]).filter (fun e => e.len == k)) ∧
    wfb (newAlternation e1 e2) = true := by
  obtain ⟨hwf, hlen⟩ := newAlternation_wf e1 e2 h1 h2
  refine ⟨⟨List.insertionSort lenDesc (flattenAlternations [] [e1, e2]),
    rfl, ?_, ?_, ?_⟩, hwf⟩
  · intro x hx
    have := (wfb_alternation_iff _).mp hwf
    exact (this.2.2 x hx).1
  · exact ((wfb_alternation_iff _).mp hwf).2.1
  · intro k
    exact insertionSort_filter_len (flattenAlternations [] [e1, e2]) k

/-- Witness for C5 at concrete inputs: the alternation of the literals `a`
and `bc` is flat, sorted longest-first and stable. -/
theorem claim_C5_witness :
    (∃ opts, newAlternation (.Literal [⟨['a'], 1, 1⟩])
        (.Literal [⟨['b'], 1, 1⟩, ⟨['c'], 1, 1⟩]) = .Alternation opts ∧
      (∀ x ∈ opts, isAlternationB x = false) ∧
      sortedByLenDesc opts = true ∧
      ∀ k, opts.filter (fun e => e.len == k) =
        (flattenAlternations [] [.Literal [⟨['a'], 1, 1⟩],
          .Literal [⟨['b'], 1, 1⟩, ⟨['c'], 1, 1⟩]]).filter
          (fun e => e.len == k)) ∧
    wfb (newAlternation (.Literal [⟨['a'], 1, 1⟩])
      (.Literal [⟨['b'], 1, 1⟩, ⟨['c'], 1, 1⟩])) = true :=
  claim_C5 (.Literal [⟨['a'], 1, 1⟩])
    (.Literal [⟨['b'], 1, 1⟩, ⟨['c'], 1, 1⟩]) (by decide) (by decide)

end Expression

/-! ## Claim C10: alternations have at least two children and `len` is
panic-free on produced expressions -/

namespace Expression

/-- C10: `new_alternation` always yields an `Alternation` with at least two
children when its arguments satisfy the production invariant, and on any
invariant-satisfying expression the panic-aware `lenChecked` (whose `none`
marks exactly the `options.first().unwrap()` panic of the Rust `len`) is
total and agrees with `len`. -/
theorem claim_C10 :
    (∀ e1 e2 : Expression, wfb e1 = true → wfb e2 = true →
      ∃ opts, newAlternation e1 e2 = .Alternation opts ∧ 2 ≤ opts.length) ∧
    (∀ e : Expression, wfb e = true → lenChecked e = some e.len) := by
  constructor
  · intro e1 e2 h1 h2
    exact ⟨List.insertionSort lenDesc (flattenAlternations [] [e1, e2]),
      rfl, (newAlternation_wf e1 e2 h1 h2).2⟩
  · intro e
    induction e using Expression.lenChecked.induct with
    | case1 o rest ih =>
        intro hwf
        have hm := (wfb_alternation_iff _).mp hwf
        have ho : wfb o = true := (hm.2.2 o (List.mem_cons_self _ _)).2
        show o.lenChecked = some (Expression.len (.Alternation (o :: rest)))
        rw [ih ho]
        rfl
    | case2 =>
        intro hwf
        rw [wfb_alternation_iff] at hwf
        simp at hwf
    | case3 s => intro _; rfl
    | case4 e1 e2 ih1 ih2 =>
        intro hwf
        rw [wfb_concatenation, Bool.and_eq_true] at hwf
        show (do
          let a ← e1.lenChecked
          let b ← e2.lenChecked
          pure (a + b)) = some (Expression.len (.Concatenation e1 e2))
        rw [ih1 hwf.1, ih2 hwf.2]
        rfl
    | case5 cl => intro _; rfl
    | case6 e q ih =>
        intro hwf
        rw [wfb_repetition] at hwf
        show e.lenChecked = some (Expression.len (.Repetition e q))
        rw [ih hwf]
        rfl

/-- Witness for C10 at concrete inputs: alternating the literals `a` and
`bc` yields two children, and `lenChecked` computes the length of the
result. -/
theorem claim_C10_witness :
    (∃ opts, newAlternation (.Literal [⟨['a'], 1, 1⟩])
        (.Literal [⟨['b'], 1, 1⟩, ⟨['c'], 1, 1⟩]) = .Alternation opts ∧
      2 ≤ opts.length) ∧
    lenChecked (.Repetition (.Literal [⟨['a'], 1, 1⟩]) .KleeneStar) =
      some (Expression.len (.Repetition (.Literal [⟨['a'], 1, 1⟩]) .KleeneStar)) :=
  ⟨claim_C10.1 (.Literal [⟨['a'], 1, 1⟩])
      (.Literal [⟨['b'], 1, 1⟩, ⟨['c'], 1, 1⟩]) (by decide) (by decide),
    claim_C10.2 (.Repetition (.Literal [⟨['a'], 1, 1⟩]) .KleeneStar) (by decide)⟩

end Expression

/-! ## Preservation of well-formedness by the combinators -/

namespace Expression

/-- Well-formedness of an optional expression slot. -/
def wfbO : Option Expression → Bool
  | none => true
  | some e => wfb e

theorem wfbO_some (e : Expression) : wfbO (some e) = wfb e := rfl

theorem removeSubstring_wf (e : Expression) (s : Substring) (n : Nat)
    (h : wfb e = true) : wfb (e.removeSubstring s n) = true := by
  cases e with
  | Literal cl =>
      rw [wfb_literal, List.all_eq_true] at h
      cases s with
      | Prefix =>
          show wfb (.Literal (cl.drop n)) = true
          rw [wfb_literal, List.all_eq_true]
          exact fun g hg => h g (List.mem_of_mem_drop hg)
      | Suffix =>
          show wfb (.Literal (cl.take (cl.length - n))) = true
          rw [wfb_literal, List.all_eq_true]
          exact fun g hg => h g (List.mem_of_mem_take hg)
  | Concatenation e1 e2 =>
      rw [wfb_concatenation, Bool.and_eq_true] at h
      cases s with
      | Prefix =>
          cases e1 with
          | Literal cl =>
              show wfb (.Concatenation ((Expression.Literal cl).removeSubstring .Prefix n) e2) = true
              rw [wfb_concatenation, Bool.and_eq_true]
              exact ⟨removeSubstring_wf (.Literal cl) .Prefix n h.1, h.2⟩
          | Alternation o =>
              rw [show (Expression.Concatenation (.Alternation o) e2).removeSubstring .Prefix n =
                .Concatenation (.Alternation o) e2 from rfl, wfb_concatenation, Bool.and_eq_true]
              exact h
          | CharacterClass cs =>
              rw [show (Expression.Concatenation (.CharacterClass cs) e2).removeSubstring .Prefix n =
                .Concatenation (.CharacterClass cs) e2 from rfl, wfb_concatenation, Bool.and_eq_true]
              exact h
          | Concatenation x y =>
              rw [show (Expression.Concatenation (.Concatenation x y) e2).removeSubstring .Prefix n =
                .Concatenation (.Concatenation x y) e2 from rfl, wfb_concatenation, Bool.and_eq_true]
              exact h
          | Repetition x q =>
              rw [show (Expression.Concatenation (.Repetition x q) e2).removeSubstring .Prefix n =
                .Concatenation (.Repetition x q) e2 from rfl, wfb_concatenation, Bool.and_eq_true]
              exact h
      | Suffix =>
          cases e2 with
          | Literal cl =>
              show wfb (.Concatenation e1 ((Expression.Literal cl).removeSubstring .Suffix n)) = true
              rw [wfb_concatenation, Bool.and_eq_true]
              exact ⟨h.1, removeSubstring_wf (.Literal cl) .Suffix n h.2⟩
          | Alternation o =>
              rw [show (Expression.Concatenation e1 (.Alternation o)).removeSubstring .Suffix n =
                .Concatenation e1 (.Alternation o) from rfl, wfb_concatenation, Bool.and_eq_true]
              exact h
          | CharacterClass cs =>
              rw [show (Expression.Concatenation e1 (.CharacterClass cs)).removeSubstring .Suffix n =
                .Concatenation e1 (.CharacterClass cs) from rfl, wfb_concatenation, Bool.and_eq_true]
              exact h
          | Concatenation x y =>
              rw [show (Expression.Concatenation e1 (.Concatenation x y)).removeSubstring .Suffix n =
                .Concatenation e1 (.Concatenation x y) from rfl, wfb_concatenation, Bool.and_eq_true]
              exact h
          | Repetition x q =>
              rw [show (Expression.Concatenation e1 (.Repetition x q)).removeSubstring .Suffix n =
                .Concatenation e1 (.Repetition x q) from rfl, wfb_concatenation, Bool.and_eq_true]
              exact h
  | Alternation o => cases s <;> exact h
  | CharacterClass cs => cases s <;> exact h
  | Repetition x q => cases s <;> exact h

/-- `remove_substring` never changes the head constructor of the
expression; in particular a removal result that is a literal came from a
literal. -/
theorem removeSubstring_literal_inv (e : Expression) (s : Substring) (n : Nat)
    (l : GraphemeCluster) (h : e.removeSubstring s n = .Literal l) :
    ∃ cl, e = .Literal cl := by
  cases e with
  | Literal cl => exact ⟨cl, rfl⟩
  | Concatenation e1 e2 =>
      exfalso
      cases s with
      | Prefix => cases e1 <;> simp [removeSubstring] at h
      | Suffix => cases e2 <;> simp [removeSubstring] at h
  | Alternation o => cases s <;> simp [removeSubstring] at h
  | CharacterClass cs => cases s <;> simp [removeSubstring] at h
  | Repetition x q => cases s <;> simp [removeSubstring] at h

theorem value_some_wf (e : Expression) (osub : Option Substring)
    (v : List Grapheme) (hv : e.value osub = some v) (h : wfb e = true) :
    ∀ g ∈ v, graphemeWf g = true := by
  cases e with
  | Literal cl =>
      obtain rfl : cl = v := by
        cases osub with
        | none => injection hv
        | some s => injection hv
      rw [wfb_literal, List.all_eq_true] at h
      exact h
  | Concatenation e1 e2 =>
      rw [wfb_concatenation, Bool.and_eq_true] at h
      cases osub with
      | none => exact absurd hv (by simp [value])
      | some s =>
          cases s with
          | Prefix =>
              have h1 : e1.value none = some v := hv
              exact value_some_wf e1 none v h1 h.1
          | Suffix =>
              have h2 : e2.value none = some v := hv
              exact value_some_wf e2 none v h2 h.2
  | Alternation o => exact absurd hv (by cases osub <;> simp [value])
  | CharacterClass cs => exact absurd hv (by cases osub <;> simp [value])
  | Repetition x q => exact absurd hv (by cases osub <;> simp [value])

/-- The removed common run consists of graphemes of the operands, hence is
well-formed when the operands are. -/
theorem findCommonSubstring_wf (a b : Expression) (s : Substring)
    (p : List Grapheme) (hp : findCommonSubstring a b s = some p)
    (ha : wfb a = true) :
    ∀ g ∈ p, graphemeWf g = true := by
  obtain ⟨hne, haff, -, -⟩ := (findCommonSubstring_spec a b s).1 p hp
  cases hva : a.value (some s) with
  | none =>
      exfalso
      rw [hva] at haff
      cases s with
      | Prefix =>
          exact hne (List.prefix_nil.mp haff)
      | Suffix =>
          exact hne (List.suffix_nil.mp haff)
  | some va =>
      rw [hva] at haff
      have hmem : ∀ g ∈ p, g ∈ va := by
        cases s with
        | Prefix => exact fun g hg => haff.subset hg
        | Suffix => exact fun g hg => haff.subset hg
      intro g hg
      exact value_some_wf a (some s) va hva ha g (hmem g hg)

end Expression

/-! ## Affix factoring on two literal operands -/

namespace Expression

theorem prefix_append_drop {p l : List Grapheme} (h : p <+: l) :
    p ++ l.drop p.length = l := by
  obtain ⟨t, ht⟩ := h
  subst ht
  rw [List.drop_left]

theorem suffix_take_append {s l : List Grapheme} (h : s <:+ l) :
    l.take (l.length - s.length) ++ s = l := by
  obtain ⟨t, ht⟩ := h
  subst ht
  have hlen : (t ++ s).length - s.length = t.length := by
    simp
  rw [hlen, List.take_left]

/-- Prefix factoring of two literals drains the length of their common run
from the front of both. -/
theorem removeCommonSubstring_literal_front (l1 l2 : GraphemeCluster) :
    removeCommonSubstring (.Literal l1) (.Literal l2) .Prefix =
      (.Literal (l1.drop (commonRun l1 l2).length),
       .Literal (l2.drop (commonRun l1 l2).length),
       if (commonRun l1 l2).isEmpty then none else some (commonRun l1 l2)) := by
  have hfind : findCommonSubstring (.Literal l1) (.Literal l2) .Prefix =
      if (commonRun l1 l2).isEmpty then none else some (commonRun l1 l2) := rfl
  by_cases h : (commonRun l1 l2).isEmpty
  · have hcr : commonRun l1 l2 = [] := by simpa using h
    rw [removeCommonSubstring, hfind, if_pos h, hcr]
    simp
  · simp only [removeCommonSubstring, hfind, if_neg h]
    rfl

/-- Suffix factoring of two literals drains the length of the common run of
the reversed clusters from the back of both. -/
theorem removeCommonSubstring_literal_suffix (l1 l2 : GraphemeCluster) :
    removeCommonSubstring (.Literal l1) (.Literal l2) .Suffix =
      (.Literal (l1.take (l1.length - (commonRun l1.reverse l2.reverse).length)),
       .Literal (l2.take (l2.length - (commonRun l1.reverse l2.reverse).length)),
       if ((commonRun l1.reverse l2.reverse).reverse).isEmpty then none
       else some (commonRun l1.reverse l2.reverse).reverse) := by
  have hfind : findCommonSubstring (.Literal l1) (.Literal l2) .Suffix =
      if ((commonRun l1.reverse l2.reverse).reverse).isEmpty then none
      else some (commonRun l1.reverse l2.reverse).reverse := rfl
  by_cases h : ((commonRun l1.reverse l2.reverse).reverse).isEmpty
  · have hcr : commonRun l1.reverse l2.reverse = [] := by simpa using h
    rw [removeCommonSubstring, hfind, if_pos h, hcr]
    simp
  · simp only [removeCommonSubstring, hfind, if_neg h, List.length_reverse]
    rfl

theorem drop_commonRun_injective (l1 l2 : GraphemeCluster)
    (h : l1.drop (commonRun l1 l2).length = l2.drop (commonRun l1 l2).length) :
    l1 = l2 := by
  have h1 := prefix_append_drop (commonRun_prefix_left l1 l2)
  have h2 := prefix_append_drop (commonRun_prefix_right l1 l2)
  calc l1 = commonRun l1 l2 ++ l1.drop (commonRun l1 l2).length := h1.symm
    _ = commonRun l1 l2 ++ l2.drop (commonRun l1 l2).length := by rw [h]
    _ = l2 := h2

theorem take_commonSuffix_injective (l1 l2 : GraphemeCluster)
    (h : l1.take (l1.length - (commonRun l1.reverse l2.reverse).length) =
      l2.take (l2.length - (commonRun l1.reverse l2.reverse).length)) :
    l1 = l2 := by
  set s := (commonRun l1.reverse l2.reverse).reverse with hs
  have hs1 : s <:+ l1 := by
    rw [← List.reverse_prefix]
    simpa [hs] using commonRun_prefix_left l1.reverse l2.reverse
  have hs2 : s <:+ l2 := by
    rw [← List.reverse_prefix]
    simpa [hs] using commonRun_prefix_right l1.reverse l2.reverse
  have hlen : s.length = (commonRun l1.reverse l2.reverse).length := by
    rw [hs, List.length_reverse]
  have h1 := suffix_take_append hs1
  have h2 := suffix_take_append hs2
  rw [hlen] at h1 h2
  calc l1 = l1.take (l1.length - (commonRun l1.reverse l2.reverse).length) ++ s := h1.symm
    _ = l2.take (l2.length - (commonRun l1.reverse l2.reverse).length) ++ s := by rw [h]
    _ = l2 := h2

/-- Two distinct literal operands remain distinct after prefix-then-suffix
affix factoring. -/
theorem factored_literals_ne (l1 l2 : GraphemeCluster)
    (hne : Expression.Literal l1 ≠ Expression.Literal l2) :
    (removeCommonSubstring
        (removeCommonSubstring (.Literal l1) (.Literal l2) .Prefix).1
        (removeCommonSubstring (.Literal l1) (.Literal l2) .Prefix).2.1 .Suffix).1 ≠
      (removeCommonSubstring
        (removeCommonSubstring (.Literal l1) (.Literal l2) .Prefix).1
        (removeCommonSubstring (.Literal l1) (.Literal l2) .Prefix).2.1 .Suffix).2.1 := by
  rw [removeCommonSubstring_literal_front]
  set m1 := l1.drop (commonRun l1 l2).length with hm1
  set m2 := l2.drop (commonRun l1 l2).length with hm2
  show (removeCommonSubstring (.Literal m1) (.Literal m2) .Suffix).1 ≠
    (removeCommonSubstring (.Literal m1) (.Literal m2) .Suffix).2.1
  rw [removeCommonSubstring_literal_suffix]
  intro hcontra
  simp only [Expression.Literal.injEq] at hcontra
  have hm : m1 = m2 := take_commonSuffix_injective m1 m2 hcontra
  have : l1 = l2 := drop_commonRun_injective l1 l2 (by rw [← hm1, ← hm2, hm])
  exact hne (by rw [this])

/-- A well-formed single-codepoint literal is a one-grapheme cluster whose
grapheme is a single scalar with repetition bounds `(1, 1)`. -/
theorem singleCodepoint_literal_shape (config : RegExpConfig)
    (cl : GraphemeCluster) (hwf : wfb (.Literal cl) = true)
    (hsc : (Expression.Literal cl).isSingleCodepoint config = true) :
    ∃ c, cl = [⟨[c], 1, 1⟩] := by
  rw [wfb_literal, List.all_eq_true] at hwf
  have hsc' : (clusterCharCount config.isNonAsciiCharEscaped cl == 1 &&
      (match cl.head? with
       | some g => g.max == 1
       | none => false)) = true := hsc
  rw [Bool.and_eq_true] at hsc'
  obtain ⟨hcount, hmax⟩ := hsc'
  rw [beq_iff_eq] at hcount
  -- every well-formed grapheme counts at least one character
  have hone : ∀ g ∈ cl, 1 ≤ g.charCountOne config.isNonAsciiCharEscaped := by
    intro g hg
    have hwfg := hwf g hg
    rw [graphemeWf, Bool.and_eq_true, Bool.and_eq_true] at hwfg
    have hval : g.value ≠ [] := by
      intro hv
      rw [Bool.not_eq_true'] at hwfg
      have := hwfg.1.1
      rw [hv] at this
      simp at this
    cases hgv : g.value with
    | nil => exact absurd hgv hval
    | cons c rest =>
        show 1 ≤ (g.value.map _).sum
        rw [hgv]
        simp only [List.map_cons, List.sum_cons]
        have : 1 ≤ if config.isNonAsciiCharEscaped && 127 < c.toNat then 6 else 1 := by
          split <;> omega
        omega
  -- the cluster has exactly one grapheme
  have hcl : ∃ g, cl = [g] := by
    cases cl with
    | nil => simp [clusterCharCount] at hcount
    | cons g rest =>
        cases rest with
        | nil => exact ⟨g, rfl⟩
        | cons g2 rest2 =>
            exfalso
            have h1 := hone g (by simp)
            have h2 := hone g2 (by simp)
            rw [clusterCharCount] at hcount
            simp only [List.map_cons, List.sum_cons] at hcount
            omega
  obtain ⟨g, rfl⟩ := hcl
  rw [clusterCharCount] at hcount
  simp only [List.map_cons, List.map_nil, List.sum_cons, List.sum_nil,
    Nat.add_zero] at hcount
  -- the grapheme's value is a single character
  have hchar : ∃ c, g.value = [c] := by
    cases hv : g.value with
    | nil =>
        exfalso
        rw [Grapheme.charCountOne, hv] at hcount
        simp at hcount
    | cons c rest =>
        cases rest with
        | nil => exact ⟨c, rfl⟩
        | cons c2 rest2 =>
            exfalso
            rw [Grapheme.charCountOne, hv] at hcount
            simp only [List.map_cons, List.sum_cons] at hcount
            have t1 : 1 ≤ if config.isNonAsciiCharEscaped && 127 < c.toNat then 6 else 1 := by
              split <;> omega
            have t2 : 1 ≤ if config.isNonAsciiCharEscaped && 127 < c2.toNat then 6 else 1 := by
              split <;> omega
            omega
  obtain ⟨c, hc⟩ := hchar
  have hgmax : g.max = 1 := by
    have : (match ([g] : GraphemeCluster).head? with
       | some g => g.max == 1
       | none => false) = true := hmax
    simpa using this
  have hwfg := hwf g (by simp)
  rw [graphemeWf, Bool.and_eq_true, Bool.and_eq_true] at hwfg
  have hmin1 : 1 ≤ g.min := by
    have := hwfg.1.2
    simpa using this
  have hminmax : g.min ≤ g.max := by
    have := hwfg.2
    simpa using this
  have hgmin : g.min = 1 := by omega
  refine ⟨c, ?_⟩
  have : g = ⟨[c], 1, 1⟩ := by
    cases g with
    | mk v mn mx =>
        simp only [Grapheme.mk.injEq]
        exact ⟨hc, hgmin, by rw [← hgmax]⟩
  rw [this]

theorem extractCharacterSet_single (c : Char) :
    extractCharacterSet (.Literal [⟨[c], 1, 1⟩]) = {c} := rfl

end Expression

/-! ## `concatenate` and `union` preserve well-formedness -/

namespace Expression

theorem concatOp_wf (e1 e2 : Expression) (h1 : wfb e1 = true)
    (h2 : wfb e2 = true) : wfb (concatOp e1 e2) = true := by
  cases e1 with
  | Literal l1 =>
      cases e2 with
      | Literal l2 =>
          show wfb (.Literal (l1 ++ l2)) = true
          rw [wfb_literal, List.all_eq_true] at h1 h2 ⊢
          intro g hg
          rcases List.mem_append.mp hg with h | h
          · exact h1 g h
          · exact h2 g h
      | Concatenation cf cs =>
          cases cf with
          | Literal lf =>
              show wfb (.Concatenation (.Literal (l1 ++ lf)) cs) = true
              rw [wfb_concatenation, Bool.and_eq_true]
              rw [wfb_concatenation, Bool.and_eq_true] at h2
              constructor
              · rw [wfb_literal, List.all_eq_true]
                rw [wfb_literal, List.all_eq_true] at h1
                have h2l := h2.1
                rw [wfb_literal, List.all_eq_true] at h2l
                intro g hg
                rcases List.mem_append.mp hg with h | h
                · exact h1 g h
                · exact h2l g h
              · exact h2.2
          | Alternation o =>
              rw [concatOp_eq_default _ _ (by simp) (by simp) (by simp),
                wfb_concatenation, h1, h2]
              rfl
          | CharacterClass s =>
              rw [concatOp_eq_default _ _ (by simp) (by simp) (by simp),
                wfb_concatenation, h1, h2]
              rfl
          | Concatenation x y =>
              rw [concatOp_eq_default _ _ (by simp) (by simp) (by simp),
                wfb_concatenation, h1, h2]
              rfl
          | Repetition x q =>
              rw [concatOp_eq_default _ _ (by simp) (by simp) (by simp),
                wfb_concatenation, h1, h2]
              rfl
      | Alternation o =>
          rw [concatOp_eq_default _ _ (by simp) (by simp) (by simp),
            wfb_concatenation, h1, h2]
          rfl
      | CharacterClass s =>
          rw [concatOp_eq_default _ _ (by simp) (by simp) (by simp),
            wfb_concatenation, h1, h2]
          rfl
      | Repetition x q =>
          rw [concatOp_eq_default _ _ (by simp) (by simp) (by simp),
            wfb_concatenation, h1, h2]
          rfl
  | Concatenation cf cs =>
      cases e2 with
      | Literal l2 =>
          cases cs with
          | Literal ls =>
              show wfb (.Concatenation cf (.Literal (ls ++ l2))) = true
              rw [wfb_concatenation, Bool.and_eq_true]
              rw [wfb_concatenation, Bool.and_eq_true] at h1
              refine ⟨h1.1, ?_⟩
              rw [wfb_literal, List.all_eq_true]
              have h1l := h1.2
              rw [wfb_literal, List.all_eq_true] at h1l
              rw [wfb_literal, List.all_eq_true] at h2
              intro g hg
              rcases List.mem_append.mp hg with h | h
              · exact h1l g h
              · exact h2 g h
          | Alternation o =>
              rw [concatOp_eq_default _ _ (by simp) (by simp) (by simp),
                wfb_concatenation, h1, h2]
              rfl
          | CharacterClass s =>
              rw [concatOp_eq_default _ _ (by simp) (by simp) (by simp),
                wfb_concatenation, h1, h2]
              rfl
          | Concatenation x y =>
              rw [concatOp_eq_default _ _ (by simp) (by simp) (by simp),
                wfb_concatenation, h1, h2]
              rfl
          | Repetition x q =>
              rw [concatOp_eq_default _ _ (by simp) (by simp) (by simp),
                wfb_concatenation, h1, h2]
              rfl
      | Alternation o =>
          rw [concatOp_eq_default _ _ (by simp) (by simp) (by simp),
            wfb_concatenation, h1, h2]
          rfl
      | CharacterClass s =>
          rw [concatOp_eq_default _ _ (by simp) (by simp) (by simp),
            wfb_concatenation, h1, h2]
          rfl
      | Concatenation x y =>
          rw [concatOp_eq_default _ _ (by simp) (by simp) (by simp),
            wfb_concatenation, h1, h2]
          rfl
      | Repetition x q =>
          rw [concatOp_eq_default _ _ (by simp) (by simp) (by simp),
            wfb_concatenation, h1, h2]
          rfl
  | Alternation o =>
      rw [concatOp_eq_default _ _ (by simp) (by simp) (by simp),
        wfb_concatenation, h1, h2]
      rfl
  | CharacterClass s =>
      rw [concatOp_eq_default _ _ (by simp) (by simp) (by simp),
        wfb_concatenation, h1, h2]
      rfl
  | Repetition x q =>
      rw [concatOp_eq_default _ _ (by simp) (by simp) (by simp),
        wfb_concatenation, h1, h2]
      rfl

theorem concatenate_wf (a b : Option Expression) (ha : wfbO a = true)
    (hb : wfbO b = true) : wfbO (concatenate a b) = true := by
  cases a with
  | none => cases b <;> rfl
  | some e1 =>
    cases b with
    | none => rfl
    | some e2 =>
        rw [concatenate_some_some]
        by_cases h1 : e1.isEmpty
        · rw [if_pos h1]; exact hb
        · rw [if_neg h1]
          by_cases h2 : e2.isEmpty
          · rw [if_pos h2]; exact ha
          · rw [if_neg h2]
            exact concatOp_wf e1 e2 ha hb

theorem repeatZeroOrMoreTimes_wf (a : Option Expression)
    (ha : wfbO a = true) : wfbO (repeatZeroOrMoreTimes a) = true := by
  cases a with
  | none => rfl
  | some e => exact ha

theorem unionAbsorbEpsilon_wf (e1 e2 r : Expression) (h1 : wfb e1 = true)
    (h2 : wfb e2 = true) (hr : unionAbsorbEpsilon e1 e2 = some r) :
    wfb r = true := by
  rw [unionAbsorbEpsilon] at hr
  by_cases he1 : e1.isEmpty
  · rw [if_pos he1] at hr
    obtain rfl : Expression.Repetition e2 .QuestionMark = r := by injection hr
    exact h2
  · rw [if_neg he1] at hr
    by_cases he2 : e2.isEmpty
    · rw [if_pos he2] at hr
      obtain rfl : Expression.Repetition e1 .QuestionMark = r := by injection hr
      exact h1
    · rw [if_neg he2] at hr
      exact absurd hr (by simp)

theorem unionAbsorbLeftQuestion_wf (e1 e2 r : Expression) (h1 : wfb e1 = true)
    (h2 : wfb e2 = true) (hr : unionAbsorbLeftQuestion e1 e2 = some r) :
    wfb r = true := by
  cases e1 with
  | Repetition x q =>
      cases q with
      | QuestionMark =>
          obtain rfl : Expression.Repetition (newAlternation x e2) .QuestionMark = r := by
            injection hr
          rw [wfb_repetition]
          exact (newAlternation_wf x e2 h1 h2).1
      | KleeneStar => exact absurd hr (by simp [unionAbsorbLeftQuestion])
  | Alternation o => exact absurd hr (by simp [unionAbsorbLeftQuestion])
  | CharacterClass s => exact absurd hr (by simp [unionAbsorbLeftQuestion])
  | Concatenation x y => exact absurd hr (by simp [unionAbsorbLeftQuestion])
  | Literal cl => exact absurd hr (by simp [unionAbsorbLeftQuestion])

theorem unionAbsorbRightQuestion_wf (e1 e2 r : Expression) (h1 : wfb e1 = true)
    (h2 : wfb e2 = true) (hr : unionAbsorbRightQuestion e1 e2 = some r) :
    wfb r = true := by
  cases e2 with
  | Repetition x q =>
      cases q with
      | QuestionMark =>
          obtain rfl : Expression.Repetition (newAlternation e1 x) .QuestionMark = r := by
            injection hr
          rw [wfb_repetition]
          exact (newAlternation_wf e1 x h1 h2).1
      | KleeneStar => exact absurd hr (by simp [unionAbsorbRightQuestion])
  | Alternation o => exact absurd hr (by simp [unionAbsorbRightQuestion])
  | CharacterClass s => exact absurd hr (by simp [unionAbsorbRightQuestion])
  | Concatenation x y => exact absurd hr (by simp [unionAbsorbRightQuestion])
  | Literal cl => exact absurd hr (by simp [unionAbsorbRightQuestion])

/-- Only classes and literals can be single codepoints. -/
theorem isSingleCodepoint_shape (config : RegExpConfig) (e : Expression)
    (h : e.isSingleCodepoint config = true) :
    (∃ s, e = .CharacterClass s) ∨ (∃ cl, e = .Literal cl) := by
  cases e with
  | CharacterClass s => exact Or.inl ⟨s, rfl⟩
  | Literal cl => exact Or.inr ⟨cl, rfl⟩
  | Alternation o => exact absurd h (by simp [isSingleCodepoint])
  | Concatenation x y => exact absurd h (by simp [isSingleCodepoint])
  | Repetition x q => exact absurd h (by simp [isSingleCodepoint])

theorem unionMergeClasses_wf (config : RegExpConfig) (e1 e2 r : Expression)
    (h1 : wfb e1 = true) (h2 : wfb e2 = true)
    (hne : ∀ l1 l2, e1 = .Literal l1 → e2 = .Literal l2 → l1 ≠ l2)
    (hr : unionMergeClasses config e1 e2 = some r) : wfb r = true := by
  rw [unionMergeClasses] at hr
  by_cases hsc : e1.isSingleCodepoint config && e2.isSingleCodepoint config
  · rw [if_pos hsc] at hr
    rw [Bool.and_eq_true] at hsc
    obtain rfl : newCharacterClass (extractCharacterSet e1) (extractCharacterSet e2) = r := by
      injection hr
    show wfb (.CharacterClass (extractCharacterSet e1 ∪ extractCharacterSet e2)) = true
    rw [wfb_characterClass, decide_eq_true_eq]
    rcases isSingleCodepoint_shape config e1 hsc.1 with ⟨s1, rfl⟩ | ⟨l1, rfl⟩
    · have hcard : 2 ≤ s1.card := by
        rw [wfb_characterClass, decide_eq_true_eq] at h1
        exact h1
      calc 2 ≤ s1.card := hcard
        _ ≤ (extractCharacterSet (Expression.CharacterClass s1) ∪
              extractCharacterSet e2).card :=
          Finset.card_le_card Finset.subset_union_left
    · rcases isSingleCodepoint_shape config e2 hsc.2 with ⟨s2, rfl⟩ | ⟨l2, rfl⟩
      · have hcard : 2 ≤ s2.card := by
          rw [wfb_characterClass, decide_eq_true_eq] at h2
          exact h2
        calc 2 ≤ s2.card := hcard
          _ ≤ (extractCharacterSet (Expression.Literal l1) ∪
                extractCharacterSet (Expression.CharacterClass s2)).card :=
            Finset.card_le_card Finset.subset_union_right
      · obtain ⟨c1, rfl⟩ := singleCodepoint_literal_shape config l1 h1 hsc.1
        obtain ⟨c2, rfl⟩ := singleCodepoint_literal_shape config l2 h2 hsc.2
        have hc : c1 ≠ c2 := by
          intro h
          exact hne _ _ rfl rfl (by rw [h])
        rw [extractCharacterSet_single, extractCharacterSet_single]
        have hd : Disjoint ({c1} : Finset Char) {c2} := by
          simpa using (show ¬c2 = c1 from fun h => hc h.symm)
        rw [Finset.card_union_of_disjoint hd]
        rfl
  · rw [if_neg hsc] at hr
    exact absurd hr (by simp)

theorem unionCore_wf (config : RegExpConfig) (e1 e2 : Expression)
    (h1 : wfb e1 = true) (h2 : wfb e2 = true)
    (hne : ∀ l1 l2, e1 = .Literal l1 → e2 = .Literal l2 → l1 ≠ l2) :
    wfb (unionCore config e1 e2) = true := by
  rw [unionCore]
  cases hae : unionAbsorbEpsilon e1 e2 with
  | some r => exact unionAbsorbEpsilon_wf e1 e2 r h1 h2 hae
  | none =>
    cases hal : unionAbsorbLeftQuestion e1 e2 with
    | some r => exact unionAbsorbLeftQuestion_wf e1 e2 r h1 h2 hal
    | none =>
      cases har : unionAbsorbRightQuestion e1 e2 with
      | some r => exact unionAbsorbRightQuestion_wf e1 e2 r h1 h2 har
      | none =>
        cases hac : unionMergeClasses config e1 e2 with
        | some r => exact unionMergeClasses_wf config e1 e2 r h1 h2 hne hac
        | none => exact (newAlternation_wf e1 e2 h1 h2).1

theorem removeCommonSubstring_fst_wf (a b : Expression) (s : Substring)
    (ha : wfb a = true) : wfb (removeCommonSubstring a b s).1 = true := by
  rw [removeCommonSubstring]
  cases findCommonSubstring a b s with
  | some v => exact removeSubstring_wf a s v.length ha
  | none => exact ha

theorem removeCommonSubstring_snd_wf (a b : Expression) (s : Substring)
    (hb : wfb b = true) : wfb (removeCommonSubstring a b s).2.1 = true := by
  rw [removeCommonSubstring]
  cases findCommonSubstring a b s with
  | some v => exact removeSubstring_wf b s v.length hb
  | none => exact hb

theorem removeCommonSubstring_fst_literal_inv (a b : Expression)
    (s : Substring) (l : GraphemeCluster)
    (h : (removeCommonSubstring a b s).1 = .Literal l) :
    ∃ cl, a = .Literal cl := by
  rw [removeCommonSubstring] at h
  cases hf : findCommonSubstring a b s with
  | some v =>
      rw [hf] at h
      exact removeSubstring_literal_inv a s v.length l h
  | none =>
      rw [hf] at h
      exact ⟨l, h⟩

theorem removeCommonSubstring_snd_literal_inv (a b : Expression)
    (s : Substring) (l : GraphemeCluster)
    (h : (removeCommonSubstring a b s).2.1 = .Literal l) :
    ∃ cl, b = .Literal cl := by
  rw [removeCommonSubstring] at h
  cases hf : findCommonSubstring a b s with
  | some v =>
      rw [hf] at h
      exact removeSubstring_literal_inv b s v.length l h
  | none =>
      rw [hf] at h
      exact ⟨l, h⟩

theorem removeCommonSubstring_run (a b : Expression) (s : Substring)
    (p : List Grapheme) (h : (removeCommonSubstring a b s).2.2 = some p) :
    findCommonSubstring a b s = some p := by
  rw [removeCommonSubstring] at h
  cases hf : findCommonSubstring a b s with
  | some v =>
      rw [hf] at h
      obtain rfl : v = p := by injection h
      rfl
  | none =>
      rw [hf] at h
      exact absurd h (by simp)

theorem unionWrapAffixes_wf (r : Expression)
    (cp cs : Option (List Grapheme)) (hr : wfb r = true)
    (hcp : ∀ p, cp = some p → ∀ g ∈ p, graphemeWf g = true)
    (hcs : ∀ p, cs = some p → ∀ g ∈ p, graphemeWf g = true) :
    wfb (unionWrapAffixes r cp cs) = true := by
  cases cp with
  | none =>
      cases cs with
      | none => exact hr
      | some sp =>
          show wfb (.Concatenation r (.Literal sp)) = true
          rw [wfb_concatenation, Bool.and_eq_true]
          refine ⟨hr, ?_⟩
          rw [wfb_literal, List.all_eq_true]
          exact hcs sp rfl
  | some pp =>
      cases cs with
      | none =>
          show wfb (.Concatenation (.Literal pp) r) = true
          rw [wfb_concatenation, Bool.and_eq_true]
          refine ⟨?_, hr⟩
          rw [wfb_literal, List.all_eq_true]
          exact hcp pp rfl
      | some sp =>
          show wfb (.Concatenation (.Concatenation (.Literal pp) r) (.Literal sp)) = true
          rw [wfb_concatenation, Bool.and_eq_true, wfb_concatenation, Bool.and_eq_true]
          refine ⟨⟨?_, hr⟩, ?_⟩
          · rw [wfb_literal, List.all_eq_true]
            exact hcp pp rfl
          · rw [wfb_literal, List.all_eq_true]
            exact hcs sp rfl

/-- The union combinator preserves the structural invariants; in particular
every `CharacterClass` it creates has at least two scalars. -/
theorem union_wf (config : RegExpConfig) (a b : Option Expression)
    (ha : wfbO a = true) (hb : wfbO b = true) :
    wfbO (union config a b) = true := by
  cases a with
  | none => cases b <;> simpa [union] using hb
  | some expr1 =>
    cases b with
    | none => exact ha
    | some expr2 =>
        by_cases heq : expr1 = expr2
        · rw [union, if_pos heq]; exact ha
        · have key : union config (some expr1) (some expr2) =
              some (unionWrapAffixes
                (unionCore config
                  (removeCommonSubstring
                    (removeCommonSubstring expr1 expr2 .Prefix).1
                    (removeCommonSubstring expr1 expr2 .Prefix).2.1 .Suffix).1
                  (removeCommonSubstring
                    (removeCommonSubstring expr1 expr2 .Prefix).1
                    (removeCommonSubstring expr1 expr2 .Prefix).2.1 .Suffix).2.1)
                (removeCommonSubstring expr1 expr2 .Prefix).2.2
                (removeCommonSubstring
                  (removeCommonSubstring expr1 expr2 .Prefix).1
                  (removeCommonSubstring expr1 expr2 .Prefix).2.1 .Suffix).2.2) := by
            simp [union, heq]
          rw [key, wfbO_some]
          rw [wfbO_some] at ha hb
          have hw1 : wfb (removeCommonSubstring expr1 expr2 .Prefix).1 = true :=
            removeCommonSubstring_fst_wf _ _ _ ha
          have hw2 : wfb (removeCommonSubstring expr1 expr2 .Prefix).2.1 = true :=
            removeCommonSubstring_snd_wf _ _ _ hb
          have hw1s : wfb (removeCommonSubstring
              (removeCommonSubstring expr1 expr2 .Prefix).1
              (removeCommonSubstring expr1 expr2 .Prefix).2.1 .Suffix).1 = true :=
            removeCommonSubstring_fst_wf _ _ _ hw1
          have hw2s : wfb (removeCommonSubstring
              (removeCommonSubstring expr1 expr2 .Prefix).1
              (removeCommonSubstring expr1 expr2 .Prefix).2.1 .Suffix).2.1 = true :=
            removeCommonSubstring_snd_wf _ _ _ hw2
          have hne : ∀ l1 l2,
              (removeCommonSubstring
                (removeCommonSubstring expr1 expr2 .Prefix).1
                (removeCommonSubstring expr1 expr2 .Prefix).2.1 .Suffix).1 =
                .Literal l1 →
              (removeCommonSubstring
                (removeCommonSubstring expr1 expr2 .Prefix).1
                (removeCommonSubstring expr1 expr2 .Prefix).2.1 .Suffix).2.1 =
                .Literal l2 →
              l1 ≠ l2 := by
            intro l1 l2 hl1 hl2
            obtain ⟨m1, hm1⟩ := removeCommonSubstring_fst_literal_inv _ _ _ _ hl1
            obtain ⟨m2, hm2⟩ := removeCommonSubstring_snd_literal_inv _ _ _ _ hl2
            obtain ⟨c1, hc1⟩ := removeCommonSubstring_fst_literal_inv _ _ _ _ hm1
            obtain ⟨c2, hc2⟩ := removeCommonSubstring_snd_literal_inv _ _ _ _ hm2
            subst hc1
            subst hc2
            have hfact := factored_literals_ne c1 c2 heq
            rw [hl1, hl2] at hfact
            intro hcon
            exact hfact (by rw [hcon])
          apply unionWrapAffixes_wf
          · exact unionCore_wf config _ _ hw1s hw2s hne
          · intro p hp
            have hf : findCommonSubstring expr1 expr2 .Prefix = some p :=
              removeCommonSubstring_run _ _ _ p hp
            exact findCommonSubstring_wf expr1 expr2 .Prefix p hf ha
          · intro p hp
            have hf : findCommonSubstring
                (removeCommonSubstring expr1 expr2 .Prefix).1
                (removeCommonSubstring expr1 expr2 .Prefix).2.1 .Suffix = some p :=
              removeCommonSubstring_run _ _ _ p hp
            exact findCommonSubstring_wf _ _ .Suffix p hf hw1

end Expression

/-! ## Well-formedness through the state-elimination driver -/

/-- Well-formedness of the graphemes on the edges the driver reads: every
outgoing edge of every state carries a well-formed grapheme. -/
def DFA.edgesWfB (d : DFA) : Bool :=
  (List.range d.stateCount).all
    (fun i => (d.outgoingEdges i).all (fun p => Expression.graphemeWf p.1))

namespace Expression

/-- Pointwise well-formedness of a transition matrix. -/
def matWf (a : EMat) : Prop := ∀ i j, wfbO (a i j) = true

/-- Pointwise well-formedness of an accept vector. -/
def vecWf (b : EVec) : Prop := ∀ i, wfbO (b i) = true

theorem updMat_wf (a : EMat) (i j : Nat) (v : Option Expression)
    (ha : matWf a) (hv : wfbO v = true) : matWf (updMat a i j v) := by
  intro i' j'
  rw [updMat]
  by_cases h : i' = i ∧ j' = j
  · rw [if_pos h]; exact hv
  · rw [if_neg h]; exact ha i' j'

theorem updVec_wf (b : EVec) (i : Nat) (v : Option Expression)
    (hb : vecWf b) (hv : wfbO v = true) : vecWf (updVec b i v) := by
  intro i'
  rw [updVec]
  by_cases h : i' = i
  · rw [if_pos h]; exact hv
  · rw [if_neg h]; exact hb i'

theorem buildEdges_wf (config : RegExpConfig) (i : Nat)
    (edges : List (Grapheme × Nat)) (a : EMat) (ha : matWf a)
    (hedges : ∀ p ∈ edges, graphemeWf p.1 = true) :
    matWf (buildEdges config i edges a) := by
  induction edges generalizing a with
  | nil => exact ha
  | cons p rest ih =>
      show matWf (buildEdges config i rest
        (updMat a i p.2 (if (a i p.2).isSome
          then union config (a i p.2) (some (.Literal [p.1]))
          else some (.Literal [p.1]))))
      have hlit : wfb (.Literal [p.1]) = true := by
        rw [wfb_literal]
        simp [hedges p (List.mem_cons_self _ _)]
      apply ih
      · apply updMat_wf _ _ _ _ ha
        by_cases hsome : (a i p.2).isSome
        · rw [if_pos hsome]
          exact union_wf config _ _ (ha i p.2) hlit
        · rw [if_neg hsome]
          exact hlit
      · exact fun q hq => hedges q (List.mem_cons_of_mem _ hq)

theorem buildStep_wf (config : RegExpConfig) (d : DFA) (ab : EMat × EVec)
    (i : Nat) (ha : matWf ab.1) (hb : vecWf ab.2)
    (hedges : ∀ p ∈ d.outgoingEdges i, graphemeWf p.1 = true) :
    matWf (buildStep config d ab i).1 ∧ vecWf (buildStep config d ab i).2 := by
  constructor
  · exact buildEdges_wf config i (d.outgoingEdges i) ab.1 ha hedges
  · show vecWf (if d.isFinalState i then updVec ab.2 i (some (.Literal [])) else ab.2)
    by_cases hf : d.isFinalState i
    · rw [if_pos hf]
      exact updVec_wf _ _ _ hb rfl
    · rw [if_neg hf]
      exact hb

theorem buildPhase_wf (config : RegExpConfig) (d : DFA)
    (hd : d.edgesWfB = true) :
    matWf (buildPhase config d).1 ∧ vecWf (buildPhase config d).2 := by
  rw [DFA.edgesWfB, List.all_eq_true] at hd
  have hgen : ∀ (l : List Nat) (ab : EMat × EVec),
      (∀ i ∈ l, (d.outgoingEdges i).all (fun p => graphemeWf p.1) = true) →
      matWf ab.1 → vecWf ab.2 →
      matWf (l.foldl (buildStep config d) ab).1 ∧
        vecWf (l.foldl (buildStep config d) ab).2 := by
    intro l
    induction l with
    | nil => exact fun ab _ ha hb => ⟨ha, hb⟩
    | cons i rest ih =>
        intro ab hl ha hb
        show matWf ((rest.foldl (buildStep config d) (buildStep config d ab i))).1 ∧ _
        have hstep := buildStep_wf config d ab i ha hb
          (fun p hp => by
            have := hl i (List.mem_cons_self _ _)
            rw [List.all_eq_true] at this
            exact this p hp)
        exact ih _ (fun x hx => hl x (List.mem_cons_of_mem _ hx)) hstep.1 hstep.2
  exact hgen (List.range d.stateCount) (fun _ _ => none, fun _ => none)
    (fun i hi => hd i hi) (fun _ _ => rfl) (fun _ => rfl)

theorem elimSelf_wf (config : RegExpConfig) (n : Nat) (ab : EMat × EVec)
    (ha : matWf ab.1) (hb : vecWf ab.2) :
    matWf (elimSelf config n ab).1 ∧ vecWf (elimSelf config n ab).2 := by
  rw [elimSelf]
  by_cases h : (ab.1 n n).isSome
  · rw [if_pos h]
    refine ⟨?_, ?_⟩
    · show matWf ((List.range n).foldl
        (fun a j => updMat a n j
          (concatenate (repeatZeroOrMoreTimes (a n n)) (a n j))) ab.1)
      have hgen : ∀ (l : List Nat) (a : EMat), matWf a →
          matWf (l.foldl (fun a j => updMat a n j
            (concatenate (repeatZeroOrMoreTimes (a n n)) (a n j))) a) := by
        intro l
        induction l with
        | nil => exact fun a ha => ha
        | cons j rest ih =>
            intro a ha
            apply ih
            apply updMat_wf _ _ _ _ ha
            exact concatenate_wf _ _
              (repeatZeroOrMoreTimes_wf _ (ha n n)) (ha n j)
      exact hgen _ _ ha
    · exact updVec_wf _ _ _ hb
        (concatenate_wf _ _ (repeatZeroOrMoreTimes_wf _ (ha n n)) (hb n))
  · rw [if_neg h]
    exact ⟨ha, hb⟩

theorem elimIncoming_wf (config : RegExpConfig) (n : Nat) (ab : EMat × EVec)
    (ha : matWf ab.1) (hb : vecWf ab.2) :
    matWf (elimIncoming config n ab).1 ∧ vecWf (elimIncoming config n ab).2 := by
  rw [elimIncoming]
  have hgen : ∀ (l : List Nat) (ab : EMat × EVec), matWf ab.1 → vecWf ab.2 →
      matWf (l.foldl (fun ab i =>
        if (ab.1 i n).isSome then
          (((List.range n).foldl (fun a j => updMat a i j
              (union config (a i j) (concatenate (a i n) (a n j)))) ab.1),
            updVec ab.2 i (union config (ab.2 i)
              (concatenate (ab.1 i n) (ab.2 n))))
        else ab) ab).1 ∧
      vecWf (l.foldl (fun ab i =>
        if (ab.1 i n).isSome then
          (((List.range n).foldl (fun a j => updMat a i j
              (union config (a i j) (concatenate (a i n) (a n j)))) ab.1),
            updVec ab.2 i (union config (ab.2 i)
              (concatenate (ab.1 i n) (ab.2 n))))
        else ab) ab).2 := by
    intro l
    induction l with
    | nil => exact fun ab ha hb => ⟨ha, hb⟩
    | cons i rest ih =>
        intro ab ha hb
        by_cases h : (ab.1 i n).isSome
        · have hinner : ∀ (l2 : List Nat) (a : EMat), matWf a →
              matWf (l2.foldl (fun a j => updMat a i j
                (union config (a i j) (concatenate (a i n) (a n j)))) a) := by
            intro l2
            induction l2 with
            | nil => exact fun a ha => ha
            | cons j rest2 ih2 =>
                intro a ha
                apply ih2
                apply updMat_wf _ _ _ _ ha
                exact union_wf config _ _ (ha i j)
                  (concatenate_wf _ _ (ha i n) (ha n j))
          apply ih
          · simp only [if_pos h]
            exact hinner _ _ ha
          · simp only [if_pos h]
            exact updVec_wf _ _ _ hb
              (union_wf config _ _ (hb i) (concatenate_wf _ _ (ha i n) (hb n)))
        · apply ih
          · simp only [if_neg h]
            exact ha
          · simp only [if_neg h]
            exact hb
  exact hgen _ ab ha hb

theorem elimStage_wf (config : RegExpConfig) (n : Nat) (ab : EMat × EVec)
    (ha : matWf ab.1) (hb : vecWf ab.2) :
    matWf (elimStage config n ab).1 ∧ vecWf (elimStage config n ab).2 := by
  rw [elimStage]
  obtain ⟨h1, h2⟩ := elimSelf_wf config n ab ha hb
  exact elimIncoming_wf config n _ h1 h2

theorem runElim_wf (config : RegExpConfig) (m : Nat) (ab : EMat × EVec)
    (ha : matWf ab.1) (hb : vecWf ab.2) :
    matWf (runElim config m ab).1 ∧ vecWf (runElim config m ab).2 := by
  induction m generalizing ab with
  | zero => exact ⟨ha, hb⟩
  | succ n ih =>
      show matWf (runElim config n (elimStage config n ab)).1 ∧ _
      obtain ⟨h1, h2⟩ := elimStage_wf config n ab ha hb
      exact ih _ h1 h2

/-- The synthesised expression tree satisfies all structural invariants. -/
theorem fromDfa_wf (d : DFA) (config : RegExpConfig)
    (hd : d.edgesWfB = true) : wfb (fromDfa d config) = true := by
  obtain ⟨ha, hb⟩ := buildPhase_wf config d hd
  obtain ⟨-, hb'⟩ := runElim_wf config d.stateCount _ ha hb
  rw [fromDfa]
  by_cases h : d.stateCount ≠ 0 ∧
      ((runElim config d.stateCount (buildPhase config d)).2 0).isSome
  · rw [if_pos h]
    have := hb' 0
    cases hv : (runElim config d.stateCount (buildPhase config d)).2 0 with
    | some e =>
        rw [hv] at this
        exact this
    | none => rfl
  · rw [if_neg h]; rfl

end Expression

/-! ## Subterms of an expression -/

namespace Expression

/-- The subterm relation on expression trees: `Subterm e x` holds when `e`
appears somewhere inside `x` (including `x` itself). -/
inductive Subterm : Expression → Expression → Prop where
  | refl (e : Expression) : Subterm e e
  | alternation {x : Expression} {opts : List Expression} (hmem : x ∈ opts)
      {e : Expression} (hs : Subterm e x) : Subterm e (.Alternation opts)
  | concatLeft {e1 e2 e : Expression} (hs : Subterm e e1) :
      Subterm e (.Concatenation e1 e2)
  | concatRight {e1 e2 e : Expression} (hs : Subterm e e2) :
      Subterm e (.Concatenation e1 e2)
  | repetition {x e : Expression} {q : Quantifier} (hs : Subterm e x) :
      Subterm e (.Repetition x q)

/-- Well-formedness is hereditary along subterms. -/
theorem wfb_of_subterm {e x : Expression} (hs : Subterm e x)
    (hx : wfb x = true) : wfb e = true := by
  induction hs with
  | refl e => exact hx
  | alternation hmem hs ih =>
      apply ih
      have := (wfb_alternation_iff _).mp hx
      exact (this.2.2 _ hmem).2
  | concatLeft hs ih =>
      apply ih
      rw [wfb_concatenation, Bool.and_eq_true] at hx
      exact hx.1
  | concatRight hs ih =>
      apply ih
      rw [wfb_concatenation, Bool.and_eq_true] at hx
      exact hx.2
  | repetition hs ih =>
      apply ih
      rw [wfb_repetition] at hx
      exact hx

end Expression

/-! ## Claim C3: character classes always hold at least two scalars -/

namespace Expression

/-- C3: every `CharacterClass` node appearing anywhere in a tree produced by
`Expression::from` from a DFA with well-formed edge graphemes contains at
least two distinct scalar characters: a 1-element class is never produced
(the equality check in `union` prunes equal operands before class
formation). -/
theorem claim_C3 (d : DFA) (config : RegExpConfig) (hd : d.edgesWfB = true)
    (cs : Finset Char) (hs : Subterm (.CharacterClass cs) (fromDfa d config)) :
    2 ≤ cs.card := by
  have hwf := wfb_of_subterm hs (fromDfa_wf d config hd)
  rw [wfb_characterClass, decide_eq_true_eq] at hwf
  exact hwf

end Expression

namespace Expression

/-- Witness for C3 at a concrete input: the two-state DFA for the language
`{a, b}` synthesises exactly the character class `[ab]`, and the claim gives
its cardinality bound. -/
theorem claim_C3_witness :
    2 ≤ ({'a', 'b'} : Finset Char).card :=
  claim_C3 ⟨2, (· == 1), fun i =>
      if i = 0 then [(⟨['a'], 1, 1⟩, 1), (⟨['b'], 1, 1⟩, 1)] else []⟩
    ⟨false⟩ (by decide) {'a', 'b'}
    (by
      have h : fromDfa
          ⟨2, (· == 1), fun i =>
            if i = 0 then [(⟨['a'], 1, 1⟩, 1), (⟨['b'], 1, 1⟩, 1)] else []⟩
          ⟨false⟩ = .CharacterClass {'a', 'b'} := by decide
      rw [h]
      exact Subterm.refl _)

end Expression

/-! ## Claim C9: the driver's result and the empty DFA -/

namespace Expression

/-- C9: `Expression::from` returns the accumulated `b[0]` when the DFA has
at least one state and that slot is present after elimination, and the
epsilon literal otherwise; in particular a DFA with zero states yields the
epsilon literal, and the driver is total (never fails). -/
theorem claim_C9 (d : DFA) (config : RegExpConfig) :
    (d.stateCount = 0 → fromDfa d config = .Literal []) ∧
    (∀ e, d.stateCount ≠ 0 →
      (runElim config d.stateCount (buildPhase config d)).2 0 = some e →
      fromDfa d config = e) ∧
    ((runElim config d.stateCount (buildPhase config d)).2 0 = none →
      fromDfa d config = .Literal []) := by
  refine ⟨?_, ?_, ?_⟩
  · intro h0
    rw [fromDfa, if_neg]
    intro hcon
    exact hcon.1 h0
  · intro e hne hsome
    rw [fromDfa, if_pos ⟨hne, by rw [hsome]; rfl⟩, hsome]
    rfl
  · intro hnone
    rw [fromDfa]
    by_cases h : d.stateCount ≠ 0 ∧
        ((runElim config d.stateCount (buildPhase config d)).2 0).isSome
    · exfalso
      have := h.2
      rw [hnone] at this
      exact Bool.false_ne_true this
    · rw [if_neg h]

/-- Witness for C9 at concrete inputs: the zero-state DFA yields the epsilon
literal. -/
theorem claim_C9_witness :
    fromDfa ⟨0, fun _ => false, fun _ => []⟩ ⟨false⟩ = .Literal [] :=
  (claim_C9 ⟨0, fun _ => false, fun _ => []⟩ ⟨false⟩).1 rfl

end Expression

/-! ## Language semantics of expression trees

Strings are sequences of graphemes, each grapheme an atomic symbol (the core
treats graphemes as opaque units; the DFA's edges are labelled by single
graphemes).  A `CharacterClass` stands for the single-codepoint literals it
was merged from, whose graphemes are single scalars with bounds `(1, 1)`. -/

namespace Expression

mutual

/-- The language denoted by an expression tree, over grapheme symbols. -/
def lang : Expression → Language Grapheme
  | .Alternation opts => langList opts
  | .CharacterClass s => { w | ∃ c ∈ s, w = [⟨[c], 1, 1⟩] }
  | .Concatenation e1 e2 => lang e1 * lang e2
  | .Literal cl => {cl}
  | .Repetition e .KleeneStar => (lang e)∗
  | .Repetition e .QuestionMark => lang e + 1

/-- The union of the languages of a list of alternatives. -/
def langList : List Expression → Language Grapheme
  | [] => 0
  | e :: rest => lang e + langList rest

end

/-- Language of an optional expression slot: an absent slot denotes the
empty language. -/
def langO : Option Expression → Language Grapheme
  | none => 0
  | some e => lang e

theorem langO_some (e : Expression) : langO (some e) = lang e := rfl

theorem langO_none : langO none = 0 := rfl

theorem lang_literal (cl : GraphemeCluster) : lang (.Literal cl) = {cl} := rfl

theorem lang_concatenation (e1 e2 : Expression) :
    lang (.Concatenation e1 e2) = lang e1 * lang e2 := rfl

theorem lang_alternation (opts : List Expression) :
    lang (.Alternation opts) = langList opts := rfl

theorem lang_star (e : Expression) :
    lang (.Repetition e .KleeneStar) = (lang e)∗ := rfl

theorem lang_question (e : Expression) :
    lang (.Repetition e .QuestionMark) = lang e + 1 := rfl

theorem lang_characterClass (s : Finset Char) :
    lang (.CharacterClass s) = { w | ∃ c ∈ s, w = [⟨[c], 1, 1⟩] } := rfl

theorem langList_nil : langList [] = 0 := rfl

theorem langList_cons (e : Expression) (rest : List Expression) :
    langList (e :: rest) = lang e + langList rest := rfl

theorem lang_epsilon : lang (.Literal []) = 1 := by
  rw [lang_literal, Language.one_def]

theorem isEmpty_true_iff (e : Expression) :
    e.isEmpty = true ↔ e = .Literal [] := by
  cases e with
  | Literal cl =>
      cases cl with
      | nil => simp [isEmpty]
      | cons g rest => simp [isEmpty]
  | Alternation o => simp [isEmpty]
  | CharacterClass s => simp [isEmpty]
  | Concatenation a b => simp [isEmpty]
  | Repetition x q => simp [isEmpty]

theorem singleton_mul_singleton (u v : List Grapheme) :
    ({u} : Language Grapheme) * {v} = {u ++ v} := by
  apply Set.eq_of_subset_of_subset
  · intro w hw
    rw [Language.mem_mul] at hw
    obtain ⟨a, ha, b, hb, hab⟩ := hw
    rw [Set.mem_singleton_iff] at ha hb
    subst ha
    subst hb
    exact hab ▸ rfl
  · intro w hw
    rw [Set.mem_singleton_iff] at hw
    subst hw
    rw [Language.mem_mul]
    exact ⟨u, rfl, v, rfl, rfl⟩

theorem langList_append (l1 l2 : List Expression) :
    langList (l1 ++ l2) = langList l1 + langList l2 := by
  induction l1 with
  | nil => rw [List.nil_append, langList_nil, zero_add]
  | cons e rest ih =>
      rw [List.cons_append, langList_cons, langList_cons, ih, add_assoc]

theorem langList_perm {l1 l2 : List Expression} (h : List.Perm l1 l2) :
    langList l1 = langList l2 := by
  induction h with
  | nil => rfl
  | cons x h ih => rw [langList_cons, langList_cons, ih]
  | swap x y l =>
      rw [langList_cons, langList_cons, langList_cons, langList_cons,
        ← add_assoc, ← add_assoc, add_comm (lang y) (lang x)]
  | trans h1 h2 ih1 ih2 => rw [ih1, ih2]

mutual

theorem flattenOne_lang (e : Expression) :
    langList (flattenOne e) = lang e := by
  cases e with
  | Alternation opts =>
      show langList (flattenList opts) = langList opts
      exact flattenList_lang opts
  | CharacterClass s =>
      show lang (.CharacterClass s) + 0 = lang (.CharacterClass s)
      rw [add_zero]
  | Concatenation a b =>
      show lang (.Concatenation a b) + 0 = lang (.Concatenation a b)
      rw [add_zero]
  | Literal cl =>
      show lang (.Literal cl) + 0 = lang (.Literal cl)
      rw [add_zero]
  | Repetition x q =>
      show lang (.Repetition x q) + 0 = lang (.Repetition x q)
      rw [add_zero]

theorem flattenList_lang (l : List Expression) :
    langList (flattenList l) = langList l := by
  cases l with
  | nil => rfl
  | cons x rest =>
      show langList (flattenOne x ++ flattenList rest) = _
      rw [langList_append, langList_cons, flattenOne_lang x, flattenList_lang rest]

end

theorem newAlternation_lang (e1 e2 : Expression) :
    lang (newAlternation e1 e2) = lang e1 + lang e2 := by
  show lang (.Alternation (List.insertionSort lenDesc
    (flattenAlternations [] [e1, e2]))) = _
  rw [lang_alternation,
    langList_perm (List.perm_insertionSort lenDesc (flattenAlternations [] [e1, e2]))]
  show langList ([] ++ flattenList [e1, e2]) = _
  rw [List.nil_append, flattenList_lang]
  rw [langList_cons, langList_cons, langList_nil, add_zero]

theorem concatOp_lang (e1 e2 : Expression) :
    lang (concatOp e1 e2) = lang e1 * lang e2 := by
  cases e1 with
  | Literal l1 =>
      cases e2 with
      | Literal l2 =>
          show lang (.Literal (l1 ++ l2)) = _
          rw [lang_literal, lang_literal, lang_literal, singleton_mul_singleton]
      | Concatenation cf cs =>
          cases cf with
          | Literal lf =>
              show lang (.Concatenation (.Literal (l1 ++ lf)) cs) = _
              rw [lang_concatenation, lang_concatenation, lang_literal,
                lang_literal, lang_literal, ← singleton_mul_singleton,
                mul_assoc]
          | Alternation o =>
              rw [concatOp_eq_default _ _ (by simp) (by simp) (by simp),
                lang_concatenation]
          | CharacterClass s =>
              rw [concatOp_eq_default _ _ (by simp) (by simp) (by simp),
                lang_concatenation]
          | Concatenation x y =>
              rw [concatOp_eq_default _ _ (by simp) (by simp) (by simp),
                lang_concatenation]
          | Repetition x q =>
              rw [concatOp_eq_default _ _ (by simp) (by simp) (by simp),
                lang_concatenation]
      | Alternation o =>
          rw [concatOp_eq_default _ _ (by simp) (by simp) (by simp),
            lang_concatenation]
      | CharacterClass s =>
          rw [concatOp_eq_default _ _ (by simp) (by simp) (by simp),
            lang_concatenation]
      | Repetition x q =>
          rw [concatOp_eq_default _ _ (by simp) (by simp) (by simp),
            lang_concatenation]
  | Concatenation cf cs =>
      cases e2 with
      | Literal l2 =>
          cases cs with
          | Literal ls =>
              show lang (.Concatenation cf (.Literal (ls ++ l2))) = _
              rw [lang_concatenation, lang_concatenation, lang_literal,
                lang_literal, lang_literal, ← singleton_mul_singleton,
                ← mul_assoc]
          | Alternation o =>
              rw [concatOp_eq_default _ _ (by simp) (by simp) (by simp),
                lang_concatenation]
          | CharacterClass s =>
              rw [concatOp_eq_default _ _ (by simp) (by simp) (by simp),
                lang_concatenation]
          | Concatenation x y =>
              rw [concatOp_eq_default _ _ (by simp) (by simp) (by simp),
                lang_concatenation]
          | Repetition x q =>
              rw [concatOp_eq_default _ _ (by simp) (by simp) (by simp),
                lang_concatenation]
      | Alternation o =>
          rw [concatOp_eq_default _ _ (by simp) (by simp) (by simp),
            lang_concatenation]
      | CharacterClass s =>
          rw [concatOp_eq_default _ _ (by simp) (by simp) (by simp),
            lang_concatenation]
      | Concatenation x y =>
          rw [concatOp_eq_default _ _ (by simp) (by simp) (by simp),
            lang_concatenation]
      | Repetition x q =>
          rw [concatOp_eq_default _ _ (by simp) (by simp) (by simp),
            lang_concatenation]
  | Alternation o =>
      rw [concatOp_eq_default _ _ (by simp) (by simp) (by simp),
        lang_concatenation]
  | CharacterClass s =>
      rw [concatOp_eq_default _ _ (by simp) (by simp) (by simp),
        lang_concatenation]
  | Repetition x q =>
      rw [concatOp_eq_default _ _ (by simp) (by simp) (by simp),
        lang_concatenation]

/-- `concatenate` denotes language concatenation (an absent operand is the
empty language, which annihilates). -/
theorem concatenate_lang (a b : Option Expression) :
    langO (concatenate a b) = langO a * langO b := by
  cases a with
  | none =>
      cases b with
      | none =>
          rw [show concatenate none none = none from rfl, langO_none, zero_mul]
      | some e =>
          rw [show concatenate none (some e) = none from rfl, langO_none, zero_mul]
  | some e1 =>
    cases b with
    | none =>
        rw [show concatenate (some e1) none = none from rfl, langO_none, mul_zero]
    | some e2 =>
        rw [concatenate_some_some]
        by_cases h1 : e1.isEmpty
        · rw [if_pos h1]
          obtain rfl := (isEmpty_true_iff e1).mp h1
          rw [langO_some, langO_some, lang_epsilon, one_mul]
        · rw [if_neg h1]
          by_cases h2 : e2.isEmpty
          · rw [if_pos h2]
            obtain rfl := (isEmpty_true_iff e2).mp h2
            rw [langO_some, langO_some, lang_epsilon, mul_one]
          · rw [if_neg h2, langO_some, langO_some, langO_some, concatOp_lang]

theorem repeatZeroOrMoreTimes_lang (a : Option Expression) (e : Expression)
    (h : a = some e) :
    langO (repeatZeroOrMoreTimes a) = (lang e)∗ := by
  subst h
  rfl

end Expression

/-! ## Language semantics of affix factoring and `union` -/

namespace Expression

theorem value_none_literal (e : Expression) (v : List Grapheme)
    (hv : e.value none = some v) : e = .Literal v := by
  cases e with
  | Literal cl =>
      obtain rfl : cl = v := by injection hv
      rfl
  | Alternation o => exact absurd hv (by simp [value])
  | CharacterClass s => exact absurd hv (by simp [value])
  | Concatenation a b => exact absurd hv (by simp [value])
  | Repetition x q => exact absurd hv (by simp [value])

theorem value_lang_front (e : Expression) (v p : List Grapheme)
    (hv : e.value (some .Prefix) = some v) (hp : p <+: v) :
    lang e = {p} * lang (e.removeSubstring .Prefix p.length) := by
  cases e with
  | Literal cl =>
      have hcl : cl = v := by injection hv
      subst hcl
      show ({cl} : Language Grapheme) = {p} * lang (.Literal (cl.drop p.length))
      rw [lang_literal, singleton_mul_singleton, prefix_append_drop hp]
  | Concatenation e1 e2 =>
      have h1 : e1.value none = some v := hv
      obtain rfl := value_none_literal e1 v h1
      show lang (.Concatenation (.Literal v) e2) =
        {p} * lang ((Expression.Concatenation (.Literal v) e2).removeSubstring
          .Prefix p.length)
      rw [show (Expression.Concatenation (.Literal v) e2).removeSubstring
        .Prefix p.length =
        .Concatenation (.Literal (v.drop p.length)) e2 from rfl]
      rw [lang_concatenation, lang_concatenation, lang_literal, lang_literal,
        ← mul_assoc, singleton_mul_singleton, prefix_append_drop hp]
  | Alternation o => exact absurd hv (by simp [value])
  | CharacterClass s => exact absurd hv (by simp [value])
  | Repetition x q => exact absurd hv (by simp [value])

theorem value_lang_suffix (e : Expression) (v s : List Grapheme)
    (hv : e.value (some .Suffix) = some v) (hs : s <:+ v) :
    lang e = lang (e.removeSubstring .Suffix s.length) * {s} := by
  cases e with
  | Literal cl =>
      have hcl : cl = v := by injection hv
      subst hcl
      show ({cl} : Language Grapheme) =
        lang (.Literal (cl.take (cl.length - s.length))) * {s}
      rw [lang_literal, singleton_mul_singleton, suffix_take_append hs]
  | Concatenation e1 e2 =>
      have h2 : e2.value none = some v := hv
      obtain rfl := value_none_literal e2 v h2
      show lang (.Concatenation e1 (.Literal v)) =
        lang ((Expression.Concatenation e1 (.Literal v)).removeSubstring
          .Suffix s.length) * {s}
      rw [show (Expression.Concatenation e1 (.Literal v)).removeSubstring
        .Suffix s.length =
        .Concatenation e1 (.Literal (v.take (v.length - s.length))) from rfl]
      rw [lang_concatenation, lang_concatenation, lang_literal, lang_literal,
        mul_assoc, singleton_mul_singleton, suffix_take_append hs]
  | Alternation o => exact absurd hv (by simp [value])
  | CharacterClass s => exact absurd hv (by simp [value])
  | Repetition x q => exact absurd hv (by simp [value])

/-- The language of a removed affix: an absent run is the neutral factor. -/
def affixLang : Option (List Grapheme) → Language Grapheme
  | none => 1
  | some p => {p}

theorem removeCommon_lang_front (a b : Expression) :
    lang a = affixLang (removeCommonSubstring a b .Prefix).2.2 *
        lang (removeCommonSubstring a b .Prefix).1 ∧
      lang b = affixLang (removeCommonSubstring a b .Prefix).2.2 *
        lang (removeCommonSubstring a b .Prefix).2.1 := by
  cases hf : findCommonSubstring a b .Prefix with
  | none =>
      rw [removeCommonSubstring, hf]
      exact ⟨(one_mul _).symm, (one_mul _).symm⟩
  | some p =>
      obtain ⟨hne, haffa, haffb, -⟩ := (findCommonSubstring_spec a b .Prefix).1 p hf
      rw [removeCommonSubstring, hf]
      constructor
      · show lang a = {p} * lang (a.removeSubstring .Prefix p.length)
        cases hva : a.value (some .Prefix) with
        | none =>
            exfalso
            rw [hva] at haffa
            exact hne (List.prefix_nil.mp haffa)
        | some va =>
            rw [hva] at haffa
            exact value_lang_front a va p hva haffa
      · show lang b = {p} * lang (b.removeSubstring .Prefix p.length)
        cases hvb : b.value (some .Prefix) with
        | none =>
            exfalso
            rw [hvb] at haffb
            exact hne (List.prefix_nil.mp haffb)
        | some vb =>
            rw [hvb] at haffb
            exact value_lang_front b vb p hvb haffb

theorem removeCommon_lang_suffix (a b : Expression) :
    lang a = lang (removeCommonSubstring a b .Suffix).1 *
        affixLang (removeCommonSubstring a b .Suffix).2.2 ∧
      lang b = lang (removeCommonSubstring a b .Suffix).2.1 *
        affixLang (removeCommonSubstring a b .Suffix).2.2 := by
  cases hf : findCommonSubstring a b .Suffix with
  | none =>
      rw [removeCommonSubstring, hf]
      exact ⟨(mul_one _).symm, (mul_one _).symm⟩
  | some p =>
      obtain ⟨hne, haffa, haffb, -⟩ := (findCommonSubstring_spec a b .Suffix).1 p hf
      rw [removeCommonSubstring, hf]
      constructor
      · show lang a = lang (a.removeSubstring .Suffix p.length) * {p}
        cases hva : a.value (some .Suffix) with
        | none =>
            exfalso
            rw [hva] at haffa
            exact hne (List.suffix_nil.mp haffa)
        | some va =>
            rw [hva] at haffa
            exact value_lang_suffix a va p hva haffa
      · show lang b = lang (b.removeSubstring .Suffix p.length) * {p}
        cases hvb : b.value (some .Suffix) with
        | none =>
            exfalso
            rw [hvb] at haffb
            exact hne (List.suffix_nil.mp haffb)
        | some vb =>
            rw [hvb] at haffb
            exact value_lang_suffix b vb p hvb haffb

theorem unionWrapAffixes_lang (r : Expression)
    (cp cs : Option (List Grapheme)) :
    lang (unionWrapAffixes r cp cs) = affixLang cp * lang r * affixLang cs := by
  cases cp with
  | none =>
      cases cs with
      | none =>
          show lang r = affixLang none * lang r * affixLang none
          rw [show affixLang none = (1 : Language Grapheme) from rfl, one_mul, mul_one]
      | some sp =>
          show lang (.Concatenation r (.Literal sp)) = _
          rw [lang_concatenation, lang_literal,
            show affixLang none = (1 : Language Grapheme) from rfl, one_mul]
          rfl
  | some pp =>
      cases cs with
      | none =>
          show lang (.Concatenation (.Literal pp) r) = _
          rw [lang_concatenation, lang_literal,
            show affixLang none = (1 : Language Grapheme) from rfl, mul_one]
          rfl
      | some sp =>
          show lang (.Concatenation (.Concatenation (.Literal pp) r) (.Literal sp)) = _
          rw [lang_concatenation, lang_concatenation, lang_literal, lang_literal]
          rfl

theorem lang_add_self (L : Language Grapheme) : L + L = L := by
  rw [Language.add_def, Set.union_self]

theorem classLang_union (s1 s2 : Finset Char) :
    lang (.CharacterClass (s1 ∪ s2)) =
      lang (.CharacterClass s1) + lang (.CharacterClass s2) := by
  rw [lang_characterClass, lang_characterClass, lang_characterClass,
    Language.add_def]
  apply Set.eq_of_subset_of_subset
  · rintro w ⟨c, hc, rfl⟩
    rcases Finset.mem_union.mp hc with h | h
    · exact Set.mem_union_left _ ⟨c, h, rfl⟩
    · exact Set.mem_union_right _ ⟨c, h, rfl⟩
  · rintro w (⟨c, hc, rfl⟩ | ⟨c, hc, rfl⟩)
    · exact ⟨c, Finset.mem_union_left _ hc, rfl⟩
    · exact ⟨c, Finset.mem_union_right _ hc, rfl⟩

theorem lang_class_of_singleCodepoint (config : RegExpConfig) (e : Expression)
    (hwf : wfb e = true) (hsc : e.isSingleCodepoint config = true) :
    lang e = lang (.CharacterClass (extractCharacterSet e)) := by
  rcases isSingleCodepoint_shape config e hsc with ⟨s, rfl⟩ | ⟨cl, rfl⟩
  · rfl
  · obtain ⟨c, rfl⟩ := singleCodepoint_literal_shape config cl hwf hsc
    rw [extractCharacterSet_single, lang_literal, lang_characterClass]
    apply Set.eq_of_subset_of_subset
    · intro w hw
      rw [Set.mem_singleton_iff] at hw
      exact ⟨c, Finset.mem_singleton_self c, hw⟩
    · rintro w ⟨c', hc', rfl⟩
      rw [Finset.mem_singleton] at hc'
      subst hc'
      rfl

theorem unionAbsorbEpsilon_lang (e1 e2 r : Expression)
    (hr : unionAbsorbEpsilon e1 e2 = some r) :
    lang r = lang e1 + lang e2 := by
  rw [unionAbsorbEpsilon] at hr
  by_cases he1 : e1.isEmpty
  · rw [if_pos he1] at hr
    obtain rfl : Expression.Repetition e2 .QuestionMark = r := by injection hr
    obtain rfl := (isEmpty_true_iff e1).mp he1
    rw [lang_question, lang_epsilon, add_comm]
  · rw [if_neg he1] at hr
    by_cases he2 : e2.isEmpty
    · rw [if_pos he2] at hr
      obtain rfl : Expression.Repetition e1 .QuestionMark = r := by injection hr
      obtain rfl := (isEmpty_true_iff e2).mp he2
      rw [lang_question, lang_epsilon]
    · rw [if_neg he2] at hr
      exact absurd hr (by simp)

theorem unionAbsorbLeftQuestion_lang (e1 e2 r : Expression)
    (hr : unionAbsorbLeftQuestion e1 e2 = some r) :
    lang r = lang e1 + lang e2 := by
  cases e1 with
  | Repetition x q =>
      cases q with
      | QuestionMark =>
          obtain rfl : Expression.Repetition (newAlternation x e2) .QuestionMark = r := by
            injection hr
          rw [lang_question, newAlternation_lang, lang_question]
          rw [add_assoc, add_comm (lang e2) 1, ← add_assoc]
      | KleeneStar => exact absurd hr (by simp [unionAbsorbLeftQuestion])
  | Alternation o => exact absurd hr (by simp [unionAbsorbLeftQuestion])
  | CharacterClass s => exact absurd hr (by simp [unionAbsorbLeftQuestion])
  | Concatenation x y => exact absurd hr (by simp [unionAbsorbLeftQuestion])
  | Literal cl => exact absurd hr (by simp [unionAbsorbLeftQuestion])

theorem unionAbsorbRightQuestion_lang (e1 e2 r : Expression)
    (hr : unionAbsorbRightQuestion e1 e2 = some r) :
    lang r = lang e1 + lang e2 := by
  cases e2 with
  | Repetition x q =>
      cases q with
      | QuestionMark =>
          obtain rfl : Expression.Repetition (newAlternation e1 x) .QuestionMark = r := by
            injection hr
          rw [lang_question, newAlternation_lang, lang_question, add_assoc]
      | KleeneStar => exact absurd hr (by simp [unionAbsorbRightQuestion])
  | Alternation o => exact absurd hr (by simp [unionAbsorbRightQuestion])
  | CharacterClass s => exact absurd hr (by simp [unionAbsorbRightQuestion])
  | Concatenation x y => exact absurd hr (by simp [unionAbsorbRightQuestion])
  | Literal cl => exact absurd hr (by simp [unionAbsorbRightQuestion])

theorem unionMergeClasses_lang (config : RegExpConfig) (e1 e2 r : Expression)
    (h1 : wfb e1 = true) (h2 : wfb e2 = true)
    (hr : unionMergeClasses config e1 e2 = some r) :
    lang r = lang e1 + lang e2 := by
  rw [unionMergeClasses] at hr
  by_cases hsc : e1.isSingleCodepoint config && e2.isSingleCodepoint config
  · rw [if_pos hsc] at hr
    rw [Bool.and_eq_true] at hsc
    obtain rfl : newCharacterClass (extractCharacterSet e1) (extractCharacterSet e2) = r := by
      injection hr
    show lang (.CharacterClass (extractCharacterSet e1 ∪ extractCharacterSet e2)) = _
    rw [classLang_union, ← lang_class_of_singleCodepoint config e1 h1 hsc.1,
      ← lang_class_of_singleCodepoint config e2 h2 hsc.2]
  · rw [if_neg hsc] at hr
    exact absurd hr (by simp)

theorem unionCore_lang (config : RegExpConfig) (e1 e2 : Expression)
    (h1 : wfb e1 = true) (h2 : wfb e2 = true) :
    lang (unionCore config e1 e2) = lang e1 + lang e2 := by
  rw [unionCore]
  cases hae : unionAbsorbEpsilon e1 e2 with
  | some r => exact unionAbsorbEpsilon_lang e1 e2 r hae
  | none =>
    cases hal : unionAbsorbLeftQuestion e1 e2 with
    | some r => exact unionAbsorbLeftQuestion_lang e1 e2 r hal
    | none =>
      cases har : unionAbsorbRightQuestion e1 e2 with
      | some r => exact unionAbsorbRightQuestion_lang e1 e2 r har
      | none =>
        cases hac : unionMergeClasses config e1 e2 with
        | some r => exact unionMergeClasses_lang config e1 e2 r h1 h2 hac
        | none => exact newAlternation_lang e1 e2

/-- The `union` combinator denotes language union (an absent operand is the
empty language). -/
theorem union_lang (config : RegExpConfig) (a b : Option Expression)
    (ha : wfbO a = true) (hb : wfbO b = true) :
    langO (union config a b) = langO a + langO b := by
  cases a with
  | none =>
      cases b with
      | none => rw [show union config none none = none from rfl, langO_none, add_zero]
      | some e =>
          rw [show union config none (some e) = some e from rfl, langO_none, zero_add]
  | some expr1 =>
    cases b with
    | none =>
        rw [show union config (some expr1) none = some expr1 from rfl, langO_none,
          add_zero]
    | some expr2 =>
        by_cases heq : expr1 = expr2
        · rw [union, if_pos heq, langO_some, langO_some, heq, lang_add_self]
        · have key : union config (some expr1) (some expr2) =
              some (unionWrapAffixes
                (unionCore config
                  (removeCommonSubstring
                    (removeCommonSubstring expr1 expr2 .Prefix).1
                    (removeCommonSubstring expr1 expr2 .Prefix).2.1 .Suffix).1
                  (removeCommonSubstring
                    (removeCommonSubstring expr1 expr2 .Prefix).1
                    (removeCommonSubstring expr1 expr2 .Prefix).2.1 .Suffix).2.1)
                (removeCommonSubstring expr1 expr2 .Prefix).2.2
                (removeCommonSubstring
                  (removeCommonSubstring expr1 expr2 .Prefix).1
                  (removeCommonSubstring expr1 expr2 .Prefix).2.1 .Suffix).2.2) := by
            simp [union, heq]
          rw [key, langO_some, langO_some, langO_some]
          rw [wfbO_some] at ha hb
          have hw1 : wfb (removeCommonSubstring expr1 expr2 .Prefix).1 = true :=
            removeCommonSubstring_fst_wf _ _ _ ha
          have hw2 : wfb (removeCommonSubstring expr1 expr2 .Prefix).2.1 = true :=
            removeCommonSubstring_snd_wf _ _ _ hb
          have hw1s : wfb (removeCommonSubstring
              (removeCommonSubstring expr1 expr2 .Prefix).1
              (removeCommonSubstring expr1 expr2 .Prefix).2.1 .Suffix).1 = true :=
            removeCommonSubstring_fst_wf _ _ _ hw1
          have hw2s : wfb (removeCommonSubstring
              (removeCommonSubstring expr1 expr2 .Prefix).1
              (removeCommonSubstring expr1 expr2 .Prefix).2.1 .Suffix).2.1 = true :=
            removeCommonSubstring_snd_wf _ _ _ hw2
          obtain ⟨hpa, hpb⟩ := removeCommon_lang_front expr1 expr2
          obtain ⟨hsa, hsb⟩ := removeCommon_lang_suffix
            (removeCommonSubstring expr1 expr2 .Prefix).1
            (removeCommonSubstring expr1 expr2 .Prefix).2.1
          rw [unionWrapAffixes_lang, unionCore_lang _ _ _ hw1s hw2s]
          rw [mul_add, add_mul]
          rw [hpa, hpb, hsa, hsb]
          rw [mul_assoc, mul_assoc]

end Expression

/-! ## Arden's lemma and DFA semantics -/

namespace Expression

theorem nil_mem_mul_iff {A B : Language Grapheme} :
    [] ∈ A * B ↔ [] ∈ A ∧ [] ∈ B := by
  constructor
  · intro h
    rw [Language.mem_mul] at h
    obtain ⟨u, hu, v, hv, huv⟩ := h
    obtain ⟨rfl, rfl⟩ := List.append_eq_nil.mp huv
    exact ⟨hu, hv⟩
  · rintro ⟨h1, h2⟩
    rw [Language.mem_mul]
    exact ⟨[], h1, [], h2, rfl⟩

/-- Arden's lemma: a language satisfying `X = A·X + C` with `A` free of the
empty word equals `A∗·C`. -/
theorem arden {A C X : Language Grapheme} (hA : [] ∉ A)
    (hX : X = A * X + C) : X = A∗ * C := by
  apply Set.eq_of_subset_of_subset
  · -- X ⊆ A∗ * C, by strong induction on word length
    have main : ∀ n (w : List Grapheme), w.length ≤ n → w ∈ X → w ∈ A∗ * C := by
      intro n
      induction n with
      | zero =>
          intro w hlen hw
          have hwnil : w = [] := List.length_eq_zero.mp (Nat.le_zero.mp hlen)
          subst hwnil
          rw [hX, Language.mem_add] at hw
          rcases hw with h | h
          · exact absurd (nil_mem_mul_iff.mp h).1 hA
          · rw [Language.mem_mul]
            exact ⟨[], Language.nil_mem_kstar A, [], h, rfl⟩
      | succ n ih =>
          intro w hlen hw
          rw [hX, Language.mem_add] at hw
          rcases hw with h | h
          · rw [Language.mem_mul] at h
            obtain ⟨u, hu, v, hv, huv⟩ := h
            have hune : u ≠ [] := fun hn => hA (hn ▸ hu)
            have hvlen : v.length ≤ n := by
              have : u.length + v.length = w.length := by
                rw [← huv, List.length_append]
              have hupos : 1 ≤ u.length := by
                cases u with
                | nil => exact absurd rfl hune
                | cons x xs => simp
              omega
            have hv' := ih v hvlen hv
            rw [Language.mem_mul] at hv'
            obtain ⟨j, hj, c, hc, hjc⟩ := hv'
            rw [Language.mem_kstar] at hj
            obtain ⟨Ls, hLs, hmem⟩ := hj
            rw [Language.mem_mul]
            refine ⟨u ++ j, ?_, c, hc, by rw [← huv, ← hjc, List.append_assoc]⟩
            rw [Language.mem_kstar]
            refine ⟨u :: Ls, ?_, ?_⟩
            · rw [List.flatten_cons, hLs]
            · intro y hy
              rcases List.mem_cons.mp hy with rfl | hy
              · exact hu
              · exact hmem y hy
          · rw [Language.mem_mul]
            exact ⟨[], Language.nil_mem_kstar A, w, h, rfl⟩
    intro w hw
    exact main w.length w le_rfl hw
  · -- A∗ * C ⊆ X
    intro w hw
    rw [Language.mem_mul] at hw
    obtain ⟨u, hu, v, hv, huv⟩ := hw
    rw [Language.mem_kstar] at hu
    obtain ⟨Ls, rfl, hmem⟩ := hu
    subst huv
    clear hA
    induction Ls with
    | nil =>
        rw [List.flatten_nil, List.nil_append, hX, Language.mem_add]
        exact Or.inr hv
    | cons y Ls ih =>
        rw [List.flatten_cons, List.append_assoc, hX, Language.mem_add]
        left
        rw [Language.mem_mul]
        refine ⟨y, hmem y (List.mem_cons_self _ _), Ls.flatten ++ v, ?_, rfl⟩
        exact ih (fun z hz => hmem z (List.mem_cons_of_mem _ hz))

end Expression

/-! ## Acceptance semantics of the DFA collaborator -/

/-- Modelled from the spec: acceptance of a grapheme string starting from a
state of the DFA — the empty string is accepted at a final state, and an
outgoing edge labelled `g` to state `j` accepts `g :: w` whenever `j`
accepts `w`. -/
inductive DFA.Accepts (d : DFA) : Nat → List Grapheme → Prop where
  | final {i : Nat} (hf : d.isFinalState i = true) : DFA.Accepts d i []
  | step {i : Nat} {g : Grapheme} {j : Nat} {w : List Grapheme}
      (he : (g, j) ∈ d.outgoingEdges i) (hacc : DFA.Accepts d j w) :
      DFA.Accepts d i (g :: w)

/-- The language accepted from state `i`. -/
def DFA.stateLang (d : DFA) (i : Nat) : Language Grapheme :=
  { w | d.Accepts i w }

/-- Modelled from the spec: the language of the DFA — the strings accepted
from the start state `s_0`; an empty DFA (no states, hence no start state)
has the empty language. -/
def DFA.language (d : DFA) : Language Grapheme :=
  { w | 0 < d.stateCount ∧ d.Accepts 0 w }

/-- Well-formedness of the targets the driver reads: every outgoing edge of
every state leads to a state index below the state count. -/
def DFA.targetsWfB (d : DFA) : Bool :=
  (List.range d.stateCount).all
    (fun i => (d.outgoingEdges i).all (fun p => decide (p.2 < d.stateCount)))

namespace Expression

/-- The language contributed to slot `j` by an edge list. -/
def edgeLang : List (Grapheme × Nat) → Nat → Language Grapheme
  | [], _ => 0
  | e :: rest, j => (if e.2 = j then {[e.1]} else 0) + edgeLang rest j

theorem mem_edgeLang (edges : List (Grapheme × Nat)) (j : Nat)
    (w : List Grapheme) :
    w ∈ edgeLang edges j ↔ ∃ g, (g, j) ∈ edges ∧ w = [g] := by
  induction edges with
  | nil =>
      show w ∈ (0 : Language Grapheme) ↔ _
      simp
  | cons e rest ih =>
      obtain ⟨ge, je⟩ := e
      show w ∈ (if je = j then {[ge]} else 0) + edgeLang rest j ↔ _
      rw [Language.mem_add, ih]
      constructor
      · rintro (h | ⟨g, hg, rfl⟩)
        · by_cases hej : je = j
          · rw [if_pos hej] at h
            rw [Set.mem_singleton_iff] at h
            subst hej
            exact ⟨ge, List.mem_cons_self _ _, h⟩
          · rw [if_neg hej] at h
            exact absurd h (by simp)
        · exact ⟨g, List.mem_cons_of_mem _ hg, rfl⟩
      · rintro ⟨g, hg, rfl⟩
        rcases List.mem_cons.mp hg with heq | hg
        · left
          have h1 : g = ge := congrArg Prod.fst heq
          have h2 : j = je := congrArg Prod.snd heq
          subst h1
          rw [if_pos h2.symm, Set.mem_singleton_iff]
        · exact Or.inr ⟨g, hg, rfl⟩

/-- The one-step part of the DFA equation: strings consisting of an
outgoing-edge symbol followed by a string accepted from the target. -/
def edgeStepLang (d : DFA) (i : Nat) : Language Grapheme :=
  { w | ∃ g j w', (g, j) ∈ d.outgoingEdges i ∧ w = g :: w' ∧ d.Accepts j w' }

/-- The DFA equation at one state: its language is the union over outgoing
edges of the edge symbol followed by the target's language, plus epsilon at
final states. -/
theorem stateLang_equation (d : DFA) (i : Nat) :
    d.stateLang i =
      edgeStepLang d i + (if d.isFinalState i then 1 else 0) := by
  apply Set.eq_of_subset_of_subset
  · intro w hw
    rw [Language.mem_add]
    cases hw with
    | final hf =>
        right
        rw [if_pos hf]
        exact Language.nil_mem_one
    | step he hacc =>
        left
        exact ⟨_, _, _, he, rfl, hacc⟩
  · intro w hw
    rw [Language.mem_add] at hw
    rcases hw with ⟨g, j, w', he, rfl, hacc⟩ | h
    · exact DFA.Accepts.step he hacc
    · by_cases hf : d.isFinalState i
      · rw [if_pos hf] at h
        rw [Language.mem_one] at h
        subst h
        exact DFA.Accepts.final hf
      · rw [if_neg hf] at h
        exact absurd h (by simp)

/-- Sum of the row entries against the state languages, over the first `m`
columns. -/
def rowSum (a : EMat) (L : Nat → Language Grapheme) (i m : Nat) :
    Language Grapheme :=
  ((List.range m).map (fun j => langO (a i j) * L j)).sum

theorem rowSum_zero (a : EMat) (L : Nat → Language Grapheme) (i : Nat) :
    rowSum a L i 0 = 0 := rfl

theorem rowSum_succ (a : EMat) (L : Nat → Language Grapheme) (i m : Nat) :
    rowSum a L i (m + 1) = rowSum a L i m + langO (a i m) * L m := by
  rw [rowSum, rowSum, List.range_succ, List.map_append, List.sum_append,
    List.map_cons, List.map_nil, List.sum_cons, List.sum_nil, add_zero]

theorem rowSum_congr (a a' : EMat) (L : Nat → Language Grapheme) (i i' m : Nat)
    (h : ∀ j, j < m → a i j = a' i' j) : rowSum a L i m = rowSum a' L i' m := by
  rw [rowSum, rowSum]
  congr 1
  apply List.map_congr_left
  intro j hj
  rw [h j (List.mem_range.mp hj)]

theorem mul_listSum (r : Language Grapheme) (l : List Nat)
    (f : Nat → Language Grapheme) :
    r * (l.map f).sum = (l.map (fun x => r * f x)).sum := by
  induction l with
  | nil => simp
  | cons x rest ih =>
      rw [List.map_cons, List.map_cons, List.sum_cons, List.sum_cons, mul_add, ih]

theorem listSum_add_pointwise (l : List Nat)
    (f g : Nat → Language Grapheme) :
    (l.map (fun x => f x + g x)).sum = (l.map f).sum + (l.map g).sum := by
  induction l with
  | nil => simp
  | cons x rest ih =>
      rw [List.map_cons, List.map_cons, List.map_cons, List.sum_cons,
        List.sum_cons, List.sum_cons, ih]
      abel

end Expression

/-! ## Characterization of the build phase -/

namespace Expression

theorem mem_rowSum (a : EMat) (L : Nat → Language Grapheme) (i m : Nat)
    (w : List Grapheme) :
    w ∈ rowSum a L i m ↔ ∃ j, j < m ∧ w ∈ langO (a i j) * L j := by
  induction m with
  | zero =>
      rw [rowSum_zero]
      simp
  | succ m ih =>
      rw [rowSum_succ, Language.mem_add, ih]
      constructor
      · rintro (⟨j, hj, hw⟩ | hw)
        · exact ⟨j, Nat.lt_succ_of_lt hj, hw⟩
        · exact ⟨m, Nat.lt_succ_self m, hw⟩
      · rintro ⟨j, hj, hw⟩
        rcases Nat.lt_succ_iff_lt_or_eq.mp hj with h | rfl
        · exact Or.inl ⟨j, h, hw⟩
        · exact Or.inr hw

theorem buildEdges_other (config : RegExpConfig) (i : Nat)
    (edges : List (Grapheme × Nat)) (a : EMat) (i' j : Nat) (h : i' ≠ i) :
    (buildEdges config i edges a) i' j = a i' j := by
  induction edges generalizing a with
  | nil => rfl
  | cons e rest ih =>
      show (buildEdges config i rest _) i' j = _
      rw [ih]
      simp only [updMat]
      rw [if_neg (fun hc => h hc.1)]

theorem buildEdges_lang (config : RegExpConfig) (i : Nat)
    (edges : List (Grapheme × Nat)) (a : EMat) (ha : matWf a)
    (hedges : ∀ p ∈ edges, graphemeWf p.1 = true) (j : Nat) :
    langO ((buildEdges config i edges a) i j) =
      langO (a i j) + edgeLang edges j := by
  induction edges generalizing a with
  | nil =>
      show langO (a i j) = langO (a i j) + (0 : Language Grapheme)
      rw [add_zero]
  | cons e rest ih =>
      have hlit : wfb (.Literal [e.1]) = true := by
        rw [wfb_literal]
        simp [hedges e (List.mem_cons_self _ _)]
      have ha' : matWf (updMat a i e.2
          (if (a i e.2).isSome then union config (a i e.2) (some (.Literal [e.1]))
           else some (.Literal [e.1]))) := by
        apply updMat_wf _ _ _ _ ha
        by_cases hsome : (a i e.2).isSome
        · rw [if_pos hsome]
          exact union_wf config _ _ (ha i e.2) hlit
        · rw [if_neg hsome]
          exact hlit
      show langO ((buildEdges config i rest _) i j) =
        langO (a i j) + ((if e.2 = j then {[e.1]} else 0) + edgeLang rest j)
      rw [ih _ ha' (fun q hq => hedges q (List.mem_cons_of_mem _ hq))]
      by_cases hej : e.2 = j
      · have hcell : (updMat a i e.2
            (if (a i e.2).isSome then union config (a i e.2) (some (.Literal [e.1]))
             else some (.Literal [e.1]))) i j =
            (if (a i e.2).isSome then union config (a i e.2) (some (.Literal [e.1]))
             else some (.Literal [e.1])) := by
          rw [updMat, if_pos ⟨rfl, hej.symm⟩]
        rw [hcell, if_pos hej]
        by_cases hsome : (a i e.2).isSome
        · rw [if_pos hsome,
            union_lang config (a i e.2) (some (.Literal [e.1])) (ha i e.2) hlit]
          rw [hej]
          show (langO (a i j) + lang (.Literal [e.1])) + edgeLang rest j = _
          rw [lang_literal, add_assoc]
        · rw [if_neg hsome]
          have hnone : a i e.2 = none := by
            cases hcc : a i e.2 with
            | none => rfl
            | some x => rw [hcc] at hsome; exact absurd rfl hsome
          rw [hej] at hnone
          rw [hnone, langO_none, zero_add, langO_some, lang_literal]
      · have hcell : (updMat a i e.2
            (if (a i e.2).isSome then union config (a i e.2) (some (.Literal [e.1]))
             else some (.Literal [e.1]))) i j = a i j := by
          rw [updMat, if_neg (fun hc => hej (hc.2.symm))]
        rw [hcell, if_neg hej, zero_add]

/-- The vector side of one build step. -/
theorem buildStep_vec (config : RegExpConfig) (d : DFA) (ab : EMat × EVec)
    (i i' : Nat) :
    (buildStep config d ab i).2 i' =
      if i' = i ∧ d.isFinalState i then some (.Literal []) else ab.2 i' := by
  show (if d.isFinalState i then updVec ab.2 i (some (.Literal [])) else ab.2) i' = _
  by_cases hf : d.isFinalState i
  · rw [if_pos hf, updVec]
    by_cases hi : i' = i
    · rw [if_pos hi, if_pos ⟨hi, hf⟩]
    · rw [if_neg hi, if_neg (fun hc => hi hc.1)]
  · rw [if_neg hf, if_neg (fun hc => hf hc.2)]

/-- Characterization of the build phase: a prefix of the state loop yields a
matrix whose processed rows hold exactly the per-edge languages and a vector
marking processed final states with the epsilon literal. -/
theorem buildFold_char (config : RegExpConfig) (d : DFA) (m : Nat)
    (hedges : ∀ i, i < m → ∀ p ∈ d.outgoingEdges i, graphemeWf p.1 = true) :
    matWf ((List.range m).foldl (buildStep config d)
        (fun _ _ => none, fun _ => none)).1 ∧
    vecWf ((List.range m).foldl (buildStep config d)
        (fun _ _ => none, fun _ => none)).2 ∧
    (∀ i j, i < m →
      langO (((List.range m).foldl (buildStep config d)
        (fun _ _ => none, fun _ => none)).1 i j) =
        edgeLang (d.outgoingEdges i) j) ∧
    (∀ i j, ¬i < m →
      ((List.range m).foldl (buildStep config d)
        (fun _ _ => none, fun _ => none)).1 i j = none) ∧
    (∀ i, ((List.range m).foldl (buildStep config d)
        (fun _ _ => none, fun _ => none)).2 i =
      if i < m ∧ d.isFinalState i then some (.Literal []) else none) := by
  induction m with
  | zero =>
      refine ⟨fun _ _ => rfl, fun _ => rfl, ?_, ?_, ?_⟩
      · intro i j hi
        exact absurd hi (Nat.not_lt_zero i)
      · intro i j _
        rfl
      · intro i
        rw [if_neg (fun hc => Nat.not_lt_zero i hc.1)]
        rfl
  | succ m ih =>
      obtain ⟨iha, ihb, ihm, ihn, ihv⟩ := ih
        (fun i hi => hedges i (Nat.lt_succ_of_lt hi))
      have hfold : (List.range (m + 1)).foldl (buildStep config d)
          (fun _ _ => none, fun _ => none) =
          buildStep config d ((List.range m).foldl (buildStep config d)
            (fun _ _ => none, fun _ => none)) m := by
        rw [List.range_succ, List.foldl_append, List.foldl_cons, List.foldl_nil]
      set prev := (List.range m).foldl (buildStep config d)
        (fun _ _ => none, fun _ => none) with hprev
      have hstep := buildStep_wf config d prev m iha ihb
        (fun p hp => hedges m (Nat.lt_succ_self m) p hp)
      refine ⟨by rw [hfold]; exact hstep.1, by rw [hfold]; exact hstep.2,
        ?_, ?_, ?_⟩
      · intro i j hi
        rw [hfold]
        show langO ((buildEdges config m (d.outgoingEdges m) prev.1) i j) = _
        rcases Nat.lt_succ_iff_lt_or_eq.mp hi with h | rfl
        · rw [buildEdges_other config m _ _ i j (Nat.ne_of_lt h)]
          exact ihm i j h
        · rw [buildEdges_lang config i _ _ iha
            (fun p hp => hedges i (Nat.lt_succ_self i) p hp) j]
          rw [ihn i j (Nat.lt_irrefl i), langO_none, zero_add]
      · intro i j hi
        rw [hfold]
        show (buildEdges config m (d.outgoingEdges m) prev.1) i j = none
        have him : i ≠ m := fun hc => hi (hc ▸ Nat.lt_succ_self m)
        rw [buildEdges_other config m _ _ i j him]
        exact ihn i j (fun hc => hi (Nat.lt_succ_of_lt hc))
      · intro i
        rw [hfold, buildStep_vec, ihv i]
        by_cases him : i = m
        · subst him
          by_cases hf : d.isFinalState i
          · rw [if_pos ⟨rfl, hf⟩, if_pos ⟨Nat.lt_succ_self i, hf⟩]
          · rw [if_neg (fun hc => hf hc.2), if_neg (fun hc => hf hc.2),
              if_neg (fun hc => hf hc.2)]
        · rw [if_neg (fun hc => him hc.1)]
          by_cases hlt : i < m ∧ d.isFinalState i
          · rw [if_pos hlt, if_pos ⟨Nat.lt_succ_of_lt hlt.1, hlt.2⟩]
          · rw [if_neg hlt, if_neg (fun hc => hlt ⟨Nat.lt_of_le_of_ne
              (Nat.le_of_lt_succ hc.1) him, hc.2⟩)]

end Expression

/-! ## Characterization of the elimination phase -/

namespace Expression

theorem elimSelfFold_char (n : Nat) (a : EMat) :
    ∀ m, m ≤ n → ∀ i j,
    ((List.range m).foldl
      (fun a j => updMat a n j
        (concatenate (repeatZeroOrMoreTimes (a n n)) (a n j))) a) i j =
      if i = n ∧ j < m then
        concatenate (repeatZeroOrMoreTimes (a n n)) (a n j)
      else a i j := by
  intro m
  induction m with
  | zero =>
      intro _ i j
      rw [if_neg (fun hc => Nat.not_lt_zero j hc.2)]
      rfl
  | succ m ih =>
      intro hmn i j
      have hmn' : m ≤ n := Nat.le_of_succ_le hmn
      rw [List.range_succ, List.foldl_append, List.foldl_cons, List.foldl_nil]
      set A := (List.range m).foldl
        (fun a j => updMat a n j
          (concatenate (repeatZeroOrMoreTimes (a n n)) (a n j))) a with hA
      have h1 : A n n = a n n := by
        rw [ih hmn' n n,
          if_neg (fun hc => Nat.lt_irrefl n (Nat.lt_of_lt_of_le hc.2 hmn'))]
      have h2 : A n m = a n m := by
        rw [ih hmn' n m, if_neg (fun hc => Nat.lt_irrefl m hc.2)]
      show (if i = n ∧ j = m then
          concatenate (repeatZeroOrMoreTimes (A n n)) (A n m)
        else A i j) = _
      rw [h1, h2]
      by_cases hin : i = n
      · subst hin
        by_cases hjm : j = m
        · subst hjm
          rw [if_pos ⟨rfl, rfl⟩, if_pos ⟨rfl, Nat.lt_succ_self j⟩]
        · rw [if_neg (fun hc => hjm hc.2), ih hmn' i j]
          by_cases hjlt : j < m
          · rw [if_pos ⟨rfl, hjlt⟩, if_pos ⟨rfl, Nat.lt_succ_of_lt hjlt⟩]
          · rw [if_neg (fun hc => hjlt hc.2),
              if_neg (fun hc => hjm (Nat.eq_of_lt_succ_of_not_lt hc.2 hjlt))]
      · rw [if_neg (fun hc => hin hc.1), ih hmn' i j,
          if_neg (fun hc => hin hc.1), if_neg (fun hc => hin hc.1)]

theorem elimSelf_mat (config : RegExpConfig) (n : Nat) (ab : EMat × EVec)
    (i j : Nat) :
    (elimSelf config n ab).1 i j =
      if i = n ∧ j < n ∧ (ab.1 n n).isSome then
        concatenate (repeatZeroOrMoreTimes (ab.1 n n)) (ab.1 n j)
      else ab.1 i j := by
  rw [elimSelf]
  by_cases hs : (ab.1 n n).isSome
  · rw [if_pos hs]
    show ((List.range n).foldl
      (fun a j => updMat a n j
        (concatenate (repeatZeroOrMoreTimes (a n n)) (a n j))) ab.1) i j = _
    rw [elimSelfFold_char n ab.1 n le_rfl i j]
    by_cases hc : i = n ∧ j < n
    · rw [if_pos hc, if_pos ⟨hc.1, hc.2, hs⟩]
    · rw [if_neg hc, if_neg (fun h => hc ⟨h.1, h.2.1⟩)]
  · rw [if_neg hs, if_neg (fun h => hs h.2.2)]

theorem elimSelf_vec (config : RegExpConfig) (n : Nat) (ab : EMat × EVec)
    (i : Nat) :
    (elimSelf config n ab).2 i =
      if i = n ∧ (ab.1 n n).isSome then
        concatenate (repeatZeroOrMoreTimes (ab.1 n n)) (ab.2 n)
      else ab.2 i := by
  rw [elimSelf]
  by_cases hs : (ab.1 n n).isSome
  · rw [if_pos hs]
    show (if i = n then
        concatenate (repeatZeroOrMoreTimes (ab.1 n n)) (ab.2 n)
      else ab.2 i) = _
    by_cases hi : i = n
    · rw [if_pos hi, if_pos ⟨hi, hs⟩]
    · rw [if_neg hi, if_neg (fun h => hi h.1)]
  · rw [if_neg hs, if_neg (fun h => hs h.2)]

theorem elimSelf_eps (config : RegExpConfig) (n : Nat) (ab : EMat × EVec)
    (heps : ∀ i j, [] ∉ langO (ab.1 i j)) :
    ∀ i j, [] ∉ langO ((elimSelf config n ab).1 i j) := by
  intro i j
  rw [elimSelf_mat]
  by_cases hc : i = n ∧ j < n ∧ (ab.1 n n).isSome
  · rw [if_pos hc, concatenate_lang]
    intro hmem
    exact heps n j (nil_mem_mul_iff.mp hmem).2
  · rw [if_neg hc]
    exact heps i j

theorem elimSelf_solved (config : RegExpConfig) (n : Nat) (ab : EMat × EVec)
    (L : Nat → Language Grapheme)
    (heps : ∀ i j, [] ∉ langO (ab.1 i j))
    (heq : L n = rowSum ab.1 L n (n + 1) + langO (ab.2 n)) :
    L n = rowSum (elimSelf config n ab).1 L n n +
      langO ((elimSelf config n ab).2 n) := by
  rw [rowSum_succ] at heq
  by_cases hs : (ab.1 n n).isSome
  · obtain ⟨e, he⟩ := Option.isSome_iff_exists.mp hs
    have hA : [] ∉ lang e := by
      have := heps n n
      rw [he, langO_some] at this
      exact this
    have hX : L n = lang e * L n + (rowSum ab.1 L n n + langO (ab.2 n)) := by
      rw [he, langO_some] at heq
      exact heq.trans (by abel)
    have harden := arden hA hX
    have hb' : langO ((elimSelf config n ab).2 n) =
        (lang e)∗ * langO (ab.2 n) := by
      rw [elimSelf_vec, if_pos ⟨rfl, hs⟩, concatenate_lang,
        repeatZeroOrMoreTimes_lang (ab.1 n n) e he]
    have hr' : rowSum (elimSelf config n ab).1 L n n =
        (lang e)∗ * rowSum ab.1 L n n := by
      rw [rowSum, rowSum, mul_listSum]
      congr 1
      apply List.map_congr_left
      intro j hj
      rw [elimSelf_mat, if_pos ⟨rfl, List.mem_range.mp hj, hs⟩,
        concatenate_lang, repeatZeroOrMoreTimes_lang (ab.1 n n) e he, mul_assoc]
    rw [hr', hb', ← mul_add]
    exact harden
  · have hnone : ab.1 n n = none := Option.not_isSome_iff_eq_none.mp hs
    rw [hnone, langO_none, zero_mul, add_zero] at heq
    have hel : elimSelf config n ab = ab := by
      rw [elimSelf, if_neg hs]
    rw [hel]
    exact heq

/-- One iteration of the incoming-absorption fold of `elimIncoming`
(lines 94-106 of `src/ast.rs`). -/
def elimIncStep (config : RegExpConfig) (n : Nat) (ab : EMat × EVec)
    (i : Nat) : EMat × EVec :=
  if (ab.1 i n).isSome then
    let b := updVec ab.2 i
      (union config (ab.2 i) (concatenate (ab.1 i n) (ab.2 n)))
    let a := (List.range n).foldl
      (fun a j =>
        updMat a i j (union config (a i j) (concatenate (a i n) (a n j))))
      ab.1
    (a, b)
  else ab

theorem elimIncoming_eq_fold (config : RegExpConfig) (n : Nat)
    (ab : EMat × EVec) :
    elimIncoming config n ab =
      (List.range n).foldl (elimIncStep config n) ab := rfl

theorem elimIncRow_char (config : RegExpConfig) (n r : Nat) (a : EMat)
    (hrn : r ≠ n) :
    ∀ m, m ≤ n → ∀ i j,
    ((List.range m).foldl
      (fun a j =>
        updMat a r j (union config (a r j) (concatenate (a r n) (a n j))))
      a) i j =
      if i = r ∧ j < m then
        union config (a r j) (concatenate (a r n) (a n j))
      else a i j := by
  intro m
  induction m with
  | zero =>
      intro _ i j
      rw [if_neg (fun hc => Nat.not_lt_zero j hc.2)]
      rfl
  | succ m ih =>
      intro hmn i j
      have hmn' : m ≤ n := Nat.le_of_succ_le hmn
      rw [List.range_succ, List.foldl_append, List.foldl_cons, List.foldl_nil]
      set A := (List.range m).foldl
        (fun a j =>
          updMat a r j (union config (a r j) (concatenate (a r n) (a n j))))
        a with hA
      have h1 : A r m = a r m := by
        rw [ih hmn' r m, if_neg (fun hc => Nat.lt_irrefl m hc.2)]
      have h2 : A r n = a r n := by
        rw [ih hmn' r n,
          if_neg (fun hc => Nat.lt_irrefl n (Nat.lt_of_lt_of_le hc.2 hmn'))]
      have h3 : A n m = a n m := by
        rw [ih hmn' n m, if_neg (fun hc => hrn hc.1.symm)]
      show (if i = r ∧ j = m then
          union config (A r m) (concatenate (A r n) (A n m))
        else A i j) = _
      rw [h1, h2, h3]
      by_cases hir : i = r
      · subst hir
        by_cases hjm : j = m
        · subst hjm
          rw [if_pos ⟨rfl, rfl⟩, if_pos ⟨rfl, Nat.lt_succ_self j⟩]
        · rw [if_neg (fun hc => hjm hc.2), ih hmn' i j]
          by_cases hjlt : j < m
          · rw [if_pos ⟨rfl, hjlt⟩, if_pos ⟨rfl, Nat.lt_succ_of_lt hjlt⟩]
          · rw [if_neg (fun hc => hjlt hc.2),
              if_neg (fun hc => hjm (Nat.eq_of_lt_succ_of_not_lt hc.2 hjlt))]
      · rw [if_neg (fun hc => hir hc.1), ih hmn' i j,
          if_neg (fun hc => hir hc.1), if_neg (fun hc => hir hc.1)]

theorem elimIncStep_mat (config : RegExpConfig) (n r : Nat)
    (ab : EMat × EVec) (hrn : r < n) (i j : Nat) :
    (elimIncStep config n ab r).1 i j =
      if i = r ∧ j < n ∧ (ab.1 r n).isSome then
        union config (ab.1 r j) (concatenate (ab.1 r n) (ab.1 n j))
      else ab.1 i j := by
  rw [elimIncStep]
  by_cases hs : (ab.1 r n).isSome
  · rw [if_pos hs]
    show ((List.range n).foldl
      (fun a j =>
        updMat a r j (union config (a r j) (concatenate (a r n) (a n j))))
      ab.1) i j = _
    rw [elimIncRow_char config n r ab.1 (Nat.ne_of_lt hrn) n le_rfl i j]
    by_cases hc : i = r ∧ j < n
    · rw [if_pos hc, if_pos ⟨hc.1, hc.2, hs⟩]
    · rw [if_neg hc, if_neg (fun h => hc ⟨h.1, h.2.1⟩)]
  · rw [if_neg hs, if_neg (fun h => hs h.2.2)]

theorem elimIncStep_vec (config : RegExpConfig) (n r : Nat)
    (ab : EMat × EVec) (i : Nat) :
    (elimIncStep config n ab r).2 i =
      if i = r ∧ (ab.1 r n).isSome then
        union config (ab.2 r) (concatenate (ab.1 r n) (ab.2 n))
      else ab.2 i := by
  rw [elimIncStep]
  by_cases hs : (ab.1 r n).isSome
  · rw [if_pos hs]
    show (if i = r then
        union config (ab.2 r) (concatenate (ab.1 r n) (ab.2 n))
      else ab.2 i) = _
    by_cases hi : i = r
    · rw [if_pos hi, if_pos ⟨hi, hs⟩]
    · rw [if_neg hi, if_neg (fun h => hi h.1)]
  · rw [if_neg hs, if_neg (fun h => hs h.2)]

theorem elimIncStep_wf (config : RegExpConfig) (n r : Nat)
    (ab : EMat × EVec) (hrn : r < n) (ha : matWf ab.1) (hb : vecWf ab.2) :
    matWf (elimIncStep config n ab r).1 ∧ vecWf (elimIncStep config n ab r).2 := by
  constructor
  · intro i j
    rw [elimIncStep_mat config n r ab hrn i j]
    by_cases hc : i = r ∧ j < n ∧ (ab.1 r n).isSome
    · rw [if_pos hc]
      exact union_wf config _ _ (ha r j)
        (concatenate_wf _ _ (ha r n) (ha n j))
    · rw [if_neg hc]
      exact ha i j
  · intro i
    rw [elimIncStep_vec config n r ab i]
    by_cases hc : i = r ∧ (ab.1 r n).isSome
    · rw [if_pos hc]
      exact union_wf config _ _ (hb r)
        (concatenate_wf _ _ (ha r n) (hb n))
    · rw [if_neg hc]
      exact hb i

theorem elimIncStep_eps (config : RegExpConfig) (n r : Nat)
    (ab : EMat × EVec) (hrn : r < n) (ha : matWf ab.1)
    (heps : ∀ i j, [] ∉ langO (ab.1 i j)) :
    ∀ i j, [] ∉ langO ((elimIncStep config n ab r).1 i j) := by
  intro i j
  rw [elimIncStep_mat config n r ab hrn i j]
  by_cases hc : i = r ∧ j < n ∧ (ab.1 r n).isSome
  · rw [if_pos hc,
      union_lang config _ _ (ha r j) (concatenate_wf _ _ (ha r n) (ha n j)),
      concatenate_lang]
    intro hmem
    rw [Language.mem_add] at hmem
    rcases hmem with h | h
    · exact heps r j h
    · exact heps r n (nil_mem_mul_iff.mp h).1
  · rw [if_neg hc]
    exact heps i j

theorem elimIncStep_solved (config : RegExpConfig) (n r : Nat)
    (ab : EMat × EVec) (L : Nat → Language Grapheme) (hrn : r < n)
    (ha : matWf ab.1) (hb : vecWf ab.2)
    (hrow : L r = rowSum ab.1 L r (n + 1) + langO (ab.2 r))
    (hrown : L n = rowSum ab.1 L n n + langO (ab.2 n)) :
    L r = rowSum (elimIncStep config n ab r).1 L r n +
      langO ((elimIncStep config n ab r).2 r) := by
  rw [rowSum_succ] at hrow
  by_cases hs : (ab.1 r n).isSome
  · have hvec : langO ((elimIncStep config n ab r).2 r) =
        langO (ab.2 r) + langO (ab.1 r n) * langO (ab.2 n) := by
      rw [elimIncStep_vec, if_pos ⟨rfl, hs⟩,
        union_lang config _ _ (hb r) (concatenate_wf _ _ (ha r n) (hb n)),
        concatenate_lang]
    have hmat : rowSum (elimIncStep config n ab r).1 L r n =
        rowSum ab.1 L r n + langO (ab.1 r n) * rowSum ab.1 L n n := by
      rw [rowSum, rowSum, rowSum, mul_listSum, ← listSum_add_pointwise]
      congr 1
      apply List.map_congr_left
      intro j hj
      rw [elimIncStep_mat config n r ab hrn r j,
        if_pos ⟨rfl, List.mem_range.mp hj, hs⟩,
        union_lang config _ _ (ha r j) (concatenate_wf _ _ (ha r n) (ha n j)),
        concatenate_lang, add_mul, mul_assoc]
    rw [hmat, hvec]
    rw [hrown, mul_add] at hrow
    exact hrow.trans (by abel)
  · have hnone : ab.1 r n = none := Option.not_isSome_iff_eq_none.mp hs
    rw [hnone, langO_none, zero_mul, add_zero] at hrow
    have hel : elimIncStep config n ab r = ab := by
      rw [elimIncStep, if_neg hs]
    rw [hel]
    exact hrow

theorem elimIncomingFold_inv (config : RegExpConfig) (n : Nat)
    (L : Nat → Language Grapheme) (ab : EMat × EVec)
    (ha : matWf ab.1) (hb : vecWf ab.2)
    (heps : ∀ i j, [] ∉ langO (ab.1 i j))
    (hrown : L n = rowSum ab.1 L n n + langO (ab.2 n))
    (hrows : ∀ i, i < n → L i = rowSum ab.1 L i (n + 1) + langO (ab.2 i)) :
    ∀ m, m ≤ n →
      matWf ((List.range m).foldl (elimIncStep config n) ab).1 ∧
      vecWf ((List.range m).foldl (elimIncStep config n) ab).2 ∧
      (∀ i j,
        [] ∉ langO (((List.range m).foldl (elimIncStep config n) ab).1 i j)) ∧
      (∀ i j, m ≤ i →
        ((List.range m).foldl (elimIncStep config n) ab).1 i j = ab.1 i j) ∧
      (∀ i, m ≤ i →
        ((List.range m).foldl (elimIncStep config n) ab).2 i = ab.2 i) ∧
      (∀ i, i < m →
        L i =
          rowSum ((List.range m).foldl (elimIncStep config n) ab).1 L i n +
            langO (((List.range m).foldl (elimIncStep config n) ab).2 i)) := by
  intro m
  induction m with
  | zero =>
      exact fun _ => ⟨ha, hb, heps, fun _ _ _ => rfl, fun _ _ => rfl,
        fun i hi => absurd hi (Nat.not_lt_zero i)⟩
  | succ m ih =>
      intro hmn
      have hmn' : m ≤ n := Nat.le_of_succ_le hmn
      have hmln : m < n := hmn
      obtain ⟨iha, ihb, iheps, ihm, ihv, ihsolved⟩ := ih hmn'
      have hfold : (List.range (m + 1)).foldl (elimIncStep config n) ab =
          elimIncStep config n
            ((List.range m).foldl (elimIncStep config n) ab) m := by
        rw [List.range_succ, List.foldl_append, List.foldl_cons, List.foldl_nil]
      set abm := (List.range m).foldl (elimIncStep config n) ab with habm
      have hrowm : L m = rowSum abm.1 L m (n + 1) + langO (abm.2 m) := by
        rw [rowSum_congr abm.1 ab.1 L m m (n + 1)
          (fun j _ => ihm m j le_rfl), ihv m le_rfl]
        exact hrows m hmln
      have hrownm : L n = rowSum abm.1 L n n + langO (abm.2 n) := by
        rw [rowSum_congr abm.1 ab.1 L n n n
          (fun j _ => ihm n j hmn'), ihv n hmn']
        exact hrown
      have hstep_wf := elimIncStep_wf config n m abm hmln iha ihb
      have hstep_eps := elimIncStep_eps config n m abm hmln iha iheps
      have hstep_mat_ne : ∀ i j, i ≠ m →
          (elimIncStep config n abm m).1 i j = abm.1 i j := by
        intro i j hne
        rw [elimIncStep_mat config n m abm hmln i j,
          if_neg (fun hc => hne hc.1)]
      have hstep_vec_ne : ∀ i, i ≠ m →
          (elimIncStep config n abm m).2 i = abm.2 i := by
        intro i hne
        rw [elimIncStep_vec config n m abm i, if_neg (fun hc => hne hc.1)]
      have hsolved_m := elimIncStep_solved config n m abm L hmln iha ihb
        hrowm hrownm
      refine ⟨by rw [hfold]; exact hstep_wf.1, by rw [hfold]; exact hstep_wf.2,
        by rw [hfold]; exact hstep_eps, ?_, ?_, ?_⟩
      · intro i j hi
        rw [hfold, hstep_mat_ne i j (fun hc => Nat.lt_irrefl m (hc ▸ hi))]
        exact ihm i j (Nat.le_of_succ_le hi)
      · intro i hi
        rw [hfold, hstep_vec_ne i (fun hc => Nat.lt_irrefl m (hc ▸ hi))]
        exact ihv i (Nat.le_of_succ_le hi)
      · intro i hi
        rcases Nat.lt_succ_iff_lt_or_eq.mp hi with h | rfl
        · have hne : i ≠ m := Nat.ne_of_lt h
          rw [hfold, rowSum_congr (elimIncStep config n abm m).1 abm.1 L i i n
            (fun j _ => hstep_mat_ne i j hne), hstep_vec_ne i hne]
          exact ihsolved i h
        · rw [hfold]
          exact hsolved_m

theorem elimStage_inv (config : RegExpConfig) (n : Nat)
    (ab : EMat × EVec) (L : Nat → Language Grapheme)
    (ha : matWf ab.1) (hb : vecWf ab.2)
    (heps : ∀ i j, [] ∉ langO (ab.1 i j))
    (heqs : ∀ i, i < n + 1 →
      L i = rowSum ab.1 L i (n + 1) + langO (ab.2 i)) :
    matWf (elimStage config n ab).1 ∧ vecWf (elimStage config n ab).2 ∧
    (∀ i j, [] ∉ langO ((elimStage config n ab).1 i j)) ∧
    (∀ i, i < n → L i = rowSum (elimStage config n ab).1 L i n +
      langO ((elimStage config n ab).2 i)) ∧
    (L n = rowSum (elimStage config n ab).1 L n n +
      langO ((elimStage config n ab).2 n)) := by
  obtain ⟨ha1, hb1⟩ := elimSelf_wf config n ab ha hb
  have heps1 := elimSelf_eps config n ab heps
  have hrown1 := elimSelf_solved config n ab L heps
    (heqs n (Nat.lt_succ_self n))
  have hrows1 : ∀ i, i < n →
      L i = rowSum (elimSelf config n ab).1 L i (n + 1) +
        langO ((elimSelf config n ab).2 i) := by
    intro i hi
    have hne : i ≠ n := Nat.ne_of_lt hi
    rw [rowSum_congr (elimSelf config n ab).1 ab.1 L i i (n + 1)
      (fun j _ => by rw [elimSelf_mat, if_neg (fun hc => hne hc.1)]),
      elimSelf_vec, if_neg (fun hc => hne hc.1)]
    exact heqs i (Nat.lt_succ_of_lt hi)
  obtain ⟨h1, h2, h3, h4, h5, h6⟩ := elimIncomingFold_inv config n L
    (elimSelf config n ab) ha1 hb1 heps1 hrown1 hrows1 n le_rfl
  have hstage : elimStage config n ab =
      (List.range n).foldl (elimIncStep config n) (elimSelf config n ab) := by
    rw [elimStage, elimIncoming_eq_fold]
  refine ⟨by rw [hstage]; exact h1, by rw [hstage]; exact h2,
    by rw [hstage]; exact h3, ?_, ?_⟩
  · intro i hi
    rw [hstage]
    exact h6 i hi
  · rw [hstage, rowSum_congr _ (elimSelf config n ab).1 L n n n
      (fun j _ => h4 n j le_rfl), h5 n le_rfl]
    exact hrown1

theorem runElim_solved (config : RegExpConfig)
    (L : Nat → Language Grapheme) :
    ∀ (m : Nat) (ab : EMat × EVec), 0 < m →
    matWf ab.1 → vecWf ab.2 →
    (∀ i j, [] ∉ langO (ab.1 i j)) →
    (∀ i, i < m → L i = rowSum ab.1 L i m + langO (ab.2 i)) →
    L 0 = langO ((runElim config m ab).2 0) := by
  intro m
  induction m with
  | zero =>
      intro ab h
      exact absurd h (Nat.lt_irrefl 0)
  | succ m ih =>
      intro ab _ ha hb heps heqs
      obtain ⟨h1, h2, h3, h4, h5⟩ := elimStage_inv config m ab L ha hb heps heqs
      show L 0 = langO ((runElim config m (elimStage config m ab)).2 0)
      rcases Nat.eq_zero_or_pos m with rfl | hmpos
      · rw [rowSum_zero, zero_add] at h5
        exact h5
      · exact ih (elimStage config m ab) hmpos h1 h2 h3 h4

end Expression

/-! ## Language of the synthesised expression: Expression::from is a correct
state-elimination driver -/

namespace Expression

theorem buildPhase_char (config : RegExpConfig) (d : DFA)
    (he : d.edgesWfB = true) :
    (∀ i j, i < d.stateCount →
      langO ((buildPhase config d).1 i j) = edgeLang (d.outgoingEdges i) j) ∧
    (∀ i j, ¬i < d.stateCount → (buildPhase config d).1 i j = none) ∧
    (∀ i, (buildPhase config d).2 i =
      if i < d.stateCount ∧ d.isFinalState i then some (.Literal [])
      else none) := by
  have hedges : ∀ i, i < d.stateCount →
      ∀ p ∈ d.outgoingEdges i, graphemeWf p.1 = true := by
    intro i hi p hp
    rw [DFA.edgesWfB, List.all_eq_true] at he
    have h1 := he i (List.mem_range.mpr hi)
    rw [List.all_eq_true] at h1
    exact h1 p hp
  obtain ⟨-, -, h3, h4, h5⟩ := buildFold_char config d d.stateCount hedges
  exact ⟨fun i j hi => h3 i j hi, h4, h5⟩

theorem buildPhase_eps (config : RegExpConfig) (d : DFA)
    (he : d.edgesWfB = true) :
    ∀ i j, [] ∉ langO ((buildPhase config d).1 i j) := by
  obtain ⟨h1, h2, -⟩ := buildPhase_char config d he
  intro i j hmem
  by_cases hi : i < d.stateCount
  · rw [h1 i j hi, mem_edgeLang] at hmem
    obtain ⟨g, -, hcontr⟩ := hmem
    exact List.cons_ne_nil g [] hcontr.symm
  · rw [h2 i j hi, langO_none] at hmem
    exact absurd hmem (by simp)

theorem buildPhase_equations (config : RegExpConfig) (d : DFA)
    (he : d.edgesWfB = true) (ht : d.targetsWfB = true) :
    ∀ i, i < d.stateCount →
      d.stateLang i =
        rowSum (buildPhase config d).1 d.stateLang i d.stateCount +
          langO ((buildPhase config d).2 i) := by
  have htgt : ∀ i, i < d.stateCount →
      ∀ p ∈ d.outgoingEdges i, p.2 < d.stateCount := by
    intro i hi p hp
    rw [DFA.targetsWfB, List.all_eq_true] at ht
    have h1 := ht i (List.mem_range.mpr hi)
    rw [List.all_eq_true] at h1
    exact of_decide_eq_true (h1 p hp)
  obtain ⟨h1, -, h3⟩ := buildPhase_char config d he
  intro i hi
  have hE : edgeStepLang d i =
      rowSum (buildPhase config d).1 d.stateLang i d.stateCount := by
    apply Set.eq_of_subset_of_subset
    · rintro w ⟨g, j, w', hedge, rfl, hacc⟩
      rw [mem_rowSum]
      refine ⟨j, htgt i hi (g, j) hedge, ?_⟩
      rw [h1 i j hi, Language.mem_mul]
      exact ⟨[g], (mem_edgeLang _ j [g]).mpr ⟨g, hedge, rfl⟩, w', hacc, rfl⟩
    · intro w hw
      rw [mem_rowSum] at hw
      obtain ⟨j, hj, hw⟩ := hw
      rw [h1 i j hi, Language.mem_mul] at hw
      obtain ⟨u, hu, v, hv, huv⟩ := hw
      obtain ⟨g, hedge, rfl⟩ := (mem_edgeLang _ j u).mp hu
      exact ⟨g, j, v, hedge, huv.symm, hv⟩
  have hF : (if d.isFinalState i then (1 : Language Grapheme) else 0) =
      langO ((buildPhase config d).2 i) := by
    rw [h3 i]
    by_cases hf : d.isFinalState i
    · rw [if_pos hf,
        if_pos (show i < d.stateCount ∧ d.isFinalState i = true from ⟨hi, hf⟩),
        langO_some, lang_epsilon]
    · rw [if_neg hf,
        if_neg (show ¬(i < d.stateCount ∧ d.isFinalState i = true) from
          fun hc => hf hc.2),
        langO_none]
  rw [stateLang_equation d i, hE, hF]

end Expression

/-- A one-state DFA with no final state and no edges: it is well formed but
accepts no string at all. -/
def emptyLangDfa : DFA := ⟨1, fun _ => false, fun _ => []⟩

/-- A two-state DFA accepting exactly the single-grapheme string `a`. -/
def singleWordDfa : DFA :=
  ⟨2, fun i => decide (i = 1),
    fun i => if i = 0 then [(⟨['a'], 1, 1⟩, 1)] else []⟩

namespace Expression

/-- Claim C1: the claim fails as stated.  A well-formed DFA whose language is
empty (here: one non-final state, no edges) makes `Expression::from` return
the epsilon literal, whose language `{ε}` is not the DFA's empty language. -/
theorem claim_C1_counterexample :
    emptyLangDfa.edgesWfB = true ∧ emptyLangDfa.targetsWfB = true ∧
    lang (fromDfa emptyLangDfa ⟨false⟩) ≠ emptyLangDfa.language := by
  refine ⟨rfl, rfl, ?_⟩
  intro heq
  have h0 : fromDfa emptyLangDfa ⟨false⟩ = .Literal [] := rfl
  rw [h0, lang_literal] at heq
  have hmem : [] ∈ emptyLangDfa.language := by
    rw [← heq]
    rfl
  obtain ⟨-, hacc⟩ := hmem
  cases hacc with
  | final hf => exact Bool.noConfusion hf

/-- Claim C1, amended: for every DFA whose edge graphemes are well formed,
whose edge targets stay below the state count, which has at least one state
and whose language is nonempty, the expression tree returned by
`Expression::from` denotes exactly the language of the DFA. -/
theorem claim_C1_amended (d : DFA) (config : RegExpConfig)
    (he : d.edgesWfB = true) (ht : d.targetsWfB = true)
    (hpos : 0 < d.stateCount) (hne : d.language ≠ 0) :
    lang (fromDfa d config) = d.language := by
  obtain ⟨ha, hb⟩ := buildPhase_wf config d he
  have heps := buildPhase_eps config d he
  have heqs := buildPhase_equations config d he ht
  have hsolved := runElim_solved config d.stateLang d.stateCount
    (buildPhase config d) hpos ha hb heps heqs
  have hlang : d.language = d.stateLang 0 := by
    apply Set.eq_of_subset_of_subset
    · rintro w ⟨-, hacc⟩
      exact hacc
    · intro w hacc
      exact ⟨hpos, hacc⟩
  rw [fromDfa]
  by_cases hcase : d.stateCount ≠ 0 ∧
      ((runElim config d.stateCount (buildPhase config d)).2 0).isSome
  · rw [if_pos hcase]
    obtain ⟨e, hsome⟩ := Option.isSome_iff_exists.mp hcase.2
    rw [hsome]
    show lang e = d.language
    rw [hlang, hsolved, hsome, langO_some]
  · exfalso
    have hnot : ¬((runElim config d.stateCount (buildPhase config d)).2
        0).isSome :=
      fun hs => hcase ⟨Nat.pos_iff_ne_zero.mp hpos, hs⟩
    have hnone : (runElim config d.stateCount (buildPhase config d)).2 0 =
        none := Option.not_isSome_iff_eq_none.mp hnot
    rw [hnone, langO_none] at hsolved
    apply hne
    rw [hlang, hsolved]

theorem claim_C1_amended_witness :
    (singleWordDfa.edgesWfB = true ∧ singleWordDfa.targetsWfB = true ∧
      0 < singleWordDfa.stateCount ∧ singleWordDfa.language ≠ 0) ∧
    lang (fromDfa singleWordDfa ⟨false⟩) = singleWordDfa.language := by
  have hne : singleWordDfa.language ≠ 0 := by
    intro hempty
    have hmem : [⟨['a'], 1, 1⟩] ∈ singleWordDfa.language :=
      ⟨by decide,
        DFA.Accepts.step (List.mem_cons_self _ _) (DFA.Accepts.final rfl)⟩
    rw [hempty] at hmem
    exact hmem
  exact ⟨⟨rfl, rfl, by decide, hne⟩,
    claim_C1_amended singleWordDfa ⟨false⟩ rfl rfl (by decide) hne⟩

end Expression

end Grex
